import Mathlib

/-!
RISC-V metadata model: bit-ranges, bit-specs, masks, tokenizer, ISA decoder.

A shallow embedding of `src/riscv-model.cc`.  Text (`std::string`, C strings) is a
list of characters, `panic` (which aborts the process) is the `none` result, and the
machine integers `unsigned long`, `size_t`, `ssize_t` and `int64_t` are 64 bits wide
(LP64), kept as `Nat` or `Int` with the wrap-around written out.
-/

namespace RiscvModel

/-- Text: the characters of a `std::string` or of a NUL-terminated C string. -/
abbrev Str := List Char

/-! ## C and C++ library functions used by the source -/

/-- The C library `isspace` in the "C" locale: space, `\t`, `\n`, `\v`, `\f`, `\r`. -/
def isspace (c : Char) : Bool :=
  c == ' ' || c == Char.ofNat 9 || c == Char.ofNat 10 || c == Char.ofNat 11 ||
    c == Char.ofNat 12 || c == Char.ofNat 13

/-- The value of a character as a digit in `strtoul` (bases up to 36), if it is one. -/
def digit_value (c : Char) : Option Nat :=
  if 48 ≤ c.toNat ∧ c.toNat ≤ 57 then some (c.toNat - 48)
  else if 97 ≤ c.toNat ∧ c.toNat ≤ 122 then some (c.toNat - 87)
  else if 65 ≤ c.toNat ∧ c.toNat ≤ 90 then some (c.toNat - 55)
  else none

/-- A decimal digit character, `0` to `9`. -/
def is_dec (c : Char) : Prop := 48 ≤ c.toNat ∧ c.toNat ≤ 57

instance is_dec_decidable (c : Char) : Decidable (is_dec c) := by
  unfold is_dec
  infer_instance

/-- A character that `print_signed` can write: a decimal digit or the minus sign. -/
def is_num_char (c : Char) : Prop := is_dec c ∨ c = '-'

instance is_num_char_decidable (c : Char) : Decidable (is_num_char c) := by
  unfold is_num_char
  infer_instance

/-- A character of a rendered bit-range: a digit, the minus sign or the colon. -/
def is_range_char (c : Char) : Prop := is_num_char c ∨ c = ':'

instance is_range_char_decidable (c : Char) : Decidable (is_range_char c) := by
  unfold is_range_char
  infer_instance

/-- The largest `unsigned long` (and `unsigned long long`, `size_t`): `2^64 - 1`. -/
def ULONG_MAX : Nat := 2 ^ 64 - 1

/-- The digit loop of `strtoul`: the exact value of the longest prefix of digits valid
in `base`, accumulated onto `acc` (the clamp to `ULONG_MAX` is applied by `strtoul`). -/
def strtoul_digits (base : Nat) : Nat → Str → Nat
  | acc, [] => acc
  | acc, c :: cs =>
    match digit_value c with
    | some d => if d < base then strtoul_digits base (acc * base + d) cs else acc
    | none => acc

/-- The optional sign of the subject sequence of `strtoul`: (negative?, what follows). -/
def strtoul_sign : Str → Bool × Str
  | [] => (false, [])
  | c :: r => if c = '-' then (true, r) else if c = '+' then (false, r) else (false, c :: r)

/-- Whether a character is a digit of the base. -/
def is_digit_of (base : Nat) (c : Char) : Bool :=
  match digit_value c with
  | some d => decide (d < base)
  | none => false

/-- The optional `0x` / `0X` that `strtoul` skips in base 16 when a hex digit follows. -/
def strtoul_skip_0x (base : Nat) : Str → Str
  | z :: x :: h :: r =>
    if base = 16 ∧ z = '0' ∧ (x = 'x' ∨ x = 'X') ∧ is_digit_of 16 h = true then h :: r
    else z :: x :: h :: r
  | s => s

/-- The C library `strtoul(s, nullptr, base)` for a fixed base (10, 16, 8 or 2 here),
as ISO C defines it: leading white space is skipped, an optional sign is read, then the
longest run of digits of the base; no digits gives 0, a value above `ULONG_MAX` gives
`ULONG_MAX`, and a minus sign negates the value in the unsigned type. -/
def strtoul (s : Str) (base : Nat) : Nat :=
  let sb := strtoul_sign (s.dropWhile isspace)
  let v := strtoul_digits base 0 (strtoul_skip_0x base sb.2)
  if ULONG_MAX < v then ULONG_MAX else if sb.1 then (2 ^ 64 - v) % 2 ^ 64 else v

/-- The C library `strtoull`: on LP64 `unsigned long long` is `unsigned long`. -/
def strtoull (s : Str) (base : Nat) : Nat := strtoul s base

/-- The conversion of an unsigned 64-bit value to `ssize_t` / `int64_t`
(two's complement). -/
def to_signed64 (n : Nat) : Int :=
  if n % 2 ^ 64 < 2 ^ 63 then ((n % 2 ^ 64 : Nat) : Int) else ((n % 2 ^ 64 : Nat) : Int) - 2 ^ 64

/-- The decimal digits of `n`, most significant first, put in front of `acc`. -/
def print_digits : Nat → Nat → Str → Str
  | 0, _, acc => acc
  | fuel + 1, n, acc =>
    if n / 10 = 0 then Char.ofNat (48 + n % 10) :: acc
    else print_digits fuel (n / 10) (Char.ofNat (48 + n % 10) :: acc)

/-- Stream insertion `ss << n` of an unsigned integer: its decimal digits. -/
def print_unsigned (n : Nat) : Str := print_digits (n + 1) n []

/-- Stream insertion `ss << z` of a signed integer (`ssize_t`): decimal, with `-`
in front of a negative value. -/
def print_signed (z : Int) : Str :=
  if z < 0 then '-' :: print_unsigned z.natAbs else print_unsigned z.toNat

/-- The method `std::string::find(pat)` from position 0; `none` is `npos`. -/
def find : Str → Str → Option Nat
  | [], pat => if pat.isEmpty then some 0 else none
  | c :: tl, pat => if pat.isPrefixOf (c :: tl) then some 0 else (find tl pat).map (· + 1)

/-- Subtraction of `size_t` values (positions and sizes of strings, all below `2^64`):
the difference wraps around below zero. -/
def size_sub (a b : Nat) : Nat := if b ≤ a then a - b else a + 2 ^ 64 - b

/-- The method `std::string::substr(pos, n)`; every call in the source has
`pos ≤ size()`, so it never throws. -/
def substr (s : Str) (pos n : Nat) : Str := (s.drop pos).take n

/-! ## Helpers of `riscv-util` -/

/-- Modelled from the spec: `split(str, separator, includeEmptyElements,
includeSeparators)` of `riscv-util` is not among the sources.  The spec speaks of
colon-separated components and of zero components being possible, so the string is cut
at every occurrence of the separator and, when the first flag is off, empty pieces are
dropped; the second flag, always off in the source, would keep the separators.
The first argument of the loop counts separator characters still to be skipped. -/
def split_loop (separator : Str) (includeEmptyElements includeSeparators : Bool) :
    Nat → Str → Str → List Str
  | _, cur, [] => if includeEmptyElements || !cur.isEmpty then [cur] else []
  | skip + 1, cur, _ :: rest =>
    split_loop separator includeEmptyElements includeSeparators skip cur rest
  | 0, cur, c :: rest =>
    if separator ≠ [] ∧ separator.isPrefixOf (c :: rest) then
      (if includeEmptyElements || !cur.isEmpty then [cur] else []) ++
        (if includeSeparators then [separator] else []) ++
        split_loop separator includeEmptyElements includeSeparators (separator.length - 1) [] rest
    else split_loop separator includeEmptyElements includeSeparators 0 (cur ++ [c]) rest

/-- Modelled from the spec: the `split` helper of `riscv-util` (see `split_loop`). -/
def split (str separator : Str) (includeEmptyElements includeSeparators : Bool) : List Str :=
  split_loop separator includeEmptyElements includeSeparators 0 [] str

/-! ## Bit-ranges (`riscv_bitrange`) -/

/-- Modelled from the spec: the record `riscv_bitrange` of `riscv-model.h`, a pair of
bit positions; the fields are `ssize_t`, as the two-argument constructor is called with
`ssize_t` values in `decode_mask` and `bitmask_to_bitrange`. -/
structure riscv_bitrange where
  msb : Int
  lsb : Int
  deriving DecidableEq, Repr

/-- The constructor `riscv_bitrange::riscv_bitrange(std::string bitrange)`
(lines 62-74); `none` is the `panic`. -/
def riscv_bitrange.of_string (bitrange : Str) : Option riscv_bitrange :=
  let comps := split bitrange [':'] false false
  if comps.length < 1 ∨ comps.length > 2 then none
  else if comps.length = 2 then
    some (riscv_bitrange.mk (to_signed64 (strtoul (comps.getD 0 []) 10))
      (to_signed64 (strtoul (comps.getD 1 []) 10)))
  else
    some (riscv_bitrange.mk (to_signed64 (strtoul (comps.getD 0 []) 10))
      (to_signed64 (strtoul (comps.getD 0 []) 10)))

/-- The method `riscv_bitrange::to_string(sep, collapse_single_bit_range)`
(lines 76-84). -/
def riscv_bitrange.to_string (r : riscv_bitrange) (sep : Str)
    (collapse_single_bit_range : Bool) : Str :=
  print_signed r.msb ++
    (if !collapse_single_bit_range || r.msb != r.lsb then sep ++ print_signed r.lsb else [])

/-- The fields of a bit-range hold `ssize_t` values: from `-2^63` to `2^63 - 1`. -/
def riscv_bitrange.in_range (r : riscv_bitrange) : Prop :=
  (-(2 : Int) ^ 63 ≤ r.msb ∧ r.msb < 2 ^ 63) ∧ (-(2 : Int) ^ 63 ≤ r.lsb ∧ r.lsb < 2 ^ 63)

instance riscv_bitrange.in_range_decidable (r : riscv_bitrange) : Decidable r.in_range := by
  unfold riscv_bitrange.in_range
  infer_instance

/-! ## Bit-specs (`riscv_bitspec`) -/

/-- Modelled from the spec: a segment of a bit-spec (`riscv_bitseg` of `riscv-model.h`):
the gather range (`first`) and the ordered scatter ranges (`second`). -/
abbrev riscv_bitseg := riscv_bitrange × List riscv_bitrange

/-- Modelled from the spec: the record `riscv_bitspec` of `riscv-model.h`: the ordered
segments. -/
structure riscv_bitspec where
  segments : List riscv_bitseg
  deriving DecidableEq, Repr

/-- Modelled from the spec: the default of the second parameter of
`riscv_bitrange::to_string`, declared in `riscv-model.h`; the spec has the string form
collapsed to `n` when `msb == lsb`. -/
def collapse_single_bit_range_default : Bool := true

/-- The inner loop of the bit-spec constructor (lines 107-109): every scatter
component is parsed as a bit-range and pushed in order. -/
def riscv_bitspec.scatter_of_strings : List Str → Option (List riscv_bitrange)
  | [] => some []
  | scatter_comp :: rest =>
    match riscv_bitrange.of_string scatter_comp with
    | none => none
    | some r =>
      match riscv_bitspec.scatter_of_strings rest with
      | none => none
      | some rs => some (r :: rs)

/-- The body of the outer loop of the bit-spec constructor (lines 101-115): one
comma-separated component gives one segment.  `bclose - bopen - 1` is `size_t`
arithmetic (`size_sub`). -/
def riscv_bitspec.segment_of_string (comp : Str) : Option riscv_bitseg :=
  match find comp ['['], find comp [']'] with
  | some bopen, some bclose =>
    match riscv_bitrange.of_string (substr comp 0 bopen) with
    | none => none
    | some gather =>
      match riscv_bitspec.scatter_of_strings
          (split (substr comp (bopen + 1) (size_sub (size_sub bclose bopen) 1)) ['|']
            false false) with
      | none => none
      | some scatter => some (gather, scatter)
  | _, _ =>
    match riscv_bitrange.of_string comp with
    | none => none
    | some gather => some (gather, [])

/-- The outer loop of the bit-spec constructor: the segments of the components. -/
def riscv_bitspec.segments_of_strings : List Str → Option (List riscv_bitseg)
  | [] => some []
  | comp :: rest =>
    match riscv_bitspec.segment_of_string comp with
    | none => none
    | some seg =>
      match riscv_bitspec.segments_of_strings rest with
      | none => none
      | some segs => some (seg :: segs)

/-- The constructor `riscv_bitspec::riscv_bitspec(std::string bitspec)` (lines 86-117);
`none` is a `panic` of a bit-range constructor. -/
def riscv_bitspec.of_string (bitspec : Str) : Option riscv_bitspec :=
  match riscv_bitspec.segments_of_strings (split bitspec [','] false false) with
  | none => none
  | some segs => some (riscv_bitspec.mk segs)

/-- The inner loop of `riscv_bitspec::to_string` (lines 133-136); the flag says that
the iterator is at `begin()`. -/
def riscv_bitspec.to_string_scatter : Bool → List riscv_bitrange → Str
  | _, [] => []
  | first, ti :: rest =>
    (if first then [] else ['|']) ++ ti.to_string [':'] collapse_single_bit_range_default ++
      riscv_bitspec.to_string_scatter false rest

/-- The outer loop of `riscv_bitspec::to_string` (lines 130-138). -/
def riscv_bitspec.to_string_segments : Bool → List riscv_bitseg → Str
  | _, [] => []
  | first, si :: rest =>
    (if first then [] else [',']) ++ si.1.to_string [':'] collapse_single_bit_range_default ++
      ['['] ++ riscv_bitspec.to_string_scatter true si.2 ++ [']'] ++
      riscv_bitspec.to_string_segments false rest

/-- The method `riscv_bitspec::to_string()` (lines 127-140). -/
def riscv_bitspec.to_string (s : riscv_bitspec) : Str :=
  riscv_bitspec.to_string_segments true s.segments

/-- The text that `riscv_bitspec::to_string` writes for one segment (lines 132-137):
the gather range, then the scatter ranges between square brackets. -/
def riscv_bitspec.to_string_segment (si : riscv_bitseg) : Str :=
  si.1.to_string [':'] collapse_single_bit_range_default ++
    '[' :: (riscv_bitspec.to_string_scatter true si.2 ++ [']'])

/-- Every field of every range of a segment holds an `ssize_t` value. -/
def riscv_bitseg_in_range (seg : riscv_bitseg) : Prop :=
  seg.1.in_range ∧ ∀ r ∈ seg.2, r.in_range

instance riscv_bitseg_in_range_decidable (seg : riscv_bitseg) :
    Decidable (riscv_bitseg_in_range seg) := by
  unfold riscv_bitseg_in_range
  infer_instance

/-! ## Values and masks -/

/-- The function `riscv_parse_value(valstr)` (lines 47-60); `strncmp(valstr, p, n) == 0`
holds when `p` starts `valstr`, and the `unsigned long long` result is stored in an
`int64_t`. -/
def riscv_parse_value (valstr : Str) : Int :=
  if ['0', 'x'].isPrefixOf valstr then to_signed64 (strtoull (valstr.drop 2) 16)
  else if ['0', 'b'].isPrefixOf valstr then to_signed64 (strtoull (valstr.drop 2) 2)
  else if ['0'].isPrefixOf valstr then to_signed64 (strtoull (valstr.drop 1) 8)
  else to_signed64 (strtoull valstr 10)

/-- The digit strings of a base, as the claims speak of them: not empty, and every
character a digit of the base (for base 16 in either case). -/
def valid_digits (base : Nat) (d : Str) : Prop :=
  d ≠ [] ∧ ∀ c ∈ d, is_digit_of base c = true

instance valid_digits_decidable (base : Nat) (d : Str) : Decidable (valid_digits base d) := by
  unfold valid_digits
  infer_instance

/-- The value of a digit string in a base (positional notation, most significant digit
first). -/
def digits_value (base : Nat) (d : Str) : Nat :=
  d.foldl (fun acc c => acc * base + (digit_value c).getD 0) 0

/-- How a signed 64-bit result holds the unsigned value `v`: a value below `2^63` as
it is, a value from `2^63` to `2^64 - 1` as `v - 2^64` (two's complement). -/
def holds_value (result : Int) (v : Nat) : Prop :=
  (v < 2 ^ 63 → result = (v : Int)) ∧
    (2 ^ 63 ≤ v → v < 2 ^ 64 → result = (v : Int) - 2 ^ 64)

instance holds_value_decidable (result : Int) (v : Nat) : Decidable (holds_value result v) := by
  unfold holds_value
  infer_instance

/-- Modelled from the spec: an opcode mask (`riscv_opcode_mask` of `riscv-model.h`):
a bit-range (`first`) and the `ssize_t` value it must hold (`second`). -/
abbrev riscv_opcode_mask := riscv_bitrange × Int

/-- The value part of `decode_mask` (lines 189-193): hex after `0x`, else decimal; the
`unsigned long` is stored in an `ssize_t`. -/
def decode_mask_value (v : Str) : Int :=
  if find v ['0', 'x'] = some 0 then to_signed64 (strtoul (v.drop 2) 16)
  else to_signed64 (strtoul v 10)

/-- The method `riscv_meta_model::decode_mask(bit_spec)` (lines 173-196); `none` is
the `panic`. -/
def decode_mask (bit_spec : Str) : Option riscv_opcode_mask :=
  let spart := split bit_spec ['='] false false
  if spart.length ≠ 2 then none
  else
    let rpart := split (spart.getD 0 []) ['.', '.'] false false
    let val := decode_mask_value (spart.getD 1 [])
    if rpart.length = 1 then
      some (riscv_bitrange.mk (to_signed64 (strtoul (rpart.getD 0 []) 10))
        (to_signed64 (strtoul (rpart.getD 0 []) 10)), val)
    else if rpart.length = 2 then
      some (riscv_bitrange.mk (to_signed64 (strtoul (rpart.getD 0 []) 10))
        (to_signed64 (strtoul (rpart.getD 1 []) 10)), val)
    else none

/-! ## The tokenizer `parse_line` and the comment strip of `read_file` -/

/-- The double-quote character. -/
def dquote : Char := Char.ofNat 34

/-- The hash character that starts a comment. -/
def hash : Char := Char.ofNat 35

/-- The states of the scanner in `parse_line` (lines 297-302). -/
inductive scan_state where
  | whitespace
  | quoted_token
  | unquoted_token
  | comment
  deriving DecidableEq, Repr

/-- The variables of the loop of `parse_line`: `rest` is the line from index `i` on,
so `i++` drops its head and `i < line.size()` says it is not empty. -/
structure scanner where
  rest : Str
  state : scan_state
  token : Str
  comps : List Str
  deriving DecidableEq, Repr

/-- The body of the `while` loop of `parse_line` (lines 306-343) at character `c`,
with `tl` the characters after it. -/
def parse_line_step (s : scanner) (c : Char) (tl : Str) : scanner :=
  match s.state with
  | scan_state.whitespace =>
    if isspace c then scanner.mk tl s.state s.token s.comps
    else if c = hash then scanner.mk s.rest scan_state.comment s.token s.comps
    else if c = dquote then scanner.mk tl scan_state.quoted_token s.token s.comps
    else scanner.mk s.rest scan_state.unquoted_token s.token s.comps
  | scan_state.quoted_token =>
    if c = dquote then scanner.mk tl scan_state.whitespace [] (s.comps ++ [s.token])
    else scanner.mk tl s.state (s.token ++ [c]) s.comps
  | scan_state.unquoted_token =>
    if isspace c then scanner.mk tl scan_state.whitespace [] (s.comps ++ [s.token])
    else scanner.mk tl s.state (s.token ++ [c]) s.comps
  | scan_state.comment => scanner.mk tl s.state s.token s.comps

/-- The `while` loop of `parse_line` (line 305), run for at most `fuel` iterations:
`none` when the fuel ends before the line does. -/
def parse_line_loop : Nat → scanner → Option scanner
  | 0, s => if s.rest.isEmpty then some s else none
  | fuel + 1, s =>
    match s.rest with
    | [] => some s
    | c :: tl => parse_line_loop fuel (parse_line_step s c tl)

/-- The method `riscv_meta_model::parse_line(line)` (lines 290-349).  Every character
takes at most two iterations (one may switch the state without `i++`), so the fuel
`2 * line.size()` is enough: `parse_line_total` below. -/
def parse_line (line : Str) : Option (List Str) :=
  match parse_line_loop (2 * line.length) (scanner.mk line scan_state.whitespace [] []) with
  | none => none
  | some s => some (if s.token.length > 0 then s.comps ++ [s.token] else s.comps)

/-- What the loop of `parse_line` and the final push (lines 345-347) return, written
by recursion on the characters still to read, for the scanner in state `st` with the
token `token` and the components `comps`: a switch of state without `i++` is followed
here by the iteration that reads the same character in the new state. -/
def scan : scan_state → Str → List Str → Str → List Str
  | _, token, comps, [] => if token.length > 0 then comps ++ [token] else comps
  | scan_state.whitespace, token, comps, c :: tl =>
    if isspace c then scan scan_state.whitespace token comps tl
    else if c = hash then scan scan_state.comment token comps tl
    else if c = dquote then scan scan_state.quoted_token token comps tl
    else scan scan_state.unquoted_token (token ++ [c]) comps tl
  | scan_state.quoted_token, token, comps, c :: tl =>
    if c = dquote then scan scan_state.whitespace [] (comps ++ [token]) tl
    else scan scan_state.quoted_token (token ++ [c]) comps tl
  | scan_state.unquoted_token, token, comps, c :: tl =>
    if isspace c then scan scan_state.whitespace [] (comps ++ [token]) tl
    else scan scan_state.unquoted_token (token ++ [c]) comps tl
  | scan_state.comment, token, comps, _ :: tl => scan scan_state.comment token comps tl

/-- The maximal runs of non-white-space characters of a line, from left to right: the
line is cut at every white-space character and the empty pieces are dropped. -/
def words (line : Str) : List Str :=
  (line.splitOnP (fun c => isspace c)).filter (fun t => !t.isEmpty)

/-- Modelled from the spec: `ltrim` of `riscv-util` removes leading white space. -/
def ltrim (s : Str) : Str := s.dropWhile isspace

/-- Modelled from the spec: `rtrim` of `riscv-util` removes trailing white space. -/
def rtrim (s : Str) : Str := (s.reverse.dropWhile isspace).reverse

/-- The comment strip of `read_file` (lines 362-365): a line with a hash is cut there
and trimmed; a line without one is left as it is. -/
def strip_comment (line : Str) : Str :=
  match find line [hash] with
  | some hoffset => ltrim (rtrim (substr line 0 hoffset))
  | none => line

/-- The per-line processing of `read_file` (lines 362-366): strip, then tokenize. -/
def read_file_line (line : Str) : Option (List Str) := parse_line (strip_comment line)

/-! ## The extension registry and the ISA-spec decoder -/

/-- The C library `tolower` in the "C" locale. -/
def tolower (c : Char) : Char :=
  if 65 ≤ c.toNat ∧ c.toNat ≤ 90 then Char.ofNat (c.toNat + 32) else c

/-- Modelled from the spec: the record `riscv_extension` of `riscv-model.h`, built from
the five tokens (prefix, width, alpha, description-1, description-2) of an extensions
line: its name is `prefix+width+alpha`, `isa_width` is the number the width token
denotes (read with `strtoull` in base 10 and kept in an `ssize_t`), and `opcodes` are
the opcodes (by index) that declare it first. -/
structure riscv_extension where
  name : Str
  prefix_ : Str
  isa_width : Int
  alpha_code : Str
  description_1 : Str
  description_2 : Str
  opcodes : List Nat
  deriving DecidableEq, Repr

/-- Modelled from the spec: the constructor of `riscv_extension` (see the record). -/
def riscv_extension.of_tokens (p w a d1 d2 : Str) : riscv_extension :=
  { name := p ++ w ++ a, prefix_ := p, isa_width := to_signed64 (strtoull w 10),
    alpha_code := a, description_1 := d1, description_2 := d2, opcodes := [] }

/-- A `std::map` from names to shared pointers: the pairs of key and value, the newest
first; a pointer is the index of its record in the insertion-ordered sequence. -/
abbrev name_map := List (Str × Nat)

/-- The lookup `m.find(key)`: the value stored last under the key, if any. -/
def name_map.find : name_map → Str → Option Nat
  | [], _ => none
  | (k, v) :: tl, key => if k = key then some v else name_map.find tl key

/-- The assignment `m[key] = value`. -/
def name_map.set (m : name_map) (key : Str) (value : Nat) : name_map := (key, value) :: m

/-- The removal `m.erase(key)`. -/
def name_map.erase (m : name_map) (key : Str) : name_map := m.filter (fun e => e.1 ≠ key)

/-- A `std::map` from mnemonics to lists of opcode pointers (`opcodes_by_name`). -/
abbrev opcode_list_map := List (Str × List Nat)

/-- The lookup `m.find(key)` in a map of opcode lists. -/
def opcode_list_map.find : opcode_list_map → Str → Option (List Nat)
  | [], _ => none
  | (k, v) :: tl, key => if k = key then some v else opcode_list_map.find tl key

/-- The assignment `m[key] = list` in a map of opcode lists. -/
def opcode_list_map.set (m : opcode_list_map) (key : Str) (value : List Nat) :
    opcode_list_map := (key, value) :: m

/-- Modelled from the spec: the record `riscv_arg` of `riscv-model.h`, built from the
six tokens (name, label, type, bitspec, formatter, default) of an args line. -/
structure riscv_arg where
  name : Str
  label : Str
  type : Str
  bitspec : Str
  formatter : Str
  default_value : Str
  deriving DecidableEq, Repr

/-- Modelled from the spec: the record `riscv_type` of `riscv-model.h`: name,
description and the ordered list of (bit-spec, optional name). -/
structure riscv_type where
  name : Str
  description : Str
  parts : List (riscv_bitspec × Str)
  deriving DecidableEq, Repr

/-- Modelled from the spec: the record `riscv_format` of `riscv-model.h`: name and
operand-layout token. -/
structure riscv_format where
  name : Str
  operands : Str
  deriving DecidableEq, Repr

/-- Modelled from the spec: the record `riscv_codec` of `riscv-model.h`: name and
format token. -/
structure riscv_codec where
  name : Str
  format : Str
  deriving DecidableEq, Repr

/-- Modelled from the spec: the record `riscv_constraint` of `riscv-model.h`: name and
expression token. -/
structure riscv_constraint where
  name : Str
  expression : Str
  deriving DecidableEq, Repr

/-- Modelled from the spec: the record `riscv_opcode` of `riscv-model.h`.  The
constructor takes the key and the mnemonic (`name`); every other field starts empty.
Pointers to arguments, codec, format, type, extensions and compressions are indices
into the sequences of the model, a null pointer is `none`. -/
structure riscv_opcode where
  key : Str
  name : Str
  num : Nat
  long_name : Str
  instruction : Str
  description : Str
  args : List Nat
  masks : List riscv_opcode_mask
  codec : Option Nat
  format : Option Nat
  type : Option Nat
  extensions : List Nat
  compressed : Option Nat
  compressions : List Nat
  deriving DecidableEq, Repr

/-- Modelled from the spec: the constructor `riscv_opcode(key, name)`. -/
def riscv_opcode.of_key (key name : Str) : riscv_opcode :=
  { key := key, name := name, num := 0, long_name := [], instruction := [],
    description := [], args := [], masks := [], codec := none, format := none,
    type := none, extensions := [], compressed := none, compressions := [] }

/-- Modelled from the spec: the record `riscv_compressed` of `riscv-model.h`: the
compressed opcode, the expanded opcode and the constraints, all by index. -/
structure riscv_compressed where
  comp_opcode : Nat
  opcode : Nat
  constraint_list : List Nat
  deriving DecidableEq, Repr

/-- Modelled from the spec: the record `riscv_enum` of `riscv-model.h`, built from the
four tokens (name, group, value, description) of an enums line. -/
structure riscv_enum where
  name : Str
  group : Str
  value : Str
  description : Str
  deriving DecidableEq, Repr

/-- Modelled from the spec: the record `riscv_register` of `riscv-model.h`, built from
the five tokens (name, number, alias, type, description) of a registers line. -/
structure riscv_register where
  name : Str
  number : Str
  alias_name : Str
  type : Str
  description : Str
  deriving DecidableEq, Repr

/-- Modelled from the spec: the record `riscv_csr` of `riscv-model.h`, built from the
four tokens (number, access tag, name, description) of a csrs line. -/
structure riscv_csr where
  number : Str
  access : Str
  name : Str
  description : Str
  deriving DecidableEq, Repr

/-- The state of `riscv_meta_model` that the opcode, compression and ISA-spec code
reads and writes: for each kind of entity the insertion-ordered sequence and the index
by name.  A shared pointer to a record is the index of the record in its sequence. -/
structure riscv_meta_model where
  args : List riscv_arg
  args_by_name : name_map
  types : List riscv_type
  types_by_name : name_map
  formats : List riscv_format
  formats_by_name : name_map
  codecs : List riscv_codec
  codecs_by_name : name_map
  extensions : List riscv_extension
  extensions_by_name : name_map
  opcodes : List riscv_opcode
  opcodes_by_key : name_map
  opcodes_by_name : opcode_list_map
  constraints : List riscv_constraint
  constraints_by_name : name_map
  compressions : List riscv_compressed
  enums : List riscv_enum
  enums_by_name : name_map
  registers : List riscv_register
  registers_by_name : name_map
  csrs : List riscv_csr
  csrs_by_name : name_map
  deriving DecidableEq, Repr

/-- The model before any line is read. -/
def riscv_meta_model.empty : riscv_meta_model :=
  { args := [], args_by_name := [], types := [], types_by_name := [], formats := [],
    formats_by_name := [], codecs := [], codecs_by_name := [], extensions := [],
    extensions_by_name := [], opcodes := [], opcodes_by_key := [], opcodes_by_name := [],
    constraints := [], constraints_by_name := [], compressions := [], enums := [],
    enums_by_name := [], registers := [], registers_by_name := [], csrs := [],
    csrs_by_name := [] }

/-- The method `riscv_meta_model::parse_extension(part)` (lines 555-565); `none` is the
`panic` on fewer than five tokens. -/
def parse_extension (m : riscv_meta_model) (part : List Str) : Option riscv_meta_model :=
  if part.length < 5 then none
  else
    let isa := part.getD 0 [] ++ part.getD 1 [] ++ part.getD 2 []
    let extension := riscv_extension.of_tokens (part.getD 0 []) (part.getD 1 [])
      (part.getD 2 []) (part.getD 3 []) (part.getD 4 [])
    some { m with
      extensions_by_name := m.extensions_by_name.set isa m.extensions.length
      extensions := m.extensions ++ [extension] }

/-- The locals of the first loop of `decode_isa_extensions` (lines 386-387). -/
structure isa_scan where
  ext_isa_width : Int
  ext_prefix_ : Str
  ext_isa_width_str : Str
  deriving DecidableEq, Repr

/-- The body of the first loop of `decode_isa_extensions` (lines 389-397) for one
registered extension.  `std::to_string` of the width is `print_signed`; a `find` that
gives `npos` is not equal to a size. -/
def isa_scan_step (isa_spec : Str) (st : isa_scan) (ext : riscv_extension) : isa_scan :=
  let p := if find isa_spec ext.prefix_ = some 0 then ext.prefix_ else st.ext_prefix_
  if p.length > 0 then
    isa_scan.mk
      (if find isa_spec (print_signed ext.isa_width) = some p.length then ext.isa_width
        else st.ext_isa_width)
      p (print_signed ext.isa_width)
  else isa_scan.mk st.ext_isa_width p st.ext_isa_width_str

/-- The second loop of `decode_isa_extensions` (lines 412-424): every remaining
character is appended to `base`, the first `ext_offset` characters of the ISA spec, and
looked up; an unknown name and an extension already in the list are a `panic`. -/
def decode_isa_lookup (m : riscv_meta_model) (base : Str) : Str → List Nat → Option (List Nat)
  | [], list => some list
  | i :: rest, list =>
    match m.extensions_by_name.find (base ++ [i]) with
    | none => none
    | some ext =>
      if ext ∈ list then none else decode_isa_lookup m base rest (list ++ [ext])

/-- The method `riscv_meta_model::decode_isa_extensions(isa_spec)` (lines 375-426).
The result lists the extensions by their index in `extensions`; `none` is a `panic`.
When `ext_offset` is larger than the size of the ISA spec the iterator of the second
loop starts past the end, which is undefined behaviour in the source: it is taken as
`none` too. -/
def decode_isa_extensions (m : riscv_meta_model) (isa_spec : Str) : Option (List Nat) :=
  if isa_spec.length = 0 then some []
  else
    let isa_spec := isa_spec.map tolower
    let st := m.extensions.foldl (isa_scan_step isa_spec) (isa_scan.mk 0 [] [])
    if st.ext_prefix_.length = 0 ∨ st.ext_isa_width = 0 then none
    else
      let isa_spec :=
        match find isa_spec ['g'] with
        | some g_offset =>
          isa_spec.take g_offset ++ ['i', 'm', 'a', 'f', 'd'] ++ isa_spec.drop (g_offset + 1)
        | none => isa_spec
      let ext_offset := st.ext_prefix_.length + st.ext_isa_width_str.length
      if isa_spec.length < ext_offset then none
      else decode_isa_lookup m (substr isa_spec 0 ext_offset) (isa_spec.drop ext_offset) []

/-- The extension lines are read one after the other from the empty model (the loop
over the extensions file in `read_metadata`, line 725). -/
def register_extensions : List (List Str) → riscv_meta_model → Option riscv_meta_model
  | [], m => some m
  | part :: rest, m =>
    match parse_extension m part with
    | none => none
    | some m2 => register_extensions rest m2

/-! ## The simple line parsers that the opcode linker depends on -/

/-- The method `riscv_meta_model::parse_arg(part)` (lines 507-516). -/
def parse_arg (m : riscv_meta_model) (part : List Str) : Option riscv_meta_model :=
  if part.length < 6 then none
  else
    some { m with
      args_by_name := m.args_by_name.set (part.getD 0 []) m.args.length
      args := m.args ++ [riscv_arg.mk (part.getD 0 []) (part.getD 1 []) (part.getD 2 [])
        (part.getD 3 []) (part.getD 4 []) (part.getD 5 [])] }

/-- The loop of `parse_type` (lines 537-540): every further token is `bitspec` or
`bitspec=label`; `none` is a `panic` of the bit-spec constructor.  A token without any
piece (`spec[0]` of an empty vector) is undefined behaviour in the source and is read
here as the empty bit-spec. -/
def parse_type_parts : List Str → Option (List (riscv_bitspec × Str))
  | [] => some []
  | tok :: rest =>
    match riscv_bitspec.of_string ((split tok ['='] false false).getD 0 []) with
    | none => none
    | some bs =>
      match parse_type_parts rest with
      | none => none
      | some ps =>
        some ((bs, if (split tok ['='] false false).length > 1 then
          (split tok ['='] false false).getD 1 [] else []) :: ps)

/-- The method `riscv_meta_model::parse_type(part)` (lines 529-542). -/
def parse_type (m : riscv_meta_model) (part : List Str) : Option riscv_meta_model :=
  if part.length < 2 then none
  else
    match parse_type_parts (part.drop 2) with
    | none => none
    | some ps =>
      some { m with
        types_by_name := m.types_by_name.set (part.getD 0 []) m.types.length
        types := m.types ++ [riscv_type.mk (part.getD 0 []) (part.getD 1 []) ps] }

/-- The method `riscv_meta_model::parse_codec(part)` (lines 544-553). -/
def parse_codec (m : riscv_meta_model) (part : List Str) : Option riscv_meta_model :=
  if part.length < 2 then none
  else
    some { m with
      codecs_by_name := m.codecs_by_name.set (part.getD 0 []) m.codecs.length
      codecs := m.codecs ++ [riscv_codec.mk (part.getD 0 []) (part.getD 1 [])] }

/-- The method `riscv_meta_model::parse_format(part)` (lines 567-576). -/
def parse_format (m : riscv_meta_model) (part : List Str) : Option riscv_meta_model :=
  if part.length < 1 then none
  else
    some { m with
      formats_by_name := m.formats_by_name.set (part.getD 0 []) m.formats.length
      formats := m.formats ++ [riscv_format.mk (part.getD 0 [])
        (if part.length > 1 then part.getD 1 [] else [])] }

/-- The method `riscv_meta_model::parse_constraint(part)` (lines 658-667). -/
def parse_constraint (m : riscv_meta_model) (part : List Str) : Option riscv_meta_model :=
  if part.length < 2 then none
  else
    some { m with
      constraints_by_name := m.constraints_by_name.set (part.getD 0 []) m.constraints.length
      constraints := m.constraints ++ [riscv_constraint.mk (part.getD 0 []) (part.getD 1 [])] }

/-- The method `riscv_meta_model::parse_enum(part)` (lines 518-527). -/
def parse_enum (m : riscv_meta_model) (part : List Str) : Option riscv_meta_model :=
  if part.length < 4 then none
  else
    some { m with
      enums_by_name := m.enums_by_name.set (part.getD 0 []) m.enums.length
      enums := m.enums ++ [riscv_enum.mk (part.getD 0 []) (part.getD 1 []) (part.getD 2 [])
        (part.getD 3 [])] }

/-- The method `riscv_meta_model::parse_register(part)` (lines 578-587). -/
def parse_register (m : riscv_meta_model) (part : List Str) : Option riscv_meta_model :=
  if part.length < 5 then none
  else
    some { m with
      registers_by_name := m.registers_by_name.set (part.getD 0 []) m.registers.length
      registers := m.registers ++ [riscv_register.mk (part.getD 0 []) (part.getD 1 [])
        (part.getD 2 []) (part.getD 3 []) (part.getD 4 [])] }

/-- The method `riscv_meta_model::parse_csr(part)` (lines 589-598); the index is keyed
by the third token. -/
def parse_csr (m : riscv_meta_model) (part : List Str) : Option riscv_meta_model :=
  if part.length < 4 then none
  else
    some { m with
      csrs_by_name := m.csrs_by_name.set (part.getD 2 []) m.csrs.length
      csrs := m.csrs ++ [riscv_csr.mk (part.getD 0 []) (part.getD 1 []) (part.getD 2 [])
        (part.getD 3 [])] }

/-! ## The opcode linker -/

/-- The method `lookup_opcode_by_key` (lines 468-473); `none` is the null pointer. -/
def lookup_opcode_by_key (m : riscv_meta_model) (opcode_key : Str) : Option Nat :=
  m.opcodes_by_key.find opcode_key

/-- The method `lookup_opcode_by_name` (lines 475-480). -/
def lookup_opcode_by_name (m : riscv_meta_model) (opcode_name : Str) : List Nat :=
  match m.opcodes_by_name.find opcode_name with
  | some list => list
  | none => []

/-- The method `is_arg` (lines 482-485). -/
def is_arg (m : riscv_meta_model) (mnem : Str) : Bool := (m.args_by_name.find mnem).isSome

/-- The method `is_ignore` (lines 487-490). -/
def is_ignore (mnem : Str) : Bool := (find mnem "=ignore".toList).isSome

/-- The method `is_mask` (lines 492-495). -/
def is_mask (mnem : Str) : Bool := (find mnem ['=']).isSome

/-- The method `is_codec` (lines 497-500). -/
def is_codec (m : riscv_meta_model) (mnem : Str) : Bool := (m.codecs_by_name.find mnem).isSome

/-- The method `is_extension` (lines 502-505). -/
def is_extension (m : riscv_meta_model) (mnem : Str) : Bool :=
  (m.extensions_by_name.find mnem).isSome

/-- The method `codec_type_name(codec)` (lines 282-288). -/
def codec_type_name (codec : riscv_codec) : Str :=
  match find codec.name ['_'] with
  | some o => substr codec.name 0 o
  | none =>
    match find codec.name ['+'] with
    | some o => substr codec.name 0 o
    | none => codec.name

/-- A write through an opcode pointer: the record at the index is replaced.  An index
outside the sequence stands for a dangling pointer, which the source never has; the
model stops there (`none`). -/
def update_opcode (m : riscv_meta_model) (opcode : Nat) (f : riscv_opcode → riscv_opcode) :
    Option riscv_meta_model :=
  match m.opcodes[opcode]? with
  | none => none
  | some op => some { m with opcodes := m.opcodes.set opcode (f op) }

/-- A write through an extension pointer (see `update_opcode`). -/
def update_extension (m : riscv_meta_model) (extension : Nat)
    (f : riscv_extension → riscv_extension) : Option riscv_meta_model :=
  match m.extensions[extension]? with
  | none => none
  | some ext => some { m with extensions := m.extensions.set extension (f ext) }

/-- The end of `create_opcode` (lines 457-463): the new opcode is added to the list of
its mnemonic in `opcodes_by_name`, which is created when there is none. -/
def add_opcode_by_name (by_name : opcode_list_map) (opcode_name : Str) (opcode : Nat) :
    opcode_list_map :=
  match by_name.find opcode_name with
  | none => by_name.set opcode_name [opcode]
  | some list => by_name.set opcode_name (list ++ [opcode])

/-- The insertion of a new opcode at the end of `create_opcode`'s two branches (lines
444-448 and 450-454, then 457-463): the record gets the key, the mnemonic and
`num = opcodes.size()` after the push. -/
def push_opcode (m : riscv_meta_model) (opcode_key opcode_name : Str) :
    riscv_meta_model × Nat :=
  ({ m with
      opcodes_by_key := m.opcodes_by_key.set opcode_key m.opcodes.length
      opcodes := m.opcodes ++
        [{ riscv_opcode.of_key opcode_key opcode_name with num := m.opcodes.length + 1 }]
      opcodes_by_name := add_opcode_by_name m.opcodes_by_name opcode_name m.opcodes.length },
    m.opcodes.length)

/-- The method `riscv_meta_model::create_opcode(opcode_name, extension)` (lines
428-466): the model after the call and the new opcode; `none` is the `panic` on a key
that exists.  `front()` of an empty extension list is undefined behaviour in the
source and is `none` here, as is a dangling pointer. -/
def create_opcode (m : riscv_meta_model) (opcode_name extension : Str) :
    Option (riscv_meta_model × Nat) :=
  match lookup_opcode_by_key m opcode_name with
  | some opcode =>
    match m.opcodes[opcode]? with
    | none => none
    | some op =>
      match op.extensions.head? with
      | none => none
      | some front =>
        match m.extensions[front]? with
        | none => none
        | some ext =>
          let m1 : riscv_meta_model :=
            { m with
              opcodes := m.opcodes.set opcode { op with key := opcode_name ++ ['.'] ++ ext.name }
              opcodes_by_key := (m.opcodes_by_key.erase opcode_name).set
                (opcode_name ++ ['.'] ++ ext.name) opcode }
          if (m1.opcodes_by_key.find (opcode_name ++ ['.'] ++ extension)).isSome then none
          else some (push_opcode m1 (opcode_name ++ ['.'] ++ extension) opcode_name)
  | none => some (push_opcode m opcode_name opcode_name)

/-- The first loop of `parse_opcode` (lines 602-609): the lower-cased trailing tokens
that name a registered extension. -/
def opcode_extension_tokens (m : riscv_meta_model) (part : List Str) : List Str :=
  ((part.drop 1).map (fun t => t.map tolower)).filter (fun mnem => is_extension m mnem)

/-- The body of the second loop of `parse_opcode` (lines 618-647) for one token;
`none` is a `panic` (of `decode_mask`, of an unknown format or type) or a dangling
pointer. -/
def parse_opcode_token (opcode : Nat) (m : riscv_meta_model) (token : Str) :
    Option riscv_meta_model :=
  let mnem := token.map tolower
  if is_arg m mnem then
    match m.args_by_name.find mnem with
    | none => none
    | some arg => update_opcode m opcode (fun op => { op with args := op.args ++ [arg] })
  else if is_ignore mnem then some m
  else if is_mask mnem then
    match decode_mask mnem with
    | none => none
    | some mask => update_opcode m opcode (fun op => { op with masks := op.masks ++ [mask] })
  else if is_codec m mnem then
    match m.codecs_by_name.find mnem with
    | none => none
    | some c =>
      match m.codecs[c]? with
      | none => none
      | some codec =>
        match m.formats_by_name.find codec.format with
        | none => none
        | some format =>
          match m.types_by_name.find (codec_type_name codec) with
          | none => none
          | some type =>
            update_opcode m opcode
              (fun op => { op with codec := some c, format := some format, type := some type })
  else if is_extension m mnem then
    match m.extensions_by_name.find mnem with
    | none => none
    | some extension =>
      match m.opcodes[opcode]? with
      | none => none
      | some op =>
        match update_opcode m opcode
            (fun o => { o with extensions := o.extensions ++ [extension] }) with
        | none => none
        | some m1 =>
          if (op.extensions ++ [extension]).length = 1 then
            update_extension m1 extension (fun e => { e with opcodes := e.opcodes ++ [opcode] })
          else some m1
  else some m

/-- The second loop of `parse_opcode` (lines 617-648) over the trailing tokens. -/
def parse_opcode_tokens (opcode : Nat) : List Str → riscv_meta_model → Option riscv_meta_model
  | [], m => some m
  | token :: rest, m =>
    match parse_opcode_token opcode m token with
    | none => none
    | some m1 => parse_opcode_tokens opcode rest m1

/-- The method `riscv_meta_model::parse_opcode(part)` (lines 600-656); `none` is a
`panic`.  A line always has its mnemonic (`read_file` drops lines without tokens). -/
def parse_opcode (m : riscv_meta_model) (part : List Str) : Option riscv_meta_model :=
  match opcode_extension_tokens m part with
  | [] => none
  | front :: _ =>
    match create_opcode m (part.getD 0 []) front with
    | none => none
    | some (m1, opcode) =>
      match parse_opcode_tokens opcode (part.drop 1) m1 with
      | none => none
      | some m2 =>
        match m2.opcodes[opcode]? with
        | none => none
        | some op =>
          if op.codec = none then none
          else if op.extensions.length = 0 then none
          else some m2

/-- The opcode lines are read one after the other (the loop over the opcodes file in
`read_metadata`, line 728). -/
def parse_opcodes : List (List Str) → riscv_meta_model → Option riscv_meta_model
  | [], m => some m
  | part :: rest, m =>
    match parse_opcode m part with
    | none => none
    | some m1 => parse_opcodes rest m1

/-! ## The compression parser -/

/-- The innermost loop of `parse_compression` (lines 678-685): the constraints named
by the tokens after the first two; an unknown name is a `panic`. -/
def compression_constraints (m : riscv_meta_model) : List Str → Option (List Nat)
  | [] => some []
  | name :: rest =>
    match m.constraints_by_name.find name with
    | none => none
    | some c =>
      match compression_constraints m rest with
      | none => none
      | some cs => some (c :: cs)

/-- The body of the inner loop of `parse_compression` (lines 677-691) for one pair of
compressed opcode and expanded opcode. -/
def add_compression (m : riscv_meta_model) (part : List Str) (comp_opcode opcode : Nat) :
    Option riscv_meta_model :=
  match compression_constraints m (part.drop 2) with
  | none => none
  | some constraint_list =>
    match update_opcode m comp_opcode
        (fun op => { op with compressed := some m.compressions.length }) with
    | none => none
    | some m1 =>
      match update_opcode m1 opcode
          (fun op => { op with compressions := op.compressions ++ [m.compressions.length] }) with
      | none => none
      | some m2 =>
        some { m2 with
          compressions := m2.compressions ++
            [riscv_compressed.mk comp_opcode opcode constraint_list] }

/-- The inner loop of `parse_compression` (line 676) over the opcodes of the expanded
mnemonic. -/
def parse_compression_inner (part : List Str) (comp_opcode : Nat) :
    List Nat → riscv_meta_model → Option riscv_meta_model
  | [], m => some m
  | opcode :: rest, m =>
    match add_compression m part comp_opcode opcode with
    | none => none
    | some m1 => parse_compression_inner part comp_opcode rest m1

/-- The outer loop of `parse_compression` (line 675) over the opcodes of the
compressed mnemonic; the list of the expanded mnemonic is looked up anew for each. -/
def parse_compression_outer (part : List Str) :
    List Nat → riscv_meta_model → Option riscv_meta_model
  | [], m => some m
  | comp_opcode :: rest, m =>
    match parse_compression_inner part comp_opcode
        (lookup_opcode_by_name m (part.getD 1 [])) m with
    | none => none
    | some m1 => parse_compression_outer part rest m1

/-- The method `riscv_meta_model::parse_compression(part)` (lines 669-694). -/
def parse_compression (m : riscv_meta_model) (part : List Str) : Option riscv_meta_model :=
  if part.length < 2 then none
  else parse_compression_outer part (lookup_opcode_by_name m (part.getD 0 [])) m

/-- The compression lines are read one after the other (the loop over the compression
file in `read_metadata`, line 730). -/
def parse_compressions : List (List Str) → riscv_meta_model → Option riscv_meta_model
  | [], m => some m
  | part :: rest, m =>
    match parse_compression m part with
    | none => none
    | some m1 => parse_compressions rest m1

/-! ## Notions used to state the properties of the opcode linker -/

/-- The registries that the opcode and compression parsers only read are the same in
two models: arguments, types, formats, codecs, constraints and the extension index. -/
def same_registries (m m2 : riscv_meta_model) : Prop :=
  m2.args = m.args ∧ m2.args_by_name = m.args_by_name ∧ m2.types = m.types ∧
    m2.types_by_name = m.types_by_name ∧ m2.formats = m.formats ∧
    m2.formats_by_name = m.formats_by_name ∧ m2.codecs = m.codecs ∧
    m2.codecs_by_name = m.codecs_by_name ∧ m2.extensions_by_name = m.extensions_by_name ∧
    m2.constraints = m.constraints ∧ m2.constraints_by_name = m.constraints_by_name

/-- The token, lower-cased, reaches the codec branch of the second loop of
`parse_opcode`: it is a codec name and neither an argument name nor a mask. -/
def attaches_codec (m : riscv_meta_model) (mnem : Str) : Bool :=
  !is_arg m mnem && !is_ignore mnem && !is_mask mnem && is_codec m mnem

/-- The token, lower-cased, reaches the extension branch of the second loop of
`parse_opcode`: it is an extension name and neither an argument name, a mask nor a
codec name. -/
def attaches_extension (m : riscv_meta_model) (mnem : Str) : Bool :=
  !is_arg m mnem && !is_ignore mnem && !is_mask mnem && !is_codec m mnem &&
    is_extension m mnem

/-- The extensions that the second loop of `parse_opcode` attaches for the trailing
tokens of a line, in order. -/
def attached_extensions (m : riscv_meta_model) (tokens : List Str) : List Nat :=
  (tokens.map (fun t => t.map tolower)).filterMap
    (fun mnem => if attaches_extension m mnem then m.extensions_by_name.find mnem else none)

/-- The opcode has a codec that is registered, the format registered under the format
token of that codec and the type registered under `codec_type_name` of that codec. -/
def linked_codec (m : riscv_meta_model) (op : riscv_opcode) : Prop :=
  ∃ c codec, op.codec = some c ∧ m.codecs[c]? = some codec ∧
    (∃ name, m.codecs_by_name.find name = some c) ∧
    (∃ format, op.format = some format ∧
      m.formats_by_name.find codec.format = some format) ∧
    (∃ type, op.type = some type ∧
      m.types_by_name.find (codec_type_name codec) = some type)

/-- How often an opcode occurs in total in the opcode lists of all extensions. -/
def extension_occurrences (m : riscv_meta_model) (opcode : Nat) : Nat :=
  (m.extensions.map (fun e => e.opcodes.count opcode)).sum

/-- The opcode is added to the opcode list of the extension, as the write
`extension->opcodes.push_back(opcode)` does. -/
def attach_opcode (exts : List riscv_extension) (extension opcode : Nat) :
    List riscv_extension :=
  match exts[extension]? with
  | some ext => exts.set extension { ext with opcodes := ext.opcodes ++ [opcode] }
  | none => exts

/-- The extension sequence after the second loop of `parse_opcode`: when the opcode
had no extension before the loop, it is added to the list of the first extension that
the loop attaches. -/
def first_attach (exts : List riscv_extension) (opcode : Nat) (before attached : List Nat) :
    List riscv_extension :=
  if before = [] then
    match attached.head? with
    | some e => attach_opcode exts e opcode
    | none => exts
  else exts

/-- Two opcode records differ at most in the fields that the second loop of
`parse_opcode` writes: arguments, masks, codec, format, type and extensions. -/
def same_identity (op op2 : riscv_opcode) : Prop :=
  op2.key = op.key ∧ op2.name = op.name ∧ op2.num = op.num ∧
    op2.long_name = op.long_name ∧ op2.instruction = op.instruction ∧
    op2.description = op.description ∧ op2.compressed = op.compressed ∧
    op2.compressions = op.compressions

/-- The record `op2` is the record `op` with, at most, another key. -/
def rekeyed (op op2 : riscv_opcode) : Prop :=
  op2 = { op with key := op2.key }

/-- The invariant of claim C16 for one opcode record at position `i` of the opcode
sequence (0-based): the codec, format and type are linked, the extension list is not
empty and `num` is the 1-based position. -/
def well_linked (m : riscv_meta_model) (i : Nat) (op : riscv_opcode) : Prop :=
  linked_codec m op ∧ op.extensions ≠ [] ∧ op.num = i + 1
/-! ## Example inputs -/

/-- An extensions line with the prefix `rv`: the five tokens
`rv <width> <alpha> 32 "<description>"`. -/
def rv_line (width alpha : String) : List Str :=
  ["rv".toList, width.toList, alpha.toList, "32".toList, "extension".toList]

/-- The registry of scenario S4: `rv64i`, `rv64m`, `rv64a`, `rv64f`, `rv64d`. -/
def rv64_lines : List (List Str) :=
  [rv_line "64" "i", rv_line "64" "m", rv_line "64" "a", rv_line "64" "f", rv_line "64" "d"]

/-- A line of a metadata file, given by its tokens. -/
def line_of (ws : List String) : List Str := ws.map String.toList

/-- One loop of `read_metadata` (lines 719-731): the lines of a file are handed to a
line parser one after the other. -/
def load_lines (parse : riscv_meta_model → List Str → Option riscv_meta_model) :
    List (List Str) → riscv_meta_model → Option riscv_meta_model
  | [], m => some m
  | part :: rest, m =>
    match parse m part with
    | none => none
    | some m1 => load_lines parse rest m1

/-- The registries of the examples, loaded in the order of `read_metadata` from the given
argument lines and fixed lines for one type `i`, one format `fmt`, one codec `i_sh5`
and the extensions `rv32i`, `rv64i`, `rv128i`, `rv32c`, `rv64c`. -/
def registry_with (arg_lines : List (List Str)) : riscv_meta_model :=
  ((((load_lines parse_arg arg_lines riscv_meta_model.empty).bind
    (load_lines parse_type [line_of ["i", "itype", "31:20"]])).bind
    (load_lines parse_format [line_of ["fmt", "rd,rs1"]])).bind
    (load_lines parse_codec [line_of ["i_sh5", "fmt"]])).bind
    (load_lines parse_extension [rv_line "32" "i", rv_line "64" "i", rv_line "128" "i",
      rv_line "32" "c", rv_line "64" "c"]) |>.getD riscv_meta_model.empty

/-- The registries of the examples with the one argument `rd`. -/
def example_registry : riscv_meta_model :=
  registry_with [line_of ["rd", "rd", "arg", "11:7", "ireg", "x"]]

/-- The opcode line `<mnemonic> rd 6..2=0x1b i_sh5 <extensions>`. -/
def opcode_line (mnemonic : String) (extensions : List String) : List Str :=
  line_of ([mnemonic, "rd", "6..2=0x1b", "i_sh5"] ++ extensions)

/-- Two lines for the mnemonic `addi`: the first with the extension `rv32i`, the second
with `rv64i`, `rv32i` and `rv64i` again. -/
def addi_lines : List (List Str) :=
  [opcode_line "addi" ["rv32i"], opcode_line "addi" ["rv64i", "rv32i", "rv64i"]]

/-- The model after the two lines of `addi_lines` are read into `example_registry`. -/
def addi_model : riscv_meta_model :=
  (parse_opcodes addi_lines example_registry).getD riscv_meta_model.empty

/-- The model after the one line `addi rd 6..2=0x1b i_sh5 rv32i` is read into
`example_registry`: the opcode is keyed by the bare mnemonic. -/
def one_addi_model : riscv_meta_model :=
  (parse_opcode example_registry (opcode_line "addi" ["rv32i"])).getD riscv_meta_model.empty

/-- The invariant of claim C18 for the opcode at position `j`: it occurs once in total
in the opcode lists of the extensions, and the extension whose list holds it is the
first of its own extension list. -/
def owned_once (m : riscv_meta_model) (j : Nat) (op : riscv_opcode) : Prop :=
  extension_occurrences m j = 1 ∧
    ∃ e ext, op.extensions.head? = some e ∧ m.extensions[e]? = some ext ∧
      ext.opcodes.count j = 1

/-- The opcode lists of the extensions hold only opcodes of the opcode sequence. -/
def lists_bounded (m : riscv_meta_model) : Prop :=
  ∀ ext ∈ m.extensions, ∀ j ∈ ext.opcodes, j < m.opcodes.length

/-- The keys of the opcode sequence of the model after the opcode lines are read into
`example_registry`; `none` when a line fails. -/
def keys_after (lines : List (List Str)) : Option (List String) :=
  (parse_opcodes lines example_registry).map
    (fun m => m.opcodes.map (fun op => String.mk op.key))

/-- The opcode that `lookup_opcode_by_key` returns for the key after the opcode lines
are read into `example_registry`. -/
def lookup_after (lines : List (List Str)) (key : String) : Option (Option Nat) :=
  (parse_opcodes lines example_registry).map (fun m => lookup_opcode_by_key m key.toList)

/-- The registries of the examples with three arguments: `rd` and two arguments that
have the names of the extensions `rv32c` and `rv64c`. -/
def overlap_registry : riscv_meta_model :=
  registry_with [line_of ["rd", "rd", "arg", "11:7", "ireg", "x"],
    line_of ["rv32c", "rv32c", "arg", "11:7", "ireg", "x"],
    line_of ["rv64c", "rv64c", "arg", "11:7", "ireg", "x"]]

/-- The model after the line `addi rd 6..2=0x1b i_sh5 rv64i` is read into
`one_addi_model`. -/
def two_addi_model : riscv_meta_model :=
  (parse_opcode one_addi_model (opcode_line "addi" ["rv64i"])).getD riscv_meta_model.empty

/-- The invariant of claim C19, as the code keeps it, for the compression record `c` at
position `k` of the compressions sequence: the expanded opcode lists `k` among its
compressions, and the `compressed` field of the compressed opcode is the newest
record that has this compressed opcode. -/
def compression_linked (m : riscv_meta_model) (k : Nat) (c : riscv_compressed) : Prop :=
  (∃ op, m.opcodes[c.opcode]? = some op ∧ k ∈ op.compressions) ∧
    ∃ cop k2 c2, m.opcodes[c.comp_opcode]? = some cop ∧ cop.compressed = some k2 ∧
      m.compressions[k2]? = some c2 ∧ c2.comp_opcode = c.comp_opcode ∧
      ∀ (k3 : Nat) (c3 : riscv_compressed), m.compressions[k3]? = some c3 →
        c3.comp_opcode = c.comp_opcode → k3 ≤ k2
/-- Three opcode lines: `c.slli` with the extension `rv32c`, and `slli` with `rv32i`
and with `rv64i`. -/
def slli_lines : List (List Str) :=
  [opcode_line "c.slli" ["rv32c"], opcode_line "slli" ["rv32i"], opcode_line "slli" ["rv64i"]]

/-- The model after `slli_lines` and the constraint line `rd_ne_zero rd!=0` are read
into `example_registry`, in the order of `read_metadata`. -/
def slli_model : riscv_meta_model :=
  ((parse_opcodes slli_lines example_registry).bind
    (load_lines parse_constraint [line_of ["rd_ne_zero", "rd!=0"]])).getD
    riscv_meta_model.empty

/-- The model after the compression line `c.slli slli rd_ne_zero` is read into
`slli_model`. -/
def slli_compressed_model : riscv_meta_model :=
  (parse_compressions [line_of ["c.slli", "slli", "rd_ne_zero"]] slli_model).getD
    riscv_meta_model.empty

/-! ## Instructions lines -/

/-- The loop of `parse_instruction` (lines 702-705): every opcode of the list gets the
long name and the instruction text. -/
def set_instruction (opcode_long_name opcode_instruction : Str) :
    List Nat → riscv_meta_model → Option riscv_meta_model
  | [], m => some m
  | opcode :: rest, m =>
    match update_opcode m opcode (fun op =>
        { op with long_name := opcode_long_name, instruction := opcode_instruction }) with
    | none => none
    | some m1 => set_instruction opcode_long_name opcode_instruction rest m1

/-- The method `riscv_meta_model::parse_instruction(part)` (lines 696-706): a line with
fewer than two tokens is skipped by the `return` of line 698. -/
def parse_instruction (m : riscv_meta_model) (part : List Str) : Option riscv_meta_model :=
  if part.length < 2 then some m
  else
    set_instruction (part.getD 1 []) (if part.length > 2 then part.getD 2 [] else [])
      (lookup_opcode_by_name m (part.getD 0 [])) m

/-! ## Notions used to state the properties of the line parsers -/

/-- A sequence and its index by name after one record was added under a key: the
sequence is the old one with one record appended, the index returns the position of
that record for the key, and what it returns for every other key is unchanged. -/
def appended_one {α : Type} (seq seq2 : List α) (index index2 : name_map) (key : Str) :
    Prop :=
  ∃ r, seq2 = seq ++ [r] ∧ index2.find key = some seq.length ∧
    seq2[seq.length]? = some r ∧ ∀ k, k ≠ key → index2.find k = index.find k

/-- The model after the args line `rd rd arg 11:7 ireg x` is read into the empty model. -/
def one_arg_model : riscv_meta_model :=
  (parse_arg riscv_meta_model.empty (line_of ["rd", "rd", "arg", "11:7", "ireg", "x"])).getD
    riscv_meta_model.empty

/-- The model after a second args line for the same name, `rd dest arg 11:7 ireg y`, is
read into `one_arg_model`. -/
def two_arg_model : riscv_meta_model :=
  (parse_arg one_arg_model (line_of ["rd", "dest", "arg", "11:7", "ireg", "y"])).getD
    riscv_meta_model.empty

/-! ## The template form of a bit-spec -/

/-- The inner loop of the first part of `riscv_bitspec::to_template` (lines 146-148):
the largest `msb` seen so far. -/
def riscv_bitspec.template_msb_scatter : List riscv_bitrange → Int → Int
  | [], msb => msb
  | ti :: rest, msb =>
    riscv_bitspec.template_msb_scatter rest (if ti.msb > msb then ti.msb else msb)

/-- The outer loop of the first part of `riscv_bitspec::to_template` (lines 145-149). -/
def riscv_bitspec.template_msb_segments : List riscv_bitseg → Int → Int
  | [], msb => msb
  | si :: rest, msb =>
    riscv_bitspec.template_msb_segments rest (riscv_bitspec.template_msb_scatter si.2 msb)

/-- The sum of two `ssize_t` values, kept in 64 bits (two's complement): the result of
an overflowing signed addition, which the language leaves undefined, is taken as the
wrapped value that the machine computes. -/
def ssize_add (a b : Int) : Int := to_signed64 ((a + b) % 2 ^ 64).toNat

/-- The number that `riscv_bitspec::to_template` writes after `imm_t<` (line 151):
`msb + 1`, an `ssize_t` sum, where `msb` starts at 0 (line 144). -/
def riscv_bitspec.template_width (s : riscv_bitspec) : Int :=
  ssize_add (riscv_bitspec.template_msb_segments s.segments 0) 1

/-- The inner loop of the second part of `riscv_bitspec::to_template` (lines 155-158);
the flag says that the iterator is at `begin()`. -/
def riscv_bitspec.to_template_scatter : Bool → List riscv_bitrange → Str
  | _, [] => []
  | first, ti :: rest =>
    (if first then [] else [',']) ++ "B<".toList ++
      ti.to_string [','] collapse_single_bit_range_default ++ ['>'] ++
      riscv_bitspec.to_template_scatter false rest

/-- The outer loop of the second part of `riscv_bitspec::to_template` (lines 152-160). -/
def riscv_bitspec.to_template_segments : Bool → List riscv_bitseg → Str
  | _, [] => []
  | first, si :: rest =>
    (if first then [] else ", ".toList) ++ "S<".toList ++ si.1.to_string [','] false ++
      ", ".toList ++ riscv_bitspec.to_template_scatter true si.2 ++ ['>'] ++
      riscv_bitspec.to_template_segments false rest

/-- The method `riscv_bitspec::to_template()` (lines 142-163). -/
def riscv_bitspec.to_template (s : riscv_bitspec) : Str :=
  "imm_t<".toList ++ print_signed s.template_width ++ ", ".toList ++
    riscv_bitspec.to_template_segments true s.segments ++ ['>']

/-- The `msb` of every scatter range of every segment of a bit-spec, in order. -/
def riscv_bitspec.scatter_msbs (s : riscv_bitspec) : List Int :=
  s.segments.flatMap (fun si => si.2.map (fun ti => ti.msb))

/-- The entry `B<...>` of the template form for one scatter range, in the words of the
specification: `B<n>` for a single bit, `B<msb,lsb>` otherwise. -/
def template_entry (ti : riscv_bitrange) : Str :=
  "B<".toList ++ ti.to_string [','] true ++ ['>']

/-- The group `S<msb,lsb, ...>` of the template form for one segment, in the words of
the specification: the gather range, then one entry per scatter range, the entries
separated by commas. -/
def template_group (si : riscv_bitseg) : Str :=
  "S<".toList ++ print_signed si.1.msb ++ [','] ++ print_signed si.1.lsb ++ ", ".toList ++
    List.intercalate [','] (si.2.map template_entry) ++ ['>']

/-- The bit-spec that the constructor reads from a string, empty when it fails. -/
def bitspec_of (str : String) : riscv_bitspec :=
  (riscv_bitspec.of_string str.toList).getD (riscv_bitspec.mk [])

/-! ## Bit masks as bit-ranges -/

/-- The loop of `bitmask_to_bitrange` (lines 203-209): a bit that is one below the
`lsb` of the last range extends that range, any other bit starts a new range.  The
vector holds the first range before the loop starts, so `v.back()` exists; for an empty
vector (undefined in the source) the model starts a range.  The sum `bits[i] + 1` is
taken in the integers; in the source it overflows only for the bit `2^63 - 1`. -/
def bitmask_to_bitrange_loop : List Int → List riscv_bitrange → List riscv_bitrange
  | [], v => v
  | b :: rest, v =>
    match v.getLast? with
    | some back =>
      if b + 1 = back.lsb then
        bitmask_to_bitrange_loop rest (v.dropLast ++ [{ back with lsb := b }])
      else bitmask_to_bitrange_loop rest (v ++ [riscv_bitrange.mk b b])
    | none => bitmask_to_bitrange_loop rest (v ++ [riscv_bitrange.mk b b])

/-- The method `riscv_meta_model::bitmask_to_bitrange(bits)` (lines 198-212). -/
def bitmask_to_bitrange (bits : List Int) : List riscv_bitrange :=
  match bits with
  | [] => []
  | b :: rest => bitmask_to_bitrange_loop rest [riscv_bitrange.mk b b]

/-- The bits of a range, from `msb` down to `lsb`. -/
def range_bits (r : riscv_bitrange) : List Int :=
  (List.range (r.msb - r.lsb + 1).toNat).map (fun (i : Nat) => r.msb - (i : Int))
/-- The innermost loop of `format_bitmask` (lines 228-231): one digit for each
`i = total_length, ..., 1`, `1` when `range_end ≤ i ≤ range_start`. -/
def format_bitmask_digits (range_start range_end : Int) : Nat → Str
  | 0 => []
  | i + 1 =>
    (if ((i + 1 : Nat) : Int) ≤ range_start ∧ ((i + 1 : Nat) : Int) ≥ range_end then '1'
      else '0') :: format_bitmask_digits range_start range_end i

/-- The first loop of `format_bitmask` (lines 222-234) over the ranges; the flag says
that the iterator is at `begin()`. -/
def format_bitmask_loop (var : Str) (total_length : Nat) :
    Bool → List riscv_bitrange → Int → Str
  | _, [], _ => []
  | first, r :: rest, range_start =>
    (if first then [] else " | ".toList) ++ "((".toList ++ var ++ " >> ".toList ++
      print_signed (r.msb - range_start + 1) ++ ") & 0b".toList ++
      format_bitmask_digits range_start (range_start - (r.msb - r.lsb)) total_length ++
      [')'] ++
      format_bitmask_loop var total_length false rest (range_start - ((r.msb - r.lsb) + 1))

/-- The second loop of `format_bitmask` (lines 238-243): the ranges of the comment. -/
def format_bitmask_ranges : Bool → List riscv_bitrange → Str
  | _, [] => []
  | first, r :: rest =>
    (if first then [] else ['|']) ++
      (if r.msb = r.lsb then print_signed r.msb
        else print_signed r.msb ++ [':'] ++ print_signed r.lsb) ++
      format_bitmask_ranges false rest

/-- The method `riscv_meta_model::format_bitmask(bits, var, comment)` (lines 214-248). -/
def format_bitmask (bits : List Int) (var : Str) (comment : Bool) : Str :=
  format_bitmask_loop var bits.length true (bitmask_to_bitrange bits) bits.length ++
    (if comment then
      " /* ".toList ++ var ++ ['['] ++ format_bitmask_ranges true (bitmask_to_bitrange bits) ++
        "] */".toList
    else [])

/-- The shift and the mask digits that the first loop of `format_bitmask` writes for
each range (lines 224-231), in order. -/
def format_bitmask_terms (total_length : Nat) : List riscv_bitrange → Int → List (Int × Str)
  | [], _ => []
  | r :: rest, range_start =>
    (r.msb - range_start + 1,
      format_bitmask_digits range_start (range_start - (r.msb - r.lsb)) total_length) ::
      format_bitmask_terms total_length rest (range_start - ((r.msb - r.lsb) + 1))

/-- The text of the terms of `format_bitmask`: `((var >> shift) & 0bmask)`, joined by
` | `. -/
def format_bitmask_text (var : Str) : Bool → List (Int × Str) → Str
  | _, [] => []
  | first, term :: rest =>
    (if first then [] else " | ".toList) ++ "((".toList ++ var ++ " >> ".toList ++
      print_signed term.1 ++ ") & 0b".toList ++ term.2 ++ [')'] ++
      format_bitmask_text var false rest

/-- The digit of a binary mask at destination bit `d`, counted from the right. -/
def mask_bit (mask : Str) (d : Nat) : Bool := mask.reverse.getD d '0' = '1'

/-- The number of bits of a list of ranges. -/
def runs_length (v : List riscv_bitrange) : Int :=
  (v.map (fun r => r.msb - r.lsb + 1)).sum

/-- The shift and mask that `format_bitmask(bits, var, comment)` writes for each range of
`bitmask_to_bitrange(bits)`: `total_length` and the first `range_start` are
`bits.size()` (lines 219-220). -/
def format_bitmask_bits_terms (bits : List Int) : List (Int × Str) :=
  format_bitmask_terms bits.length (bitmask_to_bitrange bits) bits.length

/-- The model after the format line `fmt rd,rs1` is read into the empty model. -/
def one_format_model : riscv_meta_model :=
  (parse_format riscv_meta_model.empty (line_of ["fmt", "rd,rs1"])).getD
    riscv_meta_model.empty

/-- The model after a second format line for the same name, `fmt`, is read into
`one_format_model`. -/
def two_format_model : riscv_meta_model :=
  (parse_format one_format_model (line_of ["fmt"])).getD riscv_meta_model.empty

/-- The prefix that the first loop of `decode_isa_extensions` holds in `ext_prefix`
after it has visited the given extensions: the prefix of the last of them whose prefix
starts the ISA string, empty when there is none. -/
def prefix_matched (isa_spec : Str) (exts : List riscv_extension) : Str :=
  exts.foldl (fun p e => if e.prefix_.isPrefixOf isa_spec then e.prefix_ else p) []

/-- An extensions line: the five tokens `<prefix> <width> <alpha> 32 "<description>"`. -/
def ext_line (p width alpha : String) : List Str :=
  [p.toList, width.toList, alpha.toList, "32".toList, "extension".toList]

/-- A registry with two prefixes, one of which starts the other: the extensions `x12a`
(prefix `x`, width 12) and `x17b` (prefix `x1`, width 7). -/
def x_registry : riscv_meta_model :=
  (register_extensions [ext_line "x" "12" "a", ext_line "x1" "7" "b"]
    riscv_meta_model.empty).getD riscv_meta_model.empty

end RiscvModel

/-! # Properties -/

namespace RiscvModel

theorem dec_digit_toNat (d : Nat) (h : d < 10) : (Char.ofNat (48 + d)).toNat = 48 + d := by
  interval_cases d <;> rfl

theorem is_dec_dec_digit (d : Nat) (h : d < 10) : is_dec (Char.ofNat (48 + d)) := by
  unfold is_dec
  rw [dec_digit_toNat d h]
  omega

theorem digit_value_of_is_dec {c : Char} (h : is_dec c) :
    digit_value c = some (c.toNat - 48) := by
  have h2 : 48 ≤ c.toNat ∧ c.toNat ≤ 57 := h
  unfold digit_value
  rw [if_pos h2]

theorem strtoul_digits_dec (acc : Nat) {c : Char} (cs : Str) (h : is_dec c) :
    strtoul_digits 10 acc (c :: cs) = strtoul_digits 10 (acc * 10 + (c.toNat - 48)) cs := by
  have hlt : c.toNat - 48 < 10 := by
    have := h.2
    omega
  simp only [strtoul_digits, digit_value_of_is_dec h, if_pos hlt]

theorem print_digits_spec : ∀ (fuel n : Nat) (acc : Str), n < fuel →
    ∃ pre : Str, print_digits fuel n acc = pre ++ acc ∧ pre ≠ [] ∧ (∀ c ∈ pre, is_dec c) ∧
      ∀ (a : Nat) (tl : Str),
        strtoul_digits 10 a (pre ++ tl) = strtoul_digits 10 (a * 10 ^ pre.length + n) tl := by
  intro fuel
  induction fuel with
  | zero => intro n acc h; omega
  | succ fuel ih =>
    intro n acc h
    have hd : n % 10 < 10 := Nat.mod_lt _ (by norm_num)
    by_cases h0 : n / 10 = 0
    · refine ⟨[Char.ofNat (48 + n % 10)], ?_, by simp, ?_, ?_⟩
      · simp [print_digits, h0]
      · intro c hc
        rw [List.mem_singleton] at hc
        rw [hc]
        exact is_dec_dec_digit _ hd
      · intro a tl
        rw [List.singleton_append, strtoul_digits_dec a tl (is_dec_dec_digit _ hd),
          dec_digit_toNat _ hd]
        have : n % 10 = n := by omega
        simp [this]
    · obtain ⟨pre, hp, _, hdec, hval⟩ :=
        ih (n / 10) (Char.ofNat (48 + n % 10) :: acc) (by omega)
      refine ⟨pre ++ [Char.ofNat (48 + n % 10)], ?_, by simp, ?_, ?_⟩
      · simp [print_digits, h0, hp]
      · intro c hc
        rw [List.mem_append, List.mem_singleton] at hc
        rcases hc with hc | hc
        · exact hdec c hc
        · rw [hc]; exact is_dec_dec_digit _ hd
      · intro a tl
        rw [List.append_assoc, hval, List.singleton_append,
          strtoul_digits_dec _ tl (is_dec_dec_digit _ hd), dec_digit_toNat _ hd]
        congr 1
        rw [List.length_append, List.length_singleton, pow_succ]
        have := Nat.div_add_mod n 10
        ring_nf
        omega

theorem is_dec_not_space {c : Char} (h : is_dec c) : isspace c = false := by
  have h1 := h.1
  have h2 := h.2
  unfold isspace
  simp only [Bool.or_eq_false_iff, beq_eq_false_iff_ne, ne_eq]
  refine ⟨⟨⟨⟨⟨?_, ?_⟩, ?_⟩, ?_⟩, ?_⟩, ?_⟩ <;>
  · intro he
    rw [he] at h1 h2
    revert h1 h2
    decide

theorem is_dec_ne {c d : Char} (h : is_dec c) (hd : ¬ is_dec d) : c ≠ d := by
  intro he
  rw [he] at h
  exact hd h

theorem strtoul_skip_0x_ten (s : Str) : strtoul_skip_0x 10 s = s := by
  unfold strtoul_skip_0x
  split
  · simp
  · rfl

/-- Reading back the digits that `print_unsigned` wrote. -/
theorem strtoul_print_unsigned (n : Nat) :
    strtoul (print_unsigned n) 10 = if ULONG_MAX < n then ULONG_MAX else n := by
  obtain ⟨pre, hp, hne, hdec, hval⟩ := print_digits_spec (n + 1) n [] (by omega)
  rw [List.append_nil] at hp
  obtain ⟨c, r, hcr⟩ := List.exists_cons_of_ne_nil hne
  have hc : is_dec c := hdec c (by rw [hcr]; exact List.mem_cons_self _ _)
  have hv := hval 0 []
  rw [List.append_nil] at hv
  have hm : c ≠ '-' := is_dec_ne hc (by decide)
  have hpl : c ≠ '+' := is_dec_ne hc (by decide)
  unfold strtoul print_unsigned
  rw [hp, hcr, List.dropWhile_cons_of_neg (by simp [is_dec_not_space hc])]
  simp only [strtoul_sign, if_neg hm, if_neg hpl, strtoul_skip_0x_ten]
  rw [← hcr, hv]
  simp [strtoul_digits]

/-- Reading back a minus sign and the digits that `print_unsigned` wrote. -/
theorem strtoul_minus_print_unsigned (n : Nat) :
    strtoul ('-' :: print_unsigned n) 10 =
      if ULONG_MAX < n then ULONG_MAX else (2 ^ 64 - n) % 2 ^ 64 := by
  obtain ⟨pre, hp, hne, hdec, hval⟩ := print_digits_spec (n + 1) n [] (by omega)
  rw [List.append_nil] at hp
  have hv := hval 0 []
  rw [List.append_nil] at hv
  unfold strtoul print_unsigned
  rw [hp, List.dropWhile_cons_of_neg (by decide)]
  simp only [strtoul_sign, if_true, strtoul_skip_0x_ten]
  rw [hv]
  simp [strtoul_digits]

/-- A value of `ssize_t`: between `-2^63` and `2^63 - 1`. -/
theorem to_signed64_range (n : Nat) :
    -(2 : Int) ^ 63 ≤ to_signed64 n ∧ to_signed64 n < 2 ^ 63 := by
  unfold to_signed64
  have := Nat.mod_lt n (show 0 < 2 ^ 64 by norm_num)
  split <;> omega

/-- Printing an `ssize_t` and reading it back with `strtoul` gives the value again,
for negative values too. -/
theorem to_signed64_strtoul_print_signed (z : Int) (h1 : -(2 : Int) ^ 63 ≤ z)
    (h2 : z < 2 ^ 63) : to_signed64 (strtoul (print_signed z) 10) = z := by
  unfold print_signed
  by_cases hz : z < 0
  · rw [if_pos hz, strtoul_minus_print_unsigned]
    have hle : ¬ ULONG_MAX < z.natAbs := by unfold ULONG_MAX; omega
    rw [if_neg hle]
    unfold to_signed64
    split <;> omega
  · rw [if_neg hz, strtoul_print_unsigned]
    have hle : ¬ ULONG_MAX < z.toNat := by unfold ULONG_MAX; omega
    rw [if_neg hle]
    unfold to_signed64
    split <;> omega

/-! ## `split` at a one-character separator -/

theorem split_loop_sep (d : Char) (cur rest : Str) :
    split_loop [d] false false 0 cur (d :: rest) =
      (if cur = [] then [] else [cur]) ++ split_loop [d] false false 0 [] rest := by
  cases cur <;> simp [split_loop, List.isPrefixOf]

theorem split_loop_other (d c : Char) (cur rest : Str) (h : c ≠ d) :
    split_loop [d] false false 0 cur (c :: rest) =
      split_loop [d] false false 0 (cur ++ [c]) rest := by
  have h2 : ¬ d = c := fun e => h e.symm
  simp [split_loop, List.isPrefixOf, h2]

theorem split_loop_run (d : Char) (a : Str) : ∀ (cur rest : Str), d ∉ a →
    split_loop [d] false false 0 cur (a ++ rest) =
      split_loop [d] false false 0 (cur ++ a) rest := by
  induction a with
  | nil => intro cur rest _; simp
  | cons c a ih =>
    intro cur rest h
    rw [List.mem_cons, not_or] at h
    rw [List.cons_append, split_loop_other d c cur _ (fun e => h.1 e.symm), ih _ _ h.2]
    simp

theorem split_nil (d : Char) : split [] [d] false false = [] := by
  simp [split, split_loop]

/-- A non-empty piece without the separator, at the end of the string, is the last
component. -/
theorem split_piece_last (d : Char) (a : Str) (hne : a ≠ []) (h : d ∉ a) :
    split a [d] false false = [a] := by
  have := split_loop_run d a [] [] h
  rw [List.append_nil, List.nil_append] at this
  unfold split
  rw [this]
  cases a with
  | nil => exact absurd rfl hne
  | cons c a => simp [split_loop]

/-- A non-empty piece without the separator, followed by the separator, is the first
component. -/
theorem split_piece_cons (d : Char) (a rest : Str) (hne : a ≠ []) (h : d ∉ a) :
    split (a ++ d :: rest) [d] false false = a :: split rest [d] false false := by
  unfold split
  rw [split_loop_run d a [] _ h, List.nil_append, split_loop_sep, if_neg hne]
  rfl

/-! ## Bit-ranges: rendering and parsing -/

theorem print_unsigned_chars (n : Nat) :
    print_unsigned n ≠ [] ∧ ∀ c ∈ print_unsigned n, is_dec c := by
  obtain ⟨pre, hp, hne, hdec, _⟩ := print_digits_spec (n + 1) n [] (by omega)
  rw [List.append_nil] at hp
  unfold print_unsigned
  rw [hp]
  exact ⟨hne, hdec⟩

theorem print_signed_ne_nil (z : Int) : print_signed z ≠ [] := by
  unfold print_signed
  split
  · simp
  · exact (print_unsigned_chars _).1

theorem print_signed_chars (z : Int) : ∀ c ∈ print_signed z, is_num_char c := by
  intro c hc
  unfold print_signed at hc
  split at hc
  · rw [List.mem_cons] at hc
    rcases hc with hc | hc
    · exact Or.inr hc
    · exact Or.inl ((print_unsigned_chars _).2 c hc)
  · exact Or.inl ((print_unsigned_chars _).2 c hc)

theorem print_signed_natCast (n : Nat) : print_signed (n : Int) = print_unsigned n := by
  unfold print_signed
  have h : ¬ ((n : Int) < 0) := by omega
  rw [if_neg h, Int.toNat_ofNat]

/-- A character that is neither a digit nor a minus sign does not occur in a printed
number. -/
theorem not_mem_print_signed (z : Int) (d : Char) (hd : ¬ is_num_char d) :
    d ∉ print_signed z := fun h => hd (print_signed_chars z d h)

/-- Parsing the rendering of a bit-range gives the bit-range back, with the collapse
flag on or off, for negative fields too. -/
theorem riscv_bitrange_of_string_to_string (r : riscv_bitrange) (collapse : Bool)
    (hr : r.in_range) : riscv_bitrange.of_string (r.to_string [':'] collapse) = some r := by
  obtain ⟨msb, lsb⟩ := r
  obtain ⟨⟨hm1, hm2⟩, ⟨hl1, hl2⟩⟩ := hr
  simp only at hm1 hm2 hl1 hl2
  have hcolon : ¬ is_num_char ':' := by decide
  unfold riscv_bitrange.to_string riscv_bitrange.of_string
  by_cases hc : (!collapse || msb != lsb) = true
  · simp only [hc, if_true]
    rw [List.singleton_append,
      split_piece_cons ':' _ _ (print_signed_ne_nil msb) (not_mem_print_signed msb ':' hcolon),
      split_piece_last ':' _ (print_signed_ne_nil lsb) (not_mem_print_signed lsb ':' hcolon)]
    simp [to_signed64_strtoul_print_signed msb hm1 hm2,
      to_signed64_strtoul_print_signed lsb hl1 hl2]
  · have hc2 : (!collapse || msb != lsb) = false := by simpa using hc
    simp only [hc2, Bool.false_eq_true, if_false, List.append_nil]
    rw [split_piece_last ':' _ (print_signed_ne_nil msb)
      (not_mem_print_signed msb ':' hcolon)]
    have heq : msb = lsb := by
      simp only [Bool.or_eq_true, Bool.not_eq_true', bne_iff_ne, ne_eq, not_or,
        Decidable.not_not] at hc
      exact hc.2
    simp [to_signed64_strtoul_print_signed msb hm1 hm2,
      to_signed64_strtoul_print_signed lsb hl1 hl2, heq]

/-! ## Bit-specs: rendering and parsing -/

theorem riscv_bitrange_of_string_in_range (str : Str) (r : riscv_bitrange)
    (h : riscv_bitrange.of_string str = some r) : r.in_range := by
  unfold riscv_bitrange.of_string at h
  simp only at h
  split at h
  · exact absurd h (by simp)
  · split at h <;>
    · rw [Option.some.injEq] at h
      rw [← h]
      exact ⟨to_signed64_range _, to_signed64_range _⟩

theorem scatter_of_strings_in_range : ∀ (l : List Str) (rs : List riscv_bitrange),
    riscv_bitspec.scatter_of_strings l = some rs → ∀ r ∈ rs, r.in_range := by
  intro l
  induction l with
  | nil =>
    intro rs h r hr
    simp [riscv_bitspec.scatter_of_strings] at h
    rw [h] at hr
    exact absurd hr (List.not_mem_nil r)
  | cons x l ih =>
    intro rs h r hr
    unfold riscv_bitspec.scatter_of_strings at h
    cases hx : riscv_bitrange.of_string x with
    | none => simp [hx] at h
    | some r0 =>
      cases hl : riscv_bitspec.scatter_of_strings l with
      | none => simp [hx, hl] at h
      | some rs0 =>
        simp only [hx, hl, Option.some.injEq] at h
        rw [← h, List.mem_cons] at hr
        rcases hr with hr | hr
        · rw [hr]; exact riscv_bitrange_of_string_in_range x r0 hx
        · exact ih rs0 hl r hr

theorem segment_of_string_in_range (comp : Str) (seg : riscv_bitseg)
    (h : riscv_bitspec.segment_of_string comp = some seg) : riscv_bitseg_in_range seg := by
  unfold riscv_bitspec.segment_of_string at h
  split at h
  · rename_i bopen bclose _ _
    cases hg : riscv_bitrange.of_string (substr comp 0 bopen) with
    | none => simp [hg] at h
    | some g =>
      cases hs : riscv_bitspec.scatter_of_strings
          (split (substr comp (bopen + 1) (size_sub (size_sub bclose bopen) 1)) ['|']
            false false) with
      | none => simp [hg, hs] at h
      | some sc =>
        simp only [hg, hs, Option.some.injEq] at h
        rw [← h]
        exact ⟨riscv_bitrange_of_string_in_range _ g hg, scatter_of_strings_in_range _ sc hs⟩
  · cases hg : riscv_bitrange.of_string comp with
    | none => simp [hg] at h
    | some g =>
      simp only [hg, Option.some.injEq] at h
      rw [← h]
      exact ⟨riscv_bitrange_of_string_in_range _ g hg,
        fun r hr => absurd hr (List.not_mem_nil r)⟩

theorem segments_of_strings_in_range : ∀ (l : List Str) (segs : List riscv_bitseg),
    riscv_bitspec.segments_of_strings l = some segs →
      ∀ seg ∈ segs, riscv_bitseg_in_range seg := by
  intro l
  induction l with
  | nil =>
    intro segs h seg hseg
    simp [riscv_bitspec.segments_of_strings] at h
    rw [h] at hseg
    exact absurd hseg (List.not_mem_nil seg)
  | cons x l ih =>
    intro segs h seg hseg
    unfold riscv_bitspec.segments_of_strings at h
    cases hx : riscv_bitspec.segment_of_string x with
    | none => simp [hx] at h
    | some s0 =>
      cases hl : riscv_bitspec.segments_of_strings l with
      | none => simp [hx, hl] at h
      | some segs0 =>
        simp only [hx, hl, Option.some.injEq] at h
        rw [← h, List.mem_cons] at hseg
        rcases hseg with hseg | hseg
        · rw [hseg]; exact segment_of_string_in_range x s0 hx
        · exact ih segs0 hl seg hseg

theorem find_single (c : Char) (a b : Str) (h : c ∉ a) :
    find (a ++ c :: b) [c] = some a.length := by
  induction a with
  | nil => simp [find, List.isPrefixOf]
  | cons x a ih =>
    rw [List.mem_cons, not_or] at h
    have hx : ¬ c = x := h.1
    simp [find, List.isPrefixOf, hx, ih h.2]

theorem riscv_bitrange_to_string_chars (r : riscv_bitrange) (b : Bool) :
    r.to_string [':'] b ≠ [] ∧ ∀ c ∈ r.to_string [':'] b, is_range_char c := by
  unfold riscv_bitrange.to_string
  refine ⟨?_, ?_⟩
  · intro h
    exact print_signed_ne_nil r.msb (List.append_eq_nil.mp h).1
  · intro c hc
    rw [List.mem_append] at hc
    rcases hc with hc | hc
    · exact Or.inl (print_signed_chars _ c hc)
    · split at hc
      · rw [List.mem_append, List.mem_singleton] at hc
        rcases hc with hc | hc
        · exact Or.inr hc
        · exact Or.inl (print_signed_chars _ c hc)
      · exact absurd hc (List.not_mem_nil c)

theorem not_mem_riscv_bitrange_to_string (r : riscv_bitrange) (b : Bool) (d : Char)
    (hd : ¬ is_range_char d) : d ∉ r.to_string [':'] b :=
  fun h => hd ((riscv_bitrange_to_string_chars r b).2 d h)

theorem to_string_scatter_false (t : riscv_bitrange) (rest : List riscv_bitrange) :
    riscv_bitspec.to_string_scatter false (t :: rest) =
      '|' :: riscv_bitspec.to_string_scatter true (t :: rest) := by
  simp [riscv_bitspec.to_string_scatter]

theorem to_string_scatter_chars : ∀ (rs : List riscv_bitrange) (first : Bool),
    ∀ c ∈ riscv_bitspec.to_string_scatter first rs, is_range_char c ∨ c = '|' := by
  intro rs
  induction rs with
  | nil => intro first c hc; simp [riscv_bitspec.to_string_scatter] at hc
  | cons t rest ih =>
    intro first c hc
    unfold riscv_bitspec.to_string_scatter at hc
    rw [List.mem_append, List.mem_append] at hc
    rcases hc with (hc | hc) | hc
    · split at hc
      · exact absurd hc (List.not_mem_nil c)
      · rw [List.mem_singleton] at hc
        exact Or.inr hc
    · exact Or.inl ((riscv_bitrange_to_string_chars t _).2 c hc)
    · exact ih false c hc

/-- Parsing the rendered scatter list gives the scatter list back. -/
theorem scatter_of_strings_to_string_scatter : ∀ (rs : List riscv_bitrange),
    (∀ r ∈ rs, r.in_range) →
      riscv_bitspec.scatter_of_strings
        (split (riscv_bitspec.to_string_scatter true rs) ['|'] false false) = some rs := by
  intro rs
  induction rs with
  | nil =>
    intro _
    simp [riscv_bitspec.to_string_scatter, split_nil, riscv_bitspec.scatter_of_strings]
  | cons t rest ih =>
    intro h
    have ht : t.in_range := h t (List.mem_cons_self _ _)
    have hrest : ∀ r ∈ rest, r.in_range := fun r hr => h r (List.mem_cons_of_mem _ hr)
    have hbar : ¬ is_range_char '|' := by decide
    have hne := (riscv_bitrange_to_string_chars t collapse_single_bit_range_default).1
    have hnot := not_mem_riscv_bitrange_to_string t collapse_single_bit_range_default '|' hbar
    have hrt := riscv_bitrange_of_string_to_string t collapse_single_bit_range_default ht
    cases rest with
    | nil =>
      simp only [riscv_bitspec.to_string_scatter, if_true, List.nil_append, List.append_nil]
      rw [split_piece_last '|' _ hne hnot]
      simp [riscv_bitspec.scatter_of_strings, hrt]
    | cons t2 rest2 =>
      have ih2 := ih hrest
      rw [riscv_bitspec.to_string_scatter, to_string_scatter_false]
      simp only [if_true, List.nil_append]
      rw [split_piece_cons '|' _ _ hne hnot]
      simp only [riscv_bitspec.scatter_of_strings, hrt]
      rw [ih2]

theorem to_string_segments_cons (first : Bool) (si : riscv_bitseg)
    (rest : List riscv_bitseg) :
    riscv_bitspec.to_string_segments first (si :: rest) =
      (if first then [] else [',']) ++
        (riscv_bitspec.to_string_segment si ++ riscv_bitspec.to_string_segments false rest) := by
  simp [riscv_bitspec.to_string_segments, riscv_bitspec.to_string_segment]

theorem to_string_segment_chars (si : riscv_bitseg) :
    riscv_bitspec.to_string_segment si ≠ [] ∧ ',' ∉ riscv_bitspec.to_string_segment si := by
  unfold riscv_bitspec.to_string_segment
  refine ⟨?_, ?_⟩
  · intro h
    exact (riscv_bitrange_to_string_chars si.1 _).1 (List.append_eq_nil.mp h).1
  · intro h
    rw [List.mem_append, List.mem_cons, List.mem_append, List.mem_singleton] at h
    rcases h with h | h | h | h
    · exact not_mem_riscv_bitrange_to_string si.1 _ ',' (by decide) h
    · exact absurd h (by decide)
    · rcases to_string_scatter_chars si.2 true ',' h with h2 | h2
      · exact absurd h2 (by decide)
      · exact absurd h2 (by decide)
    · exact absurd h (by decide)

/-- Parsing the text of one rendered segment gives the segment back. -/
theorem segment_of_string_to_string_segment (si : riscv_bitseg)
    (h : riscv_bitseg_in_range si) :
    riscv_bitspec.segment_of_string (riscv_bitspec.to_string_segment si) = some si := by
  obtain ⟨g, sc⟩ := si
  obtain ⟨hg, hsc⟩ := h
  simp only at hg hsc
  have hopen : '[' ∉ g.to_string [':'] collapse_single_bit_range_default :=
    not_mem_riscv_bitrange_to_string g _ '[' (by decide)
  have hclose : ']' ∉ g.to_string [':'] collapse_single_bit_range_default ++
      '[' :: riscv_bitspec.to_string_scatter true sc := by
    intro hm
    rw [List.mem_append, List.mem_cons] at hm
    rcases hm with hm | hm | hm
    · exact not_mem_riscv_bitrange_to_string g _ ']' (by decide) hm
    · exact absurd hm (by decide)
    · rcases to_string_scatter_chars sc true ']' hm with h2 | h2
      · exact absurd h2 (by decide)
      · exact absurd h2 (by decide)
  have h1 := find_single '[' _ (riscv_bitspec.to_string_scatter true sc ++ [']']) hopen
  have h2 := find_single ']' _ [] hclose
  rw [List.append_assoc, List.cons_append] at h2
  unfold riscv_bitspec.to_string_segment riscv_bitspec.segment_of_string
  simp only
  rw [h1, h2]
  simp only
  have hsub1 : substr (g.to_string [':'] collapse_single_bit_range_default ++
      '[' :: (riscv_bitspec.to_string_scatter true sc ++ [']'])) 0
      (g.to_string [':'] collapse_single_bit_range_default).length =
      g.to_string [':'] collapse_single_bit_range_default := by
    simp [substr]
  have hsize : size_sub (size_sub (g.to_string [':'] collapse_single_bit_range_default ++
      '[' :: riscv_bitspec.to_string_scatter true sc).length
      (g.to_string [':'] collapse_single_bit_range_default).length) 1 =
      (riscv_bitspec.to_string_scatter true sc).length := by
    rw [List.length_append, List.length_cons]
    unfold size_sub
    split_ifs <;> omega
  have hsub2 : substr (g.to_string [':'] collapse_single_bit_range_default ++
      '[' :: (riscv_bitspec.to_string_scatter true sc ++ [']']))
      ((g.to_string [':'] collapse_single_bit_range_default).length + 1)
      (riscv_bitspec.to_string_scatter true sc).length =
      riscv_bitspec.to_string_scatter true sc := by
    simp [substr, List.drop_append]
  rw [hsub1, hsize, hsub2, riscv_bitrange_of_string_to_string g _ hg,
    scatter_of_strings_to_string_scatter sc hsc]

/-- Parsing the rendered segment list gives the segment list back. -/
theorem segments_of_strings_to_string_segments : ∀ (segs : List riscv_bitseg),
    (∀ seg ∈ segs, riscv_bitseg_in_range seg) →
      riscv_bitspec.segments_of_strings
        (split (riscv_bitspec.to_string_segments true segs) [','] false false) = some segs := by
  intro segs
  induction segs with
  | nil =>
    intro _
    simp [riscv_bitspec.to_string_segments, split_nil, riscv_bitspec.segments_of_strings]
  | cons si rest ih =>
    intro h
    have hsi := h si (List.mem_cons_self _ _)
    have hrest : ∀ seg ∈ rest, riscv_bitseg_in_range seg :=
      fun seg hs => h seg (List.mem_cons_of_mem _ hs)
    obtain ⟨hne, hnot⟩ := to_string_segment_chars si
    have hrt := segment_of_string_to_string_segment si hsi
    rw [to_string_segments_cons]
    simp only [if_true, List.nil_append]
    cases rest with
    | nil =>
      simp only [riscv_bitspec.to_string_segments, List.append_nil]
      rw [split_piece_last ',' _ hne hnot]
      simp [riscv_bitspec.segments_of_strings, hrt]
    | cons s2 rest2 =>
      have ih2 := ih hrest
      rw [to_string_segments_cons] at ih2 ⊢
      simp only [if_true, List.nil_append, Bool.false_eq_true, if_false,
        List.singleton_append] at ih2 ⊢
      rw [split_piece_cons ',' _ _ hne hnot]
      simp only [riscv_bitspec.segments_of_strings, hrt]
      rw [ih2]

/-- C1: for every string on which the bit-spec constructor succeeds, giving `s`,
the constructor also succeeds on the rendering `s.to_string()` and gives a bit-spec
with the same segment list: the same gather ranges and the same ordered scatter
lists, empty scatter lists included. -/
theorem riscv_bitspec_of_string_to_string (bitspec : Str) (s : riscv_bitspec)
    (h : riscv_bitspec.of_string bitspec = some s) :
    riscv_bitspec.of_string s.to_string = some s := by
  unfold riscv_bitspec.of_string at h
  cases hsegs : riscv_bitspec.segments_of_strings (split bitspec [','] false false) with
  | none => simp [hsegs] at h
  | some segs =>
    simp only [hsegs, Option.some.injEq] at h
    have hr := segments_of_strings_in_range _ segs hsegs
    rw [← h]
    unfold riscv_bitspec.of_string riscv_bitspec.to_string
    simp only
    rw [segments_of_strings_to_string_segments segs hr]

/-- C1 at a bit-spec whose second segment has no scatter list: it is rendered with
empty brackets and parsed back with an empty scatter list. -/
theorem riscv_bitspec_of_string_to_string_witness :
    riscv_bitspec.of_string "31:25[12|10:5],11:7".toList =
        some (riscv_bitspec.mk [(riscv_bitrange.mk 31 25,
          [riscv_bitrange.mk 12 12, riscv_bitrange.mk 10 5]), (riscv_bitrange.mk 11 7, [])]) ∧
      (riscv_bitspec.mk [(riscv_bitrange.mk 31 25,
          [riscv_bitrange.mk 12 12, riscv_bitrange.mk 10 5]),
          (riscv_bitrange.mk 11 7, [])]).to_string = "31:25[12|10:5],11:7[]".toList ∧
      riscv_bitspec.of_string (riscv_bitspec.mk [(riscv_bitrange.mk 31 25,
          [riscv_bitrange.mk 12 12, riscv_bitrange.mk 10 5]),
          (riscv_bitrange.mk 11 7, [])]).to_string =
        some (riscv_bitspec.mk [(riscv_bitrange.mk 31 25,
          [riscv_bitrange.mk 12 12, riscv_bitrange.mk 10 5]), (riscv_bitrange.mk 11 7, [])]) :=
  ⟨by decide, by decide,
    riscv_bitspec_of_string_to_string "31:25[12|10:5],11:7".toList _ (by decide)⟩

/-- C2: for every bit-range `r` whose `msb` and `lsb` are non-negative (`ssize_t`
values, so below `2^63`), the bit-range constructor succeeds on `r.to_string(":")` and
gives a bit-range with the `msb` and `lsb` of `r`, with the single-bit collapse flag on
and with it off. -/
theorem riscv_bitrange_to_string_roundtrip (r : riscv_bitrange) (collapse : Bool)
    (hmsb : 0 ≤ r.msb) (hlsb : 0 ≤ r.lsb) (hmsb_max : r.msb < 2 ^ 63)
    (hlsb_max : r.lsb < 2 ^ 63) :
    riscv_bitrange.of_string (r.to_string [':'] collapse) = some r :=
  riscv_bitrange_of_string_to_string r collapse
    ⟨⟨by omega, hmsb_max⟩, ⟨by omega, hlsb_max⟩⟩

/-- C2 at the bit-range 7:7 of scenario S1: with the flag on it is written `7`, with
the flag off `7:7`, and both are read back as 7:7. -/
theorem riscv_bitrange_to_string_roundtrip_witness :
    (riscv_bitrange.mk 7 7).to_string [':'] true = "7".toList ∧
      (riscv_bitrange.mk 7 7).to_string [':'] false = "7:7".toList ∧
      riscv_bitrange.of_string ((riscv_bitrange.mk 7 7).to_string [':'] true) =
        some (riscv_bitrange.mk 7 7) ∧
      riscv_bitrange.of_string ((riscv_bitrange.mk 7 7).to_string [':'] false) =
        some (riscv_bitrange.mk 7 7) :=
  ⟨by decide, by decide,
    riscv_bitrange_to_string_roundtrip (riscv_bitrange.mk 7 7) true (by decide) (by decide)
      (by decide) (by decide),
    riscv_bitrange_to_string_roundtrip (riscv_bitrange.mk 7 7) false (by decide) (by decide)
      (by decide) (by decide)⟩

/-- C3 fails as stated: the constructor accepts `5:7` and returns `msb = 5`,
`lsb = 7`, so not every bit-range it returns has `msb ≥ lsb`. -/
theorem riscv_bitrange_of_string_msb_ge_lsb_counterexample :
    ¬ ∀ (bitrange : Str) (r : riscv_bitrange),
      riscv_bitrange.of_string bitrange = some r → r.msb ≥ r.lsb := by
  intro h
  have h57 := h "5:7".toList (riscv_bitrange.mk 5 7) (by decide)
  revert h57
  decide

/-- C3 as amended: a bit-range that the constructor returns for a string without a
colon (the form `n`) has `msb = lsb`, hence `msb ≥ lsb`; for the form `msb:lsb` the two
numbers are stored as written, in either order, so the result has `msb ≥ lsb` exactly
when the number written first is at least the second. -/
theorem riscv_bitrange_of_string_order (bitrange : Str) (r : riscv_bitrange) (m l : Nat)
    (hcolon : ':' ∉ bitrange) (h : riscv_bitrange.of_string bitrange = some r)
    (hm : m < 2 ^ 63) (hl : l < 2 ^ 63) :
    (r.msb = r.lsb ∧ r.msb ≥ r.lsb) ∧
      ∃ r2, riscv_bitrange.of_string (print_unsigned m ++ ':' :: print_unsigned l) = some r2 ∧
        r2.msb = m ∧ r2.lsb = l ∧ (r2.msb ≥ r2.lsb ↔ m ≥ l) := by
  refine ⟨?_, ?_⟩
  · unfold riscv_bitrange.of_string at h
    simp only at h
    by_cases hne : bitrange = []
    · rw [hne, split_nil] at h
      simp at h
    · rw [split_piece_last ':' bitrange hne hcolon] at h
      simp at h
      rw [← h]
      simp
  · have hrt := riscv_bitrange_of_string_to_string (riscv_bitrange.mk m l) false
      ⟨⟨by simp only; omega, by simp only; omega⟩,
        ⟨by simp only; omega, by simp only; omega⟩⟩
    refine ⟨riscv_bitrange.mk m l, ?_, rfl, rfl, ?_⟩
    · have hs : (riscv_bitrange.mk m l).to_string [':'] false =
          print_unsigned m ++ ':' :: print_unsigned l := by
        simp [riscv_bitrange.to_string, print_signed_natCast]
      rw [← hs]
      exact hrt
    · simp

/-- C3 as amended, at the strings `7` (read as 7:7) and `5:7` (read as `msb = 5`,
`lsb = 7`). -/
theorem riscv_bitrange_of_string_order_witness :
    ((riscv_bitrange.mk 7 7).msb = (riscv_bitrange.mk 7 7).lsb ∧
        (riscv_bitrange.mk 7 7).msb ≥ (riscv_bitrange.mk 7 7).lsb) ∧
      ∃ r2, riscv_bitrange.of_string (print_unsigned 5 ++ ':' :: print_unsigned 7) = some r2 ∧
        r2.msb = (5 : Nat) ∧ r2.lsb = (7 : Nat) ∧ (r2.msb ≥ r2.lsb ↔ 5 ≥ 7) :=
  riscv_bitrange_of_string_order "7".toList (riscv_bitrange.mk 7 7) 5 7 (by decide)
    (by decide) (by norm_num) (by norm_num)

/-! ## `strtoul` on digit strings, `riscv_parse_value` -/

theorem strtoul_digits_valid (base : Nat) : ∀ (d : Str) (acc : Nat),
    (∀ c ∈ d, is_digit_of base c = true) →
      strtoul_digits base acc d =
        d.foldl (fun a c => a * base + (digit_value c).getD 0) acc := by
  intro d
  induction d with
  | nil => intro acc _; rfl
  | cons c d ih =>
    intro acc h
    have hc := h c (List.mem_cons_self _ _)
    have hd : ∀ x ∈ d, is_digit_of base x = true := fun x hx => h x (List.mem_cons_of_mem _ hx)
    unfold is_digit_of at hc
    cases hv : digit_value c with
    | none => simp [hv] at hc
    | some k =>
      simp only [hv, decide_eq_true_eq] at hc
      simp only [strtoul_digits, hv, if_pos hc, List.foldl_cons, Option.getD_some]
      exact ih _ hd

theorem is_digit_of_not_special {base : Nat} {c : Char} (h : is_digit_of base c = true) :
    isspace c = false ∧ c ≠ '-' ∧ c ≠ '+' := by
  have hv : digit_value c ≠ none := by
    intro hn
    simp [is_digit_of, hn] at h
  refine ⟨?_, ?_, ?_⟩
  · unfold isspace
    simp only [Bool.or_eq_false_iff, beq_eq_false_iff_ne, ne_eq]
    refine ⟨⟨⟨⟨⟨?_, ?_⟩, ?_⟩, ?_⟩, ?_⟩, ?_⟩ <;>
    · intro he
      rw [he] at hv
      exact hv (by decide)
  · intro he
    rw [he] at hv
    exact hv (by decide)
  · intro he
    rw [he] at hv
    exact hv (by decide)

theorem strtoul_skip_0x_valid (base : Nat) (d : Str)
    (h : ∀ c ∈ d, is_digit_of 16 c = true) : strtoul_skip_0x base d = d := by
  unfold strtoul_skip_0x
  split
  · rename_i z x hh r
    have hx := h x (by simp)
    have h1 : x ≠ 'x' := by
      intro he
      rw [he] at hx
      exact absurd hx (by decide)
    have h2 : x ≠ 'X' := by
      intro he
      rw [he] at hx
      exact absurd hx (by decide)
    simp [h1, h2]
  · rfl

theorem is_digit_of_mono {b1 b2 : Nat} (hb : b1 ≤ b2) {c : Char}
    (h : is_digit_of b1 c = true) : is_digit_of b2 c = true := by
  unfold is_digit_of at h ⊢
  cases hv : digit_value c with
  | none => simp [hv] at h
  | some k =>
    simp only [hv, decide_eq_true_eq] at h ⊢
    omega

/-- The function `strtoul` on a digit string of a base up to 16: the value of the
string in that base, or `ULONG_MAX` when the value is larger. -/
theorem strtoul_valid_digits (base : Nat) (d : Str) (hb : base ≤ 16)
    (h : valid_digits base d) :
    strtoul d base =
      if ULONG_MAX < digits_value base d then ULONG_MAX else digits_value base d := by
  obtain ⟨hne, hall⟩ := h
  obtain ⟨c, r, hcr⟩ := List.exists_cons_of_ne_nil hne
  have hc : is_digit_of base c = true := hall c (by rw [hcr]; exact List.mem_cons_self _ _)
  obtain ⟨hsp, hm, hpl⟩ := is_digit_of_not_special hc
  have hskip : strtoul_skip_0x base d = d :=
    strtoul_skip_0x_valid base d (fun x hx => is_digit_of_mono hb (hall x hx))
  have hval := strtoul_digits_valid base d 0 hall
  unfold strtoul
  rw [hcr, List.dropWhile_cons_of_neg (by simp [hsp])]
  simp only [strtoul_sign, if_neg hm, if_neg hpl]
  rw [← hcr, hskip, hval]
  simp [digits_value]

theorem to_signed64_of_lt (v : Nat) (h : v < 2 ^ 64) :
    to_signed64 v = if v < 2 ^ 63 then (v : Int) else (v : Int) - 2 ^ 64 := by
  unfold to_signed64
  rw [Nat.mod_eq_of_lt h]

theorem to_signed64_strtoul_valid_digits (base : Nat) (d : Str) (hb : base ≤ 16)
    (h : valid_digits base d) :
    holds_value (to_signed64 (strtoul d base)) (digits_value base d) := by
  rw [strtoul_valid_digits base d hb h]
  unfold holds_value
  refine ⟨?_, ?_⟩
  · intro hv
    have h1 : ¬ ULONG_MAX < digits_value base d := by unfold ULONG_MAX; omega
    rw [if_neg h1, to_signed64_of_lt _ (by omega), if_pos hv]
  · intro hv1 hv2
    have h1 : ¬ ULONG_MAX < digits_value base d := by unfold ULONG_MAX; omega
    have h2 : ¬ digits_value base d < 2 ^ 63 := by omega
    rw [if_neg h1, to_signed64_of_lt _ hv2, if_neg h2]

/-- C4 fails as stated: the hex digits `ffffffffffffffff` have a value that fits in 64
bits, `2^64 - 1`, but `riscv_parse_value("0xffffffffffffffff")` is `-1`, since the
result is a signed 64-bit integer. -/
theorem riscv_parse_value_counterexample :
    valid_digits 16 "ffffffffffffffff".toList ∧
      digits_value 16 "ffffffffffffffff".toList = 2 ^ 64 - 1 ∧
      riscv_parse_value "0xffffffffffffffff".toList = -1 ∧
      riscv_parse_value "0xffffffffffffffff".toList ≠
        (digits_value 16 "ffffffffffffffff".toList : Int) := by
  refine ⟨by decide, by decide, by decide, by decide⟩

/-- C4 as amended: `riscv_parse_value` is total, and for every non-empty digit string
`d` valid in the base whose value is below `2^63`, `parse_value("0x"+d)` is the base-16
value of `d`, `parse_value("0b"+d)` the base-2 value, `parse_value("0"+d)` the base-8
value, and `parse_value(d)`, for a decimal `d` not starting with `0`, the base-10 value;
a value from `2^63` to `2^64 - 1` is returned as the value minus `2^64`; and
`parse_value("0")` is 0. -/
theorem riscv_parse_value_digits (d : Str) :
    (valid_digits 16 d →
      holds_value (riscv_parse_value ('0' :: 'x' :: d)) (digits_value 16 d)) ∧
    (valid_digits 2 d →
      holds_value (riscv_parse_value ('0' :: 'b' :: d)) (digits_value 2 d)) ∧
    (valid_digits 8 d →
      holds_value (riscv_parse_value ('0' :: d)) (digits_value 8 d)) ∧
    (valid_digits 10 d → d.head? ≠ some '0' →
      holds_value (riscv_parse_value d) (digits_value 10 d)) ∧
    riscv_parse_value ['0'] = 0 := by
  refine ⟨?_, ?_, ?_, ?_, by decide⟩
  · intro h
    have := to_signed64_strtoul_valid_digits 16 d (by norm_num) h
    simpa [riscv_parse_value, strtoull, List.isPrefixOf] using this
  · intro h
    have := to_signed64_strtoul_valid_digits 2 d (by norm_num) h
    simpa [riscv_parse_value, strtoull, List.isPrefixOf] using this
  · intro h
    have := to_signed64_strtoul_valid_digits 8 d (by norm_num) h
    obtain ⟨c, r, hcr⟩ := List.exists_cons_of_ne_nil h.1
    have hc : is_digit_of 8 c = true := h.2 c (by rw [hcr]; exact List.mem_cons_self _ _)
    have h1 : ¬ 'x' = c := by
      intro he
      rw [← he] at hc
      exact absurd hc (by decide)
    have h2 : ¬ 'b' = c := by
      intro he
      rw [← he] at hc
      exact absurd hc (by decide)
    rw [hcr] at this ⊢
    simpa [riscv_parse_value, strtoull, List.isPrefixOf, h1, h2] using this
  · intro h h0
    have := to_signed64_strtoul_valid_digits 10 d (by norm_num) h
    obtain ⟨c, r, hcr⟩ := List.exists_cons_of_ne_nil h.1
    rw [hcr] at this h0 ⊢
    have h1 : ¬ '0' = c := by
      intro he
      rw [← he] at h0
      exact h0 rfl
    simpa [riscv_parse_value, strtoull, List.isPrefixOf, h1] using this

/-- C4 as amended, at the digit strings `1b` (hex), `101` (binary), `17` (octal) and
`42` (decimal), and at `8000000000000000` (hex), whose value `2^63` comes back as
`-2^63`. -/
theorem riscv_parse_value_digits_witness :
    riscv_parse_value "0x1b".toList = 27 ∧ riscv_parse_value "0b101".toList = 5 ∧
      riscv_parse_value "017".toList = 15 ∧ riscv_parse_value "42".toList = 42 ∧
      riscv_parse_value "0x8000000000000000".toList = -(2 : Int) ^ 63 := by
  refine ⟨?_, ?_, ?_, ?_, ?_⟩
  · exact ((riscv_parse_value_digits "1b".toList).1 (by decide)).1 (by decide)
  · exact ((riscv_parse_value_digits "101".toList).2.1 (by decide)).1 (by decide)
  · exact ((riscv_parse_value_digits "17".toList).2.2.1 (by decide)).1 (by decide)
  · exact ((riscv_parse_value_digits "42".toList).2.2.2.1 (by decide) (by decide)).1
      (by decide)
  · have h := ((riscv_parse_value_digits "8000000000000000".toList).1 (by decide)).2
      (by decide) (by decide)
    exact h.trans (by decide)

/-! ## `decode_mask` -/

theorem split_loop_dots_other (c : Char) (cur rest : Str) (h : c ≠ '.') :
    split_loop ['.', '.'] false false 0 cur (c :: rest) =
      split_loop ['.', '.'] false false 0 (cur ++ [c]) rest := by
  have h2 : ¬ '.' = c := fun e => h e.symm
  simp [split_loop, List.isPrefixOf, h2]

theorem split_loop_dots_run (a : Str) : ∀ (cur rest : Str), '.' ∉ a →
    split_loop ['.', '.'] false false 0 cur (a ++ rest) =
      split_loop ['.', '.'] false false 0 (cur ++ a) rest := by
  induction a with
  | nil => intro cur rest _; simp
  | cons c a ih =>
    intro cur rest h
    rw [List.mem_cons, not_or] at h
    rw [List.cons_append, split_loop_dots_other c cur _ (fun e => h.1 e.symm), ih _ _ h.2]
    simp

/-- A piece without a dot is the only `..`-separated component of itself. -/
theorem split_dots_one (a : Str) (hne : a ≠ []) (h : '.' ∉ a) :
    split a ['.', '.'] false false = [a] := by
  have := split_loop_dots_run a [] [] h
  rw [List.append_nil, List.nil_append] at this
  unfold split
  rw [this]
  cases a with
  | nil => exact absurd rfl hne
  | cons c a => simp [split_loop]

/-- Two pieces without a dot, joined by `..`, are the two components. -/
theorem split_dots_two (a b : Str) (ha : a ≠ []) (hb : b ≠ []) (h1 : '.' ∉ a)
    (h2 : '.' ∉ b) : split (a ++ '.' :: '.' :: b) ['.', '.'] false false = [a, b] := by
  have hb2 := split_dots_one b hb h2
  unfold split at hb2 ⊢
  rw [split_loop_dots_run a [] _ h1, List.nil_append]
  cases a with
  | nil => exact absurd rfl ha
  | cons c a =>
    simp only [split_loop, List.isPrefixOf]
    simp [split_loop, hb2]

theorem find_eq_zero_iff (s pat : Str) : find s pat = some 0 ↔ pat.isPrefixOf s = true := by
  cases s with
  | nil => cases pat <;> simp [find, List.isPrefixOf]
  | cons c tl =>
    unfold find
    by_cases h : pat.isPrefixOf (c :: tl) = true
    · simp [h]
    · simp only [h, if_false, Bool.false_eq_true, iff_false]
      cases find tl pat <;> simp

theorem is_digit_of_ne {base : Nat} {c d : Char} (h : is_digit_of base c = true)
    (hd : digit_value d = none) : c ≠ d := by
  intro he
  rw [he] at h
  simp [is_digit_of, hd] at h

theorem not_mem_valid_digits {base : Nat} {d : Str} (h : valid_digits base d) (x : Char)
    (hx : is_digit_of base x = false) : x ∉ d := by
  intro hm
  have := h.2 x hm
  rw [hx] at this
  exact absurd this (by decide)

theorem to_signed64_strtoul_of_lt (base : Nat) (d : Str) (hb : base ≤ 16)
    (h : valid_digits base d) (hv : digits_value base d < 2 ^ 63) :
    to_signed64 (strtoul d base) = (digits_value base d : Int) :=
  (to_signed64_strtoul_valid_digits base d hb h).1 hv

/-- What `decode_mask` does on `l=r` when neither side is empty or holds an equals
sign: only the range part and the value part remain to be read. -/
theorem decode_mask_sides (l r : Str) (hl : l ≠ []) (hr : r ≠ []) (hle : '=' ∉ l)
    (hre : '=' ∉ r) :
    split (l ++ '=' :: r) ['='] false false = [l, r] := by
  rw [split_piece_cons '=' l r hl hle, split_piece_last '=' r hr hre]

theorem decode_mask_range (dn dm r : Str) (hn : valid_digits 10 dn)
    (hm : valid_digits 10 dm) (hnv : digits_value 10 dn < 2 ^ 63)
    (hmv : digits_value 10 dm < 2 ^ 63) (hr : r ≠ []) (hre : '=' ∉ r) :
    decode_mask (dn ++ '.' :: '.' :: dm ++ '=' :: r) =
      some (riscv_bitrange.mk (digits_value 10 dn) (digits_value 10 dm),
        decode_mask_value r) := by
  have hl : dn ++ '.' :: '.' :: dm ≠ [] := by
    intro h
    exact hn.1 (List.append_eq_nil.mp h).1
  have hle : '=' ∉ dn ++ '.' :: '.' :: dm := by
    intro h
    rw [List.mem_append, List.mem_cons, List.mem_cons] at h
    rcases h with h | h | h | h
    · exact not_mem_valid_digits hn '=' (by decide) h
    · exact absurd h (by decide)
    · exact absurd h (by decide)
    · exact not_mem_valid_digits hm '=' (by decide) h
  have hsp := decode_mask_sides _ r hl hr hle hre
  have hdots := split_dots_two dn dm hn.1 hm.1 (not_mem_valid_digits hn '.' (by decide))
    (not_mem_valid_digits hm '.' (by decide))
  unfold decode_mask
  simp only [hsp]
  simp [hdots, to_signed64_strtoul_of_lt 10 dn (by norm_num) hn hnv,
    to_signed64_strtoul_of_lt 10 dm (by norm_num) hm hmv]

theorem decode_mask_single (dn r : Str) (hn : valid_digits 10 dn)
    (hnv : digits_value 10 dn < 2 ^ 63) (hr : r ≠ []) (hre : '=' ∉ r) :
    decode_mask (dn ++ '=' :: r) =
      some (riscv_bitrange.mk (digits_value 10 dn) (digits_value 10 dn),
        decode_mask_value r) := by
  have hsp := decode_mask_sides dn r hn.1 hr (not_mem_valid_digits hn '=' (by decide)) hre
  have hdots := split_dots_one dn hn.1 (not_mem_valid_digits hn '.' (by decide))
  unfold decode_mask
  simp only [hsp]
  simp [hdots, to_signed64_strtoul_of_lt 10 dn (by norm_num) hn hnv]

/-- A value written in decimal digits, also with a leading `0`, is read in base 10. -/
theorem decode_mask_value_decimal (dv : Str) (h : valid_digits 10 dv)
    (hv : digits_value 10 dv < 2 ^ 63) : decode_mask_value dv = (digits_value 10 dv : Int) := by
  have hx : 'x' ∉ dv := not_mem_valid_digits h 'x' (by decide)
  have hfind : ¬ find dv ['0', 'x'] = some 0 := by
    rw [find_eq_zero_iff, List.isPrefixOf_iff_prefix]
    intro hp
    exact hx (hp.subset (by simp))
  unfold decode_mask_value
  rw [if_neg hfind, to_signed64_strtoul_of_lt 10 dv (by norm_num) h hv]

/-- A value written as `0x` and hex digits is read in base 16. -/
theorem decode_mask_value_hex (dv : Str) (h : valid_digits 16 dv)
    (hv : digits_value 16 dv < 2 ^ 63) :
    decode_mask_value ('0' :: 'x' :: dv) = (digits_value 16 dv : Int) := by
  have hfind : find ('0' :: 'x' :: dv) ['0', 'x'] = some 0 := by
    rw [find_eq_zero_iff]
    simp [List.isPrefixOf]
  unfold decode_mask_value
  rw [if_pos hfind]
  simp [to_signed64_strtoul_of_lt 16 dv (by norm_num) h hv]

/-- C5 fails as stated: not for all decimal numbers.  The number `2^63`, written
`9223372036854775808`, is read by `strtoul` and stored in the `ssize_t` fields as
`-2^63`, so `decode_mask("9223372036854775808=1")` is `(-2^63, -2^63, 1)`. -/
theorem decode_mask_counterexample :
    valid_digits 10 "9223372036854775808".toList ∧
      digits_value 10 "9223372036854775808".toList = 2 ^ 63 ∧
      decode_mask "9223372036854775808=1".toList =
        some (riscv_bitrange.mk (-(2 : Int) ^ 63) (-(2 : Int) ^ 63), 1) ∧
      decode_mask "9223372036854775808=1".toList ≠
        some (riscv_bitrange.mk (2 ^ 63) (2 ^ 63), 1) := by
  refine ⟨by decide, by decide, by decide, by decide⟩

/-- C5 as amended: for all decimal numbers `n` and `m` below `2^63` and every value `v`
below `2^63` written either as decimal digits or as `0x` followed by hex digits,
`decode_mask("n..m=v")` returns the mask `(msb = n, lsb = m, value = v)` and
`decode_mask("n=v")` returns `(msb = n, lsb = n, value = v)`; a value written with a
leading `0` and no `x` is read as decimal, not octal. -/
theorem decode_mask_well_formed (dn dm dv : Str) (hn : valid_digits 10 dn)
    (hm : valid_digits 10 dm) (hnv : digits_value 10 dn < 2 ^ 63)
    (hmv : digits_value 10 dm < 2 ^ 63) :
    (valid_digits 10 dv → digits_value 10 dv < 2 ^ 63 →
      decode_mask (dn ++ '.' :: '.' :: dm ++ '=' :: dv) =
          some (riscv_bitrange.mk (digits_value 10 dn) (digits_value 10 dm),
            (digits_value 10 dv : Int)) ∧
        decode_mask (dn ++ '=' :: dv) =
          some (riscv_bitrange.mk (digits_value 10 dn) (digits_value 10 dn),
            (digits_value 10 dv : Int))) ∧
    (valid_digits 16 dv → digits_value 16 dv < 2 ^ 63 →
      decode_mask (dn ++ '.' :: '.' :: dm ++ '=' :: '0' :: 'x' :: dv) =
          some (riscv_bitrange.mk (digits_value 10 dn) (digits_value 10 dm),
            (digits_value 16 dv : Int)) ∧
        decode_mask (dn ++ '=' :: '0' :: 'x' :: dv) =
          some (riscv_bitrange.mk (digits_value 10 dn) (digits_value 10 dn),
            (digits_value 16 dv : Int))) := by
  refine ⟨?_, ?_⟩
  · intro hv hvv
    have hre : '=' ∉ dv := not_mem_valid_digits hv '=' (by decide)
    rw [decode_mask_range dn dm dv hn hm hnv hmv hv.1 hre,
      decode_mask_single dn dv hn hnv hv.1 hre, decode_mask_value_decimal dv hv hvv]
    exact ⟨rfl, rfl⟩
  · intro hv hvv
    have hre : '=' ∉ '0' :: 'x' :: dv := by
      intro h
      rw [List.mem_cons, List.mem_cons] at h
      rcases h with h | h | h
      · exact absurd h (by decide)
      · exact absurd h (by decide)
      · exact not_mem_valid_digits hv '=' (by decide) h
    rw [decode_mask_range dn dm _ hn hm hnv hmv (by simp) hre,
      decode_mask_single dn _ hn hnv (by simp) hre, decode_mask_value_hex dv hv hvv]
    exact ⟨rfl, rfl⟩

/-- C5 as amended, at the mask `6..2=0x1b` of scenario S3, which gives (6, 2, 27), and
at `6=017`, whose value is read as decimal 17. -/
theorem decode_mask_well_formed_witness :
    decode_mask "6..2=0x1b".toList = some (riscv_bitrange.mk 6 2, 27) ∧
      decode_mask "6=017".toList = some (riscv_bitrange.mk 6 6, 17) :=
  ⟨((decode_mask_well_formed "6".toList "2".toList "1b".toList (by decide) (by decide)
      (by decide) (by decide)).2 (by decide) (by decide)).1,
    ((decode_mask_well_formed "6".toList "2".toList "017".toList (by decide) (by decide)
      (by decide) (by decide)).1 (by decide) (by decide)).2⟩

theorem parse_line_loop_succ (fuel : Nat) (c : Char) (tl : Str) (st : scan_state)
    (token : Str) (comps : List Str) :
    parse_line_loop (fuel + 1) (scanner.mk (c :: tl) st token comps) =
      parse_line_loop fuel (parse_line_step (scanner.mk (c :: tl) st token comps) c tl) := rfl

@[simp]
theorem isspace_dquote : isspace dquote = false := by decide

@[simp]
theorem isspace_hash : isspace hash = false := by decide

@[simp]
theorem dquote_ne_hash : dquote ≠ hash := by decide

/-- The loop of `parse_line` ends within `2 * size` iterations, and what it returns
after the final push is `scan`. -/
theorem parse_line_loop_scan : ∀ (rest : Str) (fuel : Nat) (st : scan_state) (token : Str)
    (comps : List Str), 2 * rest.length ≤ fuel →
    ∃ s, parse_line_loop fuel (scanner.mk rest st token comps) = some s ∧
      (if s.token.length > 0 then s.comps ++ [s.token] else s.comps) =
        scan st token comps rest := by
  intro rest
  induction rest with
  | nil =>
    intro fuel st token comps _
    refine ⟨scanner.mk [] st token comps, ?_, ?_⟩
    · cases fuel <;> simp [parse_line_loop]
    · cases st <;> simp [scan]
  | cons c tl ih =>
    intro fuel st token comps hf
    rw [List.length_cons] at hf
    obtain ⟨f, rfl⟩ : ∃ f, fuel = f + 2 := ⟨fuel - 2, by omega⟩
    have hf1 : 2 * tl.length ≤ f + 1 := by omega
    have hf0 : 2 * tl.length ≤ f := by omega
    rw [parse_line_loop_succ]
    cases st with
    | whitespace =>
      by_cases h1 : isspace c = true
      · have hstep : parse_line_step (scanner.mk (c :: tl) scan_state.whitespace token comps)
            c tl = scanner.mk tl scan_state.whitespace token comps := by
          simp [parse_line_step, h1]
        rw [hstep]
        obtain ⟨s, hs, hr⟩ := ih (f + 1) scan_state.whitespace token comps hf1
        exact ⟨s, hs, by rw [hr]; simp [scan, h1]⟩
      · by_cases h2 : c = hash
        · have hstep : parse_line_step (scanner.mk (c :: tl) scan_state.whitespace token comps)
              c tl = scanner.mk (c :: tl) scan_state.comment token comps := by
            simp [parse_line_step, h1, h2]
          have hstep2 : parse_line_step (scanner.mk (c :: tl) scan_state.comment token comps)
              c tl = scanner.mk tl scan_state.comment token comps := by
            simp [parse_line_step]
          rw [hstep, parse_line_loop_succ, hstep2]
          obtain ⟨s, hs, hr⟩ := ih f scan_state.comment token comps hf0
          exact ⟨s, hs, by rw [hr]; simp [scan, h1, h2]⟩
        · by_cases h3 : c = dquote
          · have hstep : parse_line_step
                (scanner.mk (c :: tl) scan_state.whitespace token comps) c tl =
                scanner.mk tl scan_state.quoted_token token comps := by
              simp [parse_line_step, h1, h2, h3]
            rw [hstep]
            obtain ⟨s, hs, hr⟩ := ih (f + 1) scan_state.quoted_token token comps hf1
            exact ⟨s, hs, by rw [hr]; simp [scan, h1, h2, h3]⟩
          · have hstep : parse_line_step
                (scanner.mk (c :: tl) scan_state.whitespace token comps) c tl =
                scanner.mk (c :: tl) scan_state.unquoted_token token comps := by
              simp [parse_line_step, h1, h2, h3]
            have hstep2 : parse_line_step
                (scanner.mk (c :: tl) scan_state.unquoted_token token comps) c tl =
                scanner.mk tl scan_state.unquoted_token (token ++ [c]) comps := by
              simp [parse_line_step, h1]
            rw [hstep, parse_line_loop_succ, hstep2]
            obtain ⟨s, hs, hr⟩ := ih f scan_state.unquoted_token (token ++ [c]) comps hf0
            exact ⟨s, hs, by rw [hr]; simp [scan, h1, h2, h3]⟩
    | quoted_token =>
      by_cases h3 : c = dquote
      · have hstep : parse_line_step (scanner.mk (c :: tl) scan_state.quoted_token token comps)
            c tl = scanner.mk tl scan_state.whitespace [] (comps ++ [token]) := by
          simp [parse_line_step, h3]
        rw [hstep]
        obtain ⟨s, hs, hr⟩ := ih (f + 1) scan_state.whitespace [] (comps ++ [token]) hf1
        exact ⟨s, hs, by rw [hr]; simp [scan, h3]⟩
      · have hstep : parse_line_step (scanner.mk (c :: tl) scan_state.quoted_token token comps)
            c tl = scanner.mk tl scan_state.quoted_token (token ++ [c]) comps := by
          simp [parse_line_step, h3]
        rw [hstep]
        obtain ⟨s, hs, hr⟩ := ih (f + 1) scan_state.quoted_token (token ++ [c]) comps hf1
        exact ⟨s, hs, by rw [hr]; simp [scan, h3]⟩
    | unquoted_token =>
      by_cases h1 : isspace c = true
      · have hstep : parse_line_step
            (scanner.mk (c :: tl) scan_state.unquoted_token token comps) c tl =
            scanner.mk tl scan_state.whitespace [] (comps ++ [token]) := by
          simp [parse_line_step, h1]
        rw [hstep]
        obtain ⟨s, hs, hr⟩ := ih (f + 1) scan_state.whitespace [] (comps ++ [token]) hf1
        exact ⟨s, hs, by rw [hr]; simp [scan, h1]⟩
      · have hstep : parse_line_step
            (scanner.mk (c :: tl) scan_state.unquoted_token token comps) c tl =
            scanner.mk tl scan_state.unquoted_token (token ++ [c]) comps := by
          simp [parse_line_step, h1]
        rw [hstep]
        obtain ⟨s, hs, hr⟩ := ih (f + 1) scan_state.unquoted_token (token ++ [c]) comps hf1
        exact ⟨s, hs, by rw [hr]; simp [scan, h1]⟩
    | comment =>
      have hstep : parse_line_step (scanner.mk (c :: tl) scan_state.comment token comps)
          c tl = scanner.mk tl scan_state.comment token comps := by
        simp [parse_line_step]
      rw [hstep]
      obtain ⟨s, hs, hr⟩ := ih (f + 1) scan_state.comment token comps hf1
      exact ⟨s, hs, by rw [hr]; simp [scan]⟩

/-- The method `parse_line` returns on every line (its loop never runs out of fuel),
and it returns `scan` from the initial state. -/
theorem parse_line_total (line : Str) :
    parse_line line = some (scan scan_state.whitespace [] [] line) := by
  obtain ⟨s, hs, hr⟩ := parse_line_loop_scan line (2 * line.length) scan_state.whitespace [] []
    (le_refl _)
  unfold parse_line
  rw [hs]
  simp only
  rw [hr]

theorem scan_quoted_run (w : Str) : ∀ (token : Str) (comps : List Str) (rest : Str),
    dquote ∉ w →
      scan scan_state.quoted_token token comps (w ++ rest) =
        scan scan_state.quoted_token (token ++ w) comps rest := by
  induction w with
  | nil => intro token comps rest _; simp
  | cons c w ih =>
    intro token comps rest h
    rw [List.mem_cons, not_or] at h
    have hc : c ≠ dquote := fun e => h.1 e.symm
    rw [List.cons_append, scan, if_neg hc, ih _ _ _ h.2]
    simp

/-- C7: for every string `w` without a double-quote character, `parse_line` applied to
the line made of a double quote, `w` and a closing double quote returns exactly one
token, equal to `w`: white space and hashes inside the quotes are kept, the quotes are
not part of the token, and an empty `w` gives one empty token. -/
theorem parse_line_quoted (w : Str) (h : dquote ∉ w) :
    parse_line (dquote :: (w ++ [dquote])) = some [w] := by
  rw [parse_line_total]
  have h1 : scan scan_state.whitespace [] [] (dquote :: (w ++ [dquote])) =
      scan scan_state.quoted_token [] [] (w ++ [dquote]) := by
    simp [scan]
  rw [h1, scan_quoted_run w [] [] [dquote] h]
  simp [scan]

/-- C7 at `a b # c` (white space and a hash inside the quotes) and at the empty
string (one empty token). -/
theorem parse_line_quoted_witness :
    parse_line (dquote :: ("a b # c".toList ++ [dquote])) = some ["a b # c".toList] ∧
      parse_line [dquote, dquote] = some [[]] :=
  ⟨parse_line_quoted "a b # c".toList (by decide), parse_line_quoted [] (by decide)⟩

/-- On text without quotes and hashes `scan` cuts at white space as `splitOnP` does:
from the white-space state, and from inside an unquoted token. -/
theorem scan_eq_splitOnP : ∀ (rest : Str), dquote ∉ rest → hash ∉ rest →
    (∀ comps : List Str, scan scan_state.whitespace [] comps rest =
      comps ++ (List.splitOnP.go (fun c => isspace c) rest []).filter (fun t => !t.isEmpty)) ∧
    (∀ (token : Str) (comps : List Str), token ≠ [] →
      scan scan_state.unquoted_token token comps rest =
        comps ++ (List.splitOnP.go (fun c => isspace c) rest token.reverse).filter
          (fun t => !t.isEmpty)) := by
  intro rest
  induction rest with
  | nil =>
    intro _ _
    refine ⟨?_, ?_⟩
    · intro comps
      simp [scan, List.splitOnP.go]
    · intro token comps ht
      have hl : token.length > 0 := List.length_pos.mpr ht
      simp [scan, List.splitOnP.go, hl, ht]
  | cons c tl ih =>
    intro hq hh
    rw [List.mem_cons, not_or] at hq hh
    obtain ⟨ihw, ihu⟩ := ih hq.2 hh.2
    have hcq : c ≠ dquote := fun e => hq.1 e.symm
    have hch : c ≠ hash := fun e => hh.1 e.symm
    refine ⟨?_, ?_⟩
    · intro comps
      by_cases h1 : isspace c = true
      · rw [scan, if_pos h1, ihw]
        simp [List.splitOnP.go, h1]
      · rw [scan, if_neg h1, if_neg hch, if_neg hcq, ihu _ _ (by simp)]
        simp [List.splitOnP.go, h1]
    · intro token comps ht
      by_cases h1 : isspace c = true
      · rw [scan, if_pos h1, ihw]
        simp [List.splitOnP.go, h1, ht]
      · rw [scan, if_neg h1, ihu _ _ (by simp)]
        simp [List.splitOnP.go, h1]

theorem splitOnP_go_no_sep (P : Char → Bool) : ∀ (rest acc : Str),
    (∀ x ∈ acc, P x = false) →
      ∀ piece ∈ List.splitOnP.go P rest acc, ∀ x ∈ piece, P x = false := by
  intro rest
  induction rest with
  | nil =>
    intro acc hacc piece hp x hx
    simp only [List.splitOnP.go, List.mem_singleton] at hp
    rw [hp, List.mem_reverse] at hx
    exact hacc x hx
  | cons c tl ih =>
    intro acc hacc piece hp x hx
    unfold List.splitOnP.go at hp
    by_cases h1 : P c = true
    · rw [if_pos h1, List.mem_cons] at hp
      rcases hp with hp | hp
      · rw [hp, List.mem_reverse] at hx
        exact hacc x hx
      · exact ih [] (fun y hy => absurd hy (List.not_mem_nil y)) piece hp x hx
    · rw [if_neg h1] at hp
      refine ih (c :: acc) ?_ piece hp x hx
      intro y hy
      rw [List.mem_cons] at hy
      rcases hy with hy | hy
      · rw [hy]
        simpa using h1
      · exact hacc y hy

theorem words_of_spaces : ∀ (line : Str),
    (∀ c ∈ line, isspace c = true) → words line = [] := by
  intro line
  unfold words List.splitOnP
  induction line with
  | nil => intro _; simp [List.splitOnP.go]
  | cons c tl ih =>
    intro h
    have hc := h c (List.mem_cons_self _ _)
    have htl := ih (fun x hx => h x (List.mem_cons_of_mem _ hx))
    simp only [List.splitOnP.go, hc, if_true, List.reverse_nil]
    rw [List.filter_cons_of_neg (by simp)]
    exact htl

/-- C8: for every line without a double-quote character and without a hash,
`parse_line` returns exactly the maximal runs of non-white-space characters of the
line, from left to right; every returned token is non-empty and holds no white space,
and a line of white space only gives no token. -/
theorem parse_line_words (line : Str) (hq : dquote ∉ line) (hh : hash ∉ line) :
    parse_line line = some (words line) ∧
      (∀ token ∈ words line, token ≠ [] ∧ ∀ c ∈ token, isspace c = false) ∧
      ((∀ c ∈ line, isspace c = true) → parse_line line = some []) := by
  have hp : parse_line line = some (words line) := by
    rw [parse_line_total, (scan_eq_splitOnP line hq hh).1 []]
    rfl
  refine ⟨hp, ?_, ?_⟩
  · intro token ht
    unfold words at ht
    rw [List.mem_filter] at ht
    refine ⟨?_, ?_⟩
    · intro he
      rw [he] at ht
      simp at ht
    · exact splitOnP_go_no_sep (fun c => isspace c) line []
        (fun y hy => absurd hy (List.not_mem_nil y)) token ht.1
  · intro hsp
    rw [hp, words_of_spaces line hsp]

/-- C8 at a line with three runs between blanks, and at a line of blanks. -/
theorem parse_line_words_witness :
    parse_line "  ab  cd e ".toList = some ["ab".toList, "cd".toList, "e".toList] ∧
      parse_line "   ".toList = some [] :=
  ⟨(parse_line_words "  ab  cd e ".toList (by decide) (by decide)).1.trans (by decide),
    (parse_line_words "   ".toList (by decide) (by decide)).2.2 (by decide)⟩

/-! ## The comment strip of `read_file` against the tokenizer -/

theorem find_single_none (c : Char) : ∀ (s : Str), c ∉ s → find s [c] = none := by
  intro s
  induction s with
  | nil => intro _; simp [find]
  | cons x s ih =>
    intro h
    rw [List.mem_cons, not_or] at h
    have hx : ¬ c = x := h.1
    simp [find, List.isPrefixOf, hx, ih h.2]

theorem scan_comment (rest : Str) : ∀ (token : Str) (comps : List Str),
    scan scan_state.comment token comps rest =
      if token.length > 0 then comps ++ [token] else comps := by
  induction rest with
  | nil => intro token comps; simp [scan]
  | cons c tl ih => intro token comps; rw [scan, ih]

/-- White space at the end of a text without quotes and hashes changes no token. -/
theorem scan_trailing_spaces (sp : Str) (hsp : ∀ c ∈ sp, isspace c = true) :
    ∀ (l : Str), dquote ∉ l → hash ∉ l →
      (∀ comps : List Str, scan scan_state.whitespace [] comps (l ++ sp) =
        scan scan_state.whitespace [] comps l) ∧
      (∀ (token : Str) (comps : List Str), token ≠ [] →
        scan scan_state.unquoted_token token comps (l ++ sp) =
          scan scan_state.unquoted_token token comps l) := by
  have hbase : ∀ (sp : Str), (∀ c ∈ sp, isspace c = true) → ∀ comps : List Str,
      scan scan_state.whitespace [] comps sp = comps := by
    intro sp
    induction sp with
    | nil => intro _ comps; simp [scan]
    | cons c tl ih =>
      intro h comps
      rw [scan, if_pos (h c (List.mem_cons_self _ _)),
        ih (fun x hx => h x (List.mem_cons_of_mem _ hx))]
  intro l
  induction l with
  | nil =>
    intro _ _
    refine ⟨?_, ?_⟩
    · intro comps
      rw [List.nil_append, hbase sp hsp]
      simp [scan]
    · intro token comps ht
      have hl : token.length > 0 := List.length_pos.mpr ht
      cases sp with
      | nil => rfl
      | cons c tl =>
        have hc := hsp c (List.mem_cons_self _ _)
        have hb := hbase tl (fun x hx => hsp x (List.mem_cons_of_mem _ hx)) (comps ++ [token])
        simp [scan, hc, hb, hl]
  | cons c tl ih =>
    intro hq hh
    rw [List.mem_cons, not_or] at hq hh
    obtain ⟨ihw, ihu⟩ := ih hq.2 hh.2
    have hcq : c ≠ dquote := fun e => hq.1 e.symm
    have hch : c ≠ hash := fun e => hh.1 e.symm
    refine ⟨?_, ?_⟩
    · intro comps
      by_cases h1 : isspace c = true
      · rw [List.cons_append, scan, scan, if_pos h1, if_pos h1, ihw]
      · rw [List.cons_append, scan, scan, if_neg h1, if_neg h1, if_neg hch, if_neg hch,
          if_neg hcq, if_neg hcq, ihu _ _ (by simp)]
    · intro token comps _
      by_cases h1 : isspace c = true
      · rw [List.cons_append, scan, scan, if_pos h1, if_pos h1, ihw]
      · rw [List.cons_append, scan, scan, if_neg h1, if_neg h1, ihu _ _ (by simp)]

/-- White space at the start of a text changes no token. -/
theorem scan_ltrim : ∀ (l : Str) (comps : List Str),
    scan scan_state.whitespace [] comps (ltrim l) = scan scan_state.whitespace [] comps l := by
  intro l
  induction l with
  | nil => intro comps; rfl
  | cons c tl ih =>
    intro comps
    by_cases h1 : isspace c = true
    · have hd : ltrim (c :: tl) = ltrim tl := by
        unfold ltrim
        rw [List.dropWhile_cons_of_pos h1]
      rw [hd, ih, scan.eq_2, if_pos h1]
    · have hd : ltrim (c :: tl) = c :: tl := by
        unfold ltrim
        rw [List.dropWhile_cons_of_neg h1]
      rw [hd]

/-- A text is its right trim followed by white space. -/
theorem rtrim_append_spaces (l : Str) :
    ∃ sp : Str, l = rtrim l ++ sp ∧ ∀ c ∈ sp, isspace c = true := by
  refine ⟨(l.reverse.takeWhile isspace).reverse, ?_, ?_⟩
  · unfold rtrim
    rw [← List.reverse_append, List.takeWhile_append_dropWhile, List.reverse_reverse]
  · intro c hc
    rw [List.mem_reverse] at hc
    exact List.mem_takeWhile_imp hc

/-- The per-line processing of `read_file` on a line whose first hash comes after
`pre`: the tokens of `pre`. -/
theorem read_file_line_hash (pre post : Str) (hq : dquote ∉ pre) (hh : hash ∉ pre) :
    read_file_line (pre ++ hash :: post) = some (scan scan_state.whitespace [] [] pre) := by
  obtain ⟨sp, hsp, hall⟩ := rtrim_append_spaces pre
  have hq2 : dquote ∉ rtrim pre := fun h => hq (by rw [hsp]; exact List.mem_append_left _ h)
  have hh2 : hash ∉ rtrim pre := fun h => hh (by rw [hsp]; exact List.mem_append_left _ h)
  have hstrip : strip_comment (pre ++ hash :: post) = ltrim (rtrim pre) := by
    unfold strip_comment
    rw [find_single hash pre post hh]
    simp [substr]
  unfold read_file_line
  rw [hstrip, parse_line_total, scan_ltrim]
  have := (scan_trailing_spaces sp hall (rtrim pre) hq2 hh2).1 []
  rw [← hsp] at this
  rw [this]

/-- After text without quotes and hashes that ends in a white-space character the
scanner is between tokens: it goes on in the white-space state with the tokens read so
far. -/
theorem scan_to_whitespace (c : Char) (hc : isspace c = true) (rest : Str) :
    ∀ (p : Str), dquote ∉ p → hash ∉ p →
      (∀ comps : List Str, scan scan_state.whitespace [] comps (p ++ c :: rest) =
        scan scan_state.whitespace [] (scan scan_state.whitespace [] comps (p ++ [c])) rest) ∧
      (∀ (token : Str) (comps : List Str), token ≠ [] →
        scan scan_state.unquoted_token token comps (p ++ c :: rest) =
          scan scan_state.whitespace []
            (scan scan_state.unquoted_token token comps (p ++ [c])) rest) := by
  intro p
  induction p with
  | nil =>
    intro _ _
    refine ⟨?_, ?_⟩
    · intro comps
      simp [scan, hc]
    · intro token comps _
      simp [scan, hc]
  | cons d tl ih =>
    intro hq hh
    rw [List.mem_cons, not_or] at hq hh
    obtain ⟨ihw, ihu⟩ := ih hq.2 hh.2
    have hdq : d ≠ dquote := fun e => hq.1 e.symm
    have hdh : d ≠ hash := fun e => hh.1 e.symm
    refine ⟨?_, ?_⟩
    · intro comps
      by_cases h1 : isspace d = true
      · simp only [List.cons_append, scan, if_pos h1]
        exact ihw comps
      · simp only [List.cons_append, scan, if_neg h1, if_neg hdh, if_neg hdq]
        exact ihu _ comps (by simp)
    · intro token comps _
      by_cases h1 : isspace d = true
      · simp only [List.cons_append, scan, if_pos h1]
        exact ihw _
      · simp only [List.cons_append, scan, if_neg h1]
        exact ihu _ comps (by simp)

/-- After text without quotes and hashes that ends in a character that is not white
space the scanner is inside an unquoted token. -/
theorem scan_to_unquoted (c : Char) (hc : isspace c = false) (hch : c ≠ hash)
    (hcq : c ≠ dquote) (rest : Str) :
    ∀ (p : Str), dquote ∉ p → hash ∉ p →
      (∀ comps : List Str, ∃ (token2 : Str) (comps2 : List Str),
        scan scan_state.whitespace [] comps (p ++ c :: rest) =
          scan scan_state.unquoted_token token2 comps2 rest) ∧
      (∀ (token : Str) (comps : List Str), ∃ (token2 : Str) (comps2 : List Str),
        scan scan_state.unquoted_token token comps (p ++ c :: rest) =
          scan scan_state.unquoted_token token2 comps2 rest) := by
  have hc2 : ¬ isspace c = true := by simp [hc]
  intro p
  induction p with
  | nil =>
    intro _ _
    refine ⟨?_, ?_⟩
    · intro comps
      exact ⟨[] ++ [c], comps, by simp only [List.nil_append, scan, if_neg hc2, if_neg hch,
        if_neg hcq]⟩
    · intro token comps
      exact ⟨token ++ [c], comps, by simp only [List.nil_append, scan, if_neg hc2]⟩
  | cons d tl ih =>
    intro hq hh
    rw [List.mem_cons, not_or] at hq hh
    obtain ⟨ihw, ihu⟩ := ih hq.2 hh.2
    have hdq : d ≠ dquote := fun e => hq.1 e.symm
    have hdh : d ≠ hash := fun e => hh.1 e.symm
    refine ⟨?_, ?_⟩
    · intro comps
      by_cases h1 : isspace d = true
      · simp only [List.cons_append, scan, if_pos h1]
        exact ihw comps
      · simp only [List.cons_append, scan, if_neg h1, if_neg hdh, if_neg hdq]
        exact ihu _ comps
    · intro token comps
      by_cases h1 : isspace d = true
      · simp only [List.cons_append, scan, if_pos h1]
        exact ihw _
      · simp only [List.cons_append, scan, if_neg h1]
        exact ihu _ comps

/-- A hash that got into a token stays in the result. -/
theorem scan_keeps_hash : ∀ (rest : Str) (st : scan_state) (token : Str) (comps : List Str),
    ((∃ t ∈ comps, hash ∈ t) ∨ (st = scan_state.unquoted_token ∧ hash ∈ token)) →
      ∃ t ∈ scan st token comps rest, hash ∈ t := by
  intro rest
  induction rest with
  | nil =>
    intro st token comps h
    rcases h with ⟨t, ht, hht⟩ | ⟨_, hht⟩
    · refine ⟨t, ?_, hht⟩
      cases st <;> simp only [scan] <;> split <;> simp [ht]
    · have hl : token.length > 0 := List.length_pos.mpr (List.ne_nil_of_mem hht)
      refine ⟨token, ?_, hht⟩
      cases st <;> simp [scan, hl]
  | cons c tl ih =>
    intro st token comps h
    cases st with
    | whitespace =>
      have hleft : ∃ t ∈ comps, hash ∈ t := by
        rcases h with h | ⟨h, _⟩
        · exact h
        · exact absurd h (by decide)
      simp only [scan]
      split
      · exact ih _ _ _ (Or.inl hleft)
      · split
        · exact ih _ _ _ (Or.inl hleft)
        · split
          · exact ih _ _ _ (Or.inl hleft)
          · exact ih _ _ _ (Or.inl hleft)
    | quoted_token =>
      have hleft : ∃ t ∈ comps, hash ∈ t := by
        rcases h with h | ⟨h, _⟩
        · exact h
        · exact absurd h (by decide)
      obtain ⟨t, ht, hht⟩ := hleft
      simp only [scan]
      split
      · exact ih _ _ _ (Or.inl ⟨t, List.mem_append_left _ ht, hht⟩)
      · exact ih _ _ _ (Or.inl ⟨t, ht, hht⟩)
    | unquoted_token =>
      simp only [scan]
      split
      · refine ih _ _ _ (Or.inl ?_)
        rcases h with ⟨t, ht, hht⟩ | ⟨_, hht⟩
        · exact ⟨t, List.mem_append_left _ ht, hht⟩
        · exact ⟨token, by simp, hht⟩
      · refine ih _ _ _ ?_
        rcases h with h | ⟨_, hht⟩
        · exact Or.inl h
        · exact Or.inr ⟨rfl, List.mem_append_left _ hht⟩
    | comment =>
      have hleft : ∃ t ∈ comps, hash ∈ t := by
        rcases h with h | ⟨h, _⟩
        · exact h
        · exact absurd h (by decide)
      simp only [scan]
      exact ih _ _ _ (Or.inl hleft)

/-- Text without a hash gives tokens without a hash. -/
theorem scan_no_hash : ∀ (rest : Str) (st : scan_state) (token : Str) (comps : List Str),
    hash ∉ rest → hash ∉ token → (∀ t ∈ comps, hash ∉ t) →
      ∀ t ∈ scan st token comps rest, hash ∉ t := by
  intro rest
  induction rest with
  | nil =>
    intro st token comps _ htok hcomps t ht
    have hmem : t ∈ comps ++ [token] := by
      cases st <;> simp only [scan] at ht <;> split at ht <;> simp_all
    rw [List.mem_append, List.mem_singleton] at hmem
    rcases hmem with hmem | hmem
    · exact hcomps t hmem
    · rw [hmem]; exact htok
  | cons c tl ih =>
    intro st token comps hrest htok hcomps
    rw [List.mem_cons, not_or] at hrest
    have hc : hash ∉ token ++ [c] := by
      intro h
      rw [List.mem_append, List.mem_singleton] at h
      rcases h with h | h
      · exact htok h
      · exact hrest.1 h
    have hpush : ∀ t ∈ comps ++ [token], hash ∉ t := by
      intro t ht
      rw [List.mem_append, List.mem_singleton] at ht
      rcases ht with ht | ht
      · exact hcomps t ht
      · rw [ht]; exact htok
    cases st with
    | whitespace =>
      simp only [scan]
      split
      · exact ih _ _ _ hrest.2 htok hcomps
      · split
        · exact ih _ _ _ hrest.2 htok hcomps
        · split
          · exact ih _ _ _ hrest.2 htok hcomps
          · exact ih _ _ _ hrest.2 hc hcomps
    | quoted_token =>
      simp only [scan]
      split
      · exact ih _ _ _ hrest.2 (List.not_mem_nil _) hpush
      · exact ih _ _ _ hrest.2 hc hcomps
    | unquoted_token =>
      simp only [scan]
      split
      · exact ih _ _ _ hrest.2 (List.not_mem_nil _) hpush
      · exact ih _ _ _ hrest.2 hc hcomps
    | comment =>
      simp only [scan]
      exact ih _ _ _ hrest.2 htok hcomps

/-- C9 fails as stated: the line `a#b` has no double quote; the tokenizer, which is
inside an unquoted token when it meets the hash, returns the one token `a#b`, while the
comment strip of `read_file` cuts the line at the hash and gives the token `a`. -/
theorem parse_line_strip_counterexample :
    dquote ∉ "a#b".toList ∧ parse_line "a#b".toList = some ["a#b".toList] ∧
      read_file_line "a#b".toList = some ["a".toList] ∧
      parse_line "a#b".toList ≠ read_file_line "a#b".toList := by
  refine ⟨by decide, by decide, by decide, by decide⟩

/-- C9 as amended: for a line without a double quote before its first hash, the
tokenizer alone and the per-line processing of `read_file` (cut at the first hash,
trim, tokenize) return the same tokens when the line has no hash, when the first hash
starts the line, and when the first hash comes right after a white-space character;
when the first hash comes right after any other character the tokenizer keeps the hash
inside a token and the two results differ. -/
theorem parse_line_strip_comment (p post : Str) (c : Char) (hq : dquote ∉ p)
    (hh : hash ∉ p) :
    parse_line p = read_file_line p ∧
    parse_line (hash :: post) = read_file_line (hash :: post) ∧
    (isspace c = true →
      parse_line (p ++ c :: hash :: post) = read_file_line (p ++ c :: hash :: post)) ∧
    (isspace c = false → c ≠ hash → c ≠ dquote →
      parse_line (p ++ c :: hash :: post) ≠ read_file_line (p ++ c :: hash :: post)) := by
  refine ⟨?_, ?_, ?_, ?_⟩
  · unfold read_file_line strip_comment
    rw [find_single_none hash p hh]
  · have h := read_file_line_hash [] post (List.not_mem_nil _) (List.not_mem_nil _)
    rw [List.nil_append] at h
    rw [h, parse_line_total]
    simp [scan, scan_comment]
  · intro hc
    have hq2 : dquote ∉ p ++ [c] := by
      intro h
      rw [List.mem_append, List.mem_singleton] at h
      rcases h with h | h
      · exact hq h
      · rw [← h] at hc
        simp at hc
    have hh2 : hash ∉ p ++ [c] := by
      intro h
      rw [List.mem_append, List.mem_singleton] at h
      rcases h with h | h
      · exact hh h
      · rw [← h] at hc
        simp at hc
    have h := read_file_line_hash (p ++ [c]) post hq2 hh2
    rw [List.append_assoc, List.singleton_append] at h
    rw [h, parse_line_total, (scan_to_whitespace c hc (hash :: post) p hq hh).1 []]
    simp [scan, scan_comment]
  · intro hc hch hcq
    have hq2 : dquote ∉ p ++ [c] := by
      intro h
      rw [List.mem_append, List.mem_singleton] at h
      rcases h with h | h
      · exact hq h
      · exact hcq h.symm
    have hh2 : hash ∉ p ++ [c] := by
      intro h
      rw [List.mem_append, List.mem_singleton] at h
      rcases h with h | h
      · exact hh h
      · exact hch h.symm
    have h := read_file_line_hash (p ++ [c]) post hq2 hh2
    rw [List.append_assoc, List.singleton_append] at h
    rw [h, parse_line_total]
    obtain ⟨token2, comps2, h2⟩ := (scan_to_unquoted c hc hch hcq (hash :: post) p hq hh).1 []
    rw [h2]
    intro heq
    rw [Option.some.injEq] at heq
    have hstep : scan scan_state.unquoted_token token2 comps2 (hash :: post) =
        scan scan_state.unquoted_token (token2 ++ [hash]) comps2 post := by
      simp [scan]
    obtain ⟨t, ht, hht⟩ := scan_keeps_hash post scan_state.unquoted_token (token2 ++ [hash])
      comps2 (Or.inr ⟨rfl, by simp⟩)
    rw [← hstep, heq] at ht
    exact scan_no_hash (p ++ [c]) scan_state.whitespace [] [] hh2 (List.not_mem_nil _)
      (fun t ht => absurd ht (List.not_mem_nil t)) t ht hht

/-- C9 as amended, at the lines `ab cd`, `#x y`, `ab #x y` (same tokens both ways) and
`ab#x y` (different tokens). -/
theorem parse_line_strip_comment_witness :
    parse_line "ab cd".toList = read_file_line "ab cd".toList ∧
      parse_line (hash :: "x y".toList) = read_file_line (hash :: "x y".toList) ∧
      parse_line ("ab".toList ++ ' ' :: hash :: "x y".toList) =
        read_file_line ("ab".toList ++ ' ' :: hash :: "x y".toList) ∧
      parse_line ("a".toList ++ 'b' :: hash :: "x y".toList) ≠
        read_file_line ("a".toList ++ 'b' :: hash :: "x y".toList) :=
  ⟨(parse_line_strip_comment "ab cd".toList [] ' ' (by decide) (by decide)).1,
    (parse_line_strip_comment [] "x y".toList ' ' (by decide) (by decide)).2.1,
    (parse_line_strip_comment "ab".toList "x y".toList ' ' (by decide) (by decide)).2.2.1
      (by decide),
    (parse_line_strip_comment "a".toList "x y".toList 'b' (by decide) (by decide)).2.2.2
      (by decide) (by decide) (by decide)⟩

/-! ## The ISA-spec decoder -/

/-- C10, the code at the failing input: with `rv64i`, `rv64m`, `rv64a`, `rv64f` and
`rv64d` registered, `decode_isa_extensions("rv64g")` returns these five in that order
(scenario S4), and it still does when `rv128i` is registered before them; but when
`rv128i` is registered after them the call fails: `ext_isa_width_str` is overwritten
for every extension and ends as `128`, so `ext_offset` is 5 instead of 4 and the
first probe is `rv64im`. -/
theorem decode_isa_extensions_rv64g :
    (register_extensions rv64_lines riscv_meta_model.empty).bind
        (fun m => decode_isa_extensions m "rv64g".toList) = some [0, 1, 2, 3, 4] ∧
      (register_extensions (rv_line "128" "i" :: rv64_lines) riscv_meta_model.empty).bind
        (fun m => decode_isa_extensions m "rv64g".toList) = some [1, 2, 3, 4, 5] ∧
      (register_extensions (rv64_lines ++ [rv_line "128" "i"]) riscv_meta_model.empty).bind
        (fun m => decode_isa_extensions m "rv64g".toList) = none := by
  refine ⟨by decide, by decide, by decide⟩

theorem tolower_idem (c : Char) : tolower (tolower c) = tolower c := by
  by_cases h : 65 ≤ c.toNat ∧ c.toNat ≤ 90
  · have hc : c = Char.ofNat c.toNat := (Char.ofNat_toNat c).symm
    obtain ⟨h1, h2⟩ := h
    generalize c.toNat = n at hc h1 h2
    subst hc
    interval_cases n <;> decide
  · have h1 : tolower c = c := by
      unfold tolower
      rw [if_neg h]
    rw [h1, h1]

theorem map_tolower_idem (s : Str) : (s.map tolower).map tolower = s.map tolower := by
  rw [List.map_map]
  apply List.map_congr_left
  intro c _
  exact tolower_idem c

theorem decode_isa_lookup_nodup (m : riscv_meta_model) (base : Str) :
    ∀ (rest : Str) (list l : List Nat), list.Nodup →
      decode_isa_lookup m base rest list = some l → l.Nodup := by
  intro rest
  induction rest with
  | nil =>
    intro list l hn h
    simp only [decode_isa_lookup, Option.some.injEq] at h
    rw [← h]
    exact hn
  | cons i rest ih =>
    intro list l hn h
    unfold decode_isa_lookup at h
    cases hf : m.extensions_by_name.find (base ++ [i]) with
    | none => simp [hf] at h
    | some ext =>
      simp only [hf] at h
      by_cases hmem : ext ∈ list
      · simp [hmem] at h
      · rw [if_neg hmem] at h
        refine ih (list ++ [ext]) l ?_ h
        rw [List.nodup_append]
        refine ⟨hn, List.nodup_singleton ext, ?_⟩
        intro a ha hb
        rw [List.mem_singleton] at hb
        rw [hb] at ha
        exact hmem ha

/-- C12: for every extension registry and every ISA string `s`,
`decode_isa_extensions(s)` and `decode_isa_extensions(lowercase(s))` have the same
outcome (both fail, or both return the same extension list), and every list that
`decode_isa_extensions` returns holds no extension twice. -/
theorem decode_isa_extensions_lowercase (m : riscv_meta_model) (isa_spec : Str) :
    decode_isa_extensions m (isa_spec.map tolower) = decode_isa_extensions m isa_spec ∧
      ∀ l, decode_isa_extensions m isa_spec = some l → l.Nodup := by
  refine ⟨?_, ?_⟩
  · unfold decode_isa_extensions
    rw [List.length_map, map_tolower_idem]
  · intro l h
    unfold decode_isa_extensions at h
    simp only at h
    split at h
    · rw [Option.some.injEq] at h
      rw [← h]
      exact List.nodup_nil
    · split at h
      · exact absurd h (by simp)
      · split at h
        · exact absurd h (by simp)
        · exact decode_isa_lookup_nodup m _ _ [] l List.nodup_nil h

/-- C12 at the registry of scenario S4: `RV64G` and its lower-case form give the same
five extensions, and the list holds none twice. -/
theorem decode_isa_extensions_lowercase_witness :
    decode_isa_extensions
        ((register_extensions rv64_lines riscv_meta_model.empty).getD riscv_meta_model.empty)
        ("RV64G".toList.map tolower) =
      decode_isa_extensions
        ((register_extensions rv64_lines riscv_meta_model.empty).getD riscv_meta_model.empty)
        "RV64G".toList ∧
      decode_isa_extensions
        ((register_extensions rv64_lines riscv_meta_model.empty).getD riscv_meta_model.empty)
        "RV64G".toList = some [0, 1, 2, 3, 4] ∧
      [0, 1, 2, 3, 4].Nodup :=
  ⟨(decode_isa_extensions_lowercase _ "RV64G".toList).1, by decide,
    (decode_isa_extensions_lowercase
      ((register_extensions rv64_lines riscv_meta_model.empty).getD riscv_meta_model.empty)
      "RV64G".toList).2 [0, 1, 2, 3, 4] (by decide)⟩

theorem find_some_isPrefixOf : ∀ (s pat : Str) (n : Nat),
    find s pat = some n → pat.isPrefixOf (s.drop n) = true := by
  intro s
  induction s with
  | nil =>
    intro pat n h
    unfold find at h
    split at h
    · rename_i hp
      rw [Option.some.injEq] at h
      rw [← h]
      cases pat with
      | nil => rfl
      | cons a b => simp at hp
    · exact absurd h (by simp)
  | cons c tl ih =>
    intro pat n h
    unfold find at h
    by_cases hp : pat.isPrefixOf (c :: tl) = true
    · rw [if_pos hp, Option.some.injEq] at h
      rw [← h]
      exact hp
    · rw [if_neg hp] at h
      cases hf : find tl pat with
      | none => simp [hf] at h
      | some k =>
        simp only [hf, Option.map_some', Option.some.injEq] at h
        rw [← h, List.drop_succ_cons]
        exact ih pat k hf

/-- While no registered extension has a prefix that starts the ISA string, the first
loop of `decode_isa_extensions` leaves its locals as they are. -/
theorem isa_scan_no_prefix (isa_spec : Str) : ∀ (exts : List riscv_extension),
    (∀ e ∈ exts, ¬ e.prefix_ <+: isa_spec) →
      ∀ st : isa_scan, st.ext_prefix_ = [] →
        (exts.foldl (isa_scan_step isa_spec) st).ext_prefix_ = [] := by
  intro exts
  induction exts with
  | nil => intro _ st hst; exact hst
  | cons e tl ih =>
    intro h st hst
    rw [List.foldl_cons]
    apply ih (fun x hx => h x (List.mem_cons_of_mem _ hx))
    have he := h e (List.mem_cons_self _ _)
    have hfind : ¬ find isa_spec e.prefix_ = some 0 := by
      rw [find_eq_zero_iff, List.isPrefixOf_iff_prefix]
      exact he
    unfold isa_scan_step
    simp only [if_neg hfind, hst, List.length_nil, gt_iff_lt, lt_self_iff_false, if_false]

/-- While no registered width stands right after a registered prefix that starts the
ISA string, the first loop of `decode_isa_extensions` leaves `ext_isa_width` at 0. -/
theorem isa_scan_no_width (isa_spec : Str) (all : List riscv_extension)
    (hw : ∀ e ∈ all, ∀ e2 ∈ all, e2.prefix_ <+: isa_spec →
      ¬ print_signed e.isa_width <+: isa_spec.drop e2.prefix_.length) :
    ∀ (exts : List riscv_extension), (∀ e ∈ exts, e ∈ all) →
      ∀ st : isa_scan, st.ext_isa_width = 0 →
        (st.ext_prefix_ = [] ∨ ∃ e2 ∈ all, e2.prefix_ = st.ext_prefix_ ∧
          e2.prefix_ <+: isa_spec) →
        (exts.foldl (isa_scan_step isa_spec) st).ext_isa_width = 0 := by
  intro exts
  induction exts with
  | nil => intro _ st hst _; exact hst
  | cons e tl ih =>
    intro hsub st hst hp
    rw [List.foldl_cons]
    have he : e ∈ all := hsub e (List.mem_cons_self _ _)
    have hp2 : (if find isa_spec e.prefix_ = some 0 then e.prefix_ else st.ext_prefix_) = [] ∨
        ∃ e2 ∈ all, e2.prefix_ =
          (if find isa_spec e.prefix_ = some 0 then e.prefix_ else st.ext_prefix_) ∧
          e2.prefix_ <+: isa_spec := by
      by_cases hf : find isa_spec e.prefix_ = some 0
      · rw [if_pos hf]
        refine Or.inr ⟨e, he, rfl, ?_⟩
        rw [find_eq_zero_iff, List.isPrefixOf_iff_prefix] at hf
        exact hf
      · rw [if_neg hf]
        exact hp
    have hstep : isa_scan_step isa_spec st e =
        if (if find isa_spec e.prefix_ = some 0 then e.prefix_
            else st.ext_prefix_).length > 0 then
          isa_scan.mk
            (if find isa_spec (print_signed e.isa_width) =
                some (if find isa_spec e.prefix_ = some 0 then e.prefix_
                  else st.ext_prefix_).length then e.isa_width
              else st.ext_isa_width)
            (if find isa_spec e.prefix_ = some 0 then e.prefix_ else st.ext_prefix_)
            (print_signed e.isa_width)
        else isa_scan.mk st.ext_isa_width
          (if find isa_spec e.prefix_ = some 0 then e.prefix_ else st.ext_prefix_)
          st.ext_isa_width_str := rfl
    rw [hstep]
    generalize (if find isa_spec e.prefix_ = some 0 then e.prefix_ else st.ext_prefix_) = p
      at hp2
    apply ih (fun x hx => hsub x (List.mem_cons_of_mem _ hx))
    · by_cases hlen : p.length > 0
      · rw [if_pos hlen]
        rcases hp2 with hp2 | ⟨e2, he2, heq, hpre⟩
        · rw [hp2] at hlen
          simp at hlen
        · have hno : ¬ find isa_spec (print_signed e.isa_width) = some p.length := by
            intro hfw
            have := find_some_isPrefixOf _ _ _ hfw
            rw [List.isPrefixOf_iff_prefix, ← heq] at this
            exact hw e he e2 he2 hpre this
          simp only [if_neg hno]
          exact hst
      · rw [if_neg hlen]
        exact hst
    · by_cases hlen : p.length > 0
      · rw [if_pos hlen]
        exact hp2
      · rw [if_neg hlen]
        exact hp2

theorem isa_scan_step_prefix_ (isa_spec : Str) (st : isa_scan) (e : riscv_extension) :
    (isa_scan_step isa_spec st e).ext_prefix_ =
      (if e.prefix_.isPrefixOf isa_spec then e.prefix_ else st.ext_prefix_) := by
  have hc : (find isa_spec e.prefix_ = some 0) ↔ (e.prefix_.isPrefixOf isa_spec = true) :=
    find_eq_zero_iff _ _
  unfold isa_scan_step
  simp only [hc]
  generalize (if e.prefix_.isPrefixOf isa_spec = true then e.prefix_ else st.ext_prefix_) = p
  by_cases hlen : p.length > 0
  · rw [if_pos hlen]
  · rw [if_neg hlen]

theorem isa_scan_step_width (isa_spec : Str) (st : isa_scan) (e : riscv_extension)
    (h : (isa_scan_step isa_spec st e).ext_prefix_ ≠ [] →
      ¬ print_signed e.isa_width <+:
        isa_spec.drop (isa_scan_step isa_spec st e).ext_prefix_.length) :
    (isa_scan_step isa_spec st e).ext_isa_width = st.ext_isa_width := by
  have hp := isa_scan_step_prefix_ isa_spec st e
  have hc : (find isa_spec e.prefix_ = some 0) ↔ (e.prefix_.isPrefixOf isa_spec = true) :=
    find_eq_zero_iff _ _
  rw [hp] at h
  unfold isa_scan_step
  simp only [hc]
  generalize (if e.prefix_.isPrefixOf isa_spec = true then e.prefix_ else st.ext_prefix_) = p
    at h
  by_cases hlen : p.length > 0
  · rw [if_pos hlen]
    have hne : p ≠ [] := by
      intro hnil
      rw [hnil] at hlen
      exact absurd hlen (by simp)
    have hno : ¬ find isa_spec (print_signed e.isa_width) = some p.length := by
      intro hfw
      have := find_some_isPrefixOf _ _ _ hfw
      rw [List.isPrefixOf_iff_prefix] at this
      exact h hne this
    simp only [if_neg hno]
  · rw [if_neg hlen]

/-- The prefix held by the first loop of `decode_isa_extensions` after any number of
extensions, and the width it holds when no visited extension has its width right
after the prefix held at that moment. -/
theorem isa_scan_spec (isa_spec : Str) : ∀ (rest done : List riscv_extension) (st : isa_scan),
    st.ext_prefix_ = prefix_matched isa_spec done →
    (rest.foldl (isa_scan_step isa_spec) st).ext_prefix_ =
        prefix_matched isa_spec (done ++ rest) ∧
      ((∀ (i : Nat) (e : riscv_extension), rest[i]? = some e →
          prefix_matched isa_spec (done ++ rest.take (i + 1)) ≠ [] →
          ¬ print_signed e.isa_width <+:
            isa_spec.drop (prefix_matched isa_spec (done ++ rest.take (i + 1))).length) →
        (rest.foldl (isa_scan_step isa_spec) st).ext_isa_width = st.ext_isa_width) := by
  intro rest
  induction rest with
  | nil =>
    intro done st hst
    rw [List.append_nil]
    exact ⟨hst, fun _ => rfl⟩
  | cons e tl ih =>
    intro done st hst
    have hp : (isa_scan_step isa_spec st e).ext_prefix_ =
        prefix_matched isa_spec (done ++ [e]) := by
      rw [isa_scan_step_prefix_, hst]
      unfold prefix_matched
      rw [List.foldl_append]
      rfl
    obtain ⟨ih1, ih2⟩ := ih (done ++ [e]) (isa_scan_step isa_spec st e) hp
    have happ : ∀ l : List riscv_extension, done ++ [e] ++ l = done ++ e :: l := by
      intro l
      rw [List.append_assoc]
      rfl
    rw [List.foldl_cons]
    refine ⟨?_, ?_⟩
    · rw [ih1, happ]
    · intro h
      have h0 := h 0 e List.getElem?_cons_zero
      rw [List.take_succ_cons, List.take_zero, ← hp] at h0
      rw [ih2, isa_scan_step_width isa_spec st e h0]
      intro i e2 hi
      have := h (i + 1) e2 (by rw [List.getElem?_cons_succ]; exact hi)
      rw [List.take_succ_cons, ← happ] at this
      exact this

/-- C11 fails as stated: for the empty ISA string no registered prefix (`rv` in the
registry of scenario S4) is a prefix of it, yet `decode_isa_extensions` returns the
empty list instead of failing (the guard of lines 378-380); and with the extensions
`x12a` (prefix `x`) and `x17b` (prefix `x1`) registered, the prefix matched for `x12a`
is `x1`, no registered width (12 or 7) stands right after it, yet the call returns the
extension `x12a`: the width 12 was found after the prefix `x`, held when the first
extension was visited. -/
theorem decode_isa_extensions_search_counterexample :
    ((∀ e ∈ ((register_extensions rv64_lines riscv_meta_model.empty).getD
        riscv_meta_model.empty).extensions, ¬ e.prefix_ <+: ([] : Str).map tolower) ∧
      decode_isa_extensions
        ((register_extensions rv64_lines riscv_meta_model.empty).getD riscv_meta_model.empty)
        [] = some [] ∧
      ((register_extensions rv64_lines riscv_meta_model.empty).getD
        riscv_meta_model.empty).extensions.length = 5) ∧
    (x_registry.extensions.map (fun e => (String.mk e.name, String.mk e.prefix_, e.isa_width)) =
        [("x12a", "x", 12), ("x17b", "x1", 7)] ∧
      prefix_matched ("x12a".toList.map tolower) x_registry.extensions = "x1".toList ∧
      (∀ e ∈ x_registry.extensions,
        ¬ print_signed e.isa_width <+: ("x12a".toList.map tolower).drop "x1".toList.length) ∧
      decode_isa_extensions x_registry "x12a".toList = some [0]) := by
  refine ⟨⟨by decide, by decide, by decide⟩, by decide, by decide, by decide, by decide⟩

/-- C11 as amended: for every non-empty ISA string, `decode_isa_extensions` fails
(fatal error) whenever no registered extension has a prefix that is a prefix of the
lower-cased ISA string, and whenever no registered extension has its width standing
immediately after the prefix matched when the loop visits it (the prefix of the last
extension registered up to and including it whose prefix starts the lower-cased ISA
string); so it fails in particular when no registered width stands immediately after
any registered prefix that starts the string.  The empty ISA string gives the empty
list. -/
theorem decode_isa_extensions_search_fails (m : riscv_meta_model) (isa_spec : Str)
    (hne : isa_spec ≠ []) :
    ((∀ e ∈ m.extensions, ¬ e.prefix_ <+: isa_spec.map tolower) →
      decode_isa_extensions m isa_spec = none) ∧
    ((∀ (i : Nat) (e : riscv_extension), m.extensions[i]? = some e →
        prefix_matched (isa_spec.map tolower) (m.extensions.take (i + 1)) ≠ [] →
        ¬ print_signed e.isa_width <+: (isa_spec.map tolower).drop
          (prefix_matched (isa_spec.map tolower) (m.extensions.take (i + 1))).length) →
      decode_isa_extensions m isa_spec = none) ∧
    ((∀ e ∈ m.extensions, ∀ e2 ∈ m.extensions, e2.prefix_ <+: isa_spec.map tolower →
        ¬ print_signed e.isa_width <+: (isa_spec.map tolower).drop e2.prefix_.length) →
      decode_isa_extensions m isa_spec = none) ∧
    decode_isa_extensions m [] = some [] := by
  have hlen : ¬ isa_spec.length = 0 := by
    intro h
    exact hne (List.length_eq_zero.mp h)
  refine ⟨?_, ?_, ?_, rfl⟩
  · intro h
    have hp := isa_scan_no_prefix (isa_spec.map tolower) m.extensions h
      (isa_scan.mk 0 [] []) rfl
    unfold decode_isa_extensions
    rw [if_neg hlen]
    simp only [hp, List.length_nil, true_or, if_true]
  · intro h
    have hw := (isa_scan_spec (isa_spec.map tolower) m.extensions [] (isa_scan.mk 0 [] [])
      rfl).2 (by simpa using h)
    unfold decode_isa_extensions
    rw [if_neg hlen]
    simp only [hw, or_true, if_true]
  · intro h
    have hw := isa_scan_no_width (isa_spec.map tolower) m.extensions h m.extensions
      (fun e he => he) (isa_scan.mk 0 [] []) rfl (Or.inl rfl)
    unfold decode_isa_extensions
    rw [if_neg hlen]
    simp only [hw, or_true, if_true]

/-- C11 as amended, at the registry of scenario S4, where `xy64i` (no registered
prefix starts it) and `rv32i` (no registered width follows `rv`) both fail, and at the
registry with the prefixes `x` and `x1`, where `x13a` fails: 12 does not stand after
`x`, the prefix matched at the first extension, and 7 does not stand after `x1`, the
prefix matched at the second. -/
theorem decode_isa_extensions_search_fails_witness :
    decode_isa_extensions
        ((register_extensions rv64_lines riscv_meta_model.empty).getD riscv_meta_model.empty)
        "xy64i".toList = none ∧
      decode_isa_extensions
        ((register_extensions rv64_lines riscv_meta_model.empty).getD riscv_meta_model.empty)
        "rv32i".toList = none ∧
      decode_isa_extensions x_registry "x13a".toList = none :=
  ⟨(decode_isa_extensions_search_fails _ "xy64i".toList (by decide)).1 (by decide),
    (decode_isa_extensions_search_fails _ "rv32i".toList (by decide)).2.2.1 (by decide),
    (decode_isa_extensions_search_fails x_registry "x13a".toList (by decide)).2.1 (by
      intro i e h
      match i, h with
      | 0, h =>
        have he : e = riscv_extension.of_tokens "x".toList "12".toList "a".toList
            "32".toList "extension".toList := (Option.some.inj h).symm
        subst he
        decide
      | 1, h =>
        have he : e = riscv_extension.of_tokens "x1".toList "7".toList "b".toList
            "32".toList "extension".toList := (Option.some.inj h).symm
        subst he
        decide
      | n + 2, h =>
        have hx : x_registry.extensions.length = 2 := by decide
        rw [List.getElem?_eq_none (by rw [hx]; omega)] at h
        exact absurd h (by simp))⟩

/-! ## The opcode linker: what one token does -/

theorem update_opcode_eq (m m2 : riscv_meta_model) (i : Nat) (f : riscv_opcode → riscv_opcode)
    (h : update_opcode m i f = some m2) :
    ∃ op, m.opcodes[i]? = some op ∧ m2 = { m with opcodes := m.opcodes.set i (f op) } := by
  unfold update_opcode at h
  cases hop : m.opcodes[i]? with
  | none => simp [hop] at h
  | some op =>
    simp only [hop, Option.some.injEq] at h
    exact ⟨op, rfl, h.symm⟩

theorem update_extension_eq (m m2 : riscv_meta_model) (e : Nat)
    (f : riscv_extension → riscv_extension) (h : update_extension m e f = some m2) :
    ∃ ext, m.extensions[e]? = some ext ∧
      m2 = { m with extensions := m.extensions.set e (f ext) } := by
  unfold update_extension at h
  cases hext : m.extensions[e]? with
  | none => simp [hext] at h
  | some ext =>
    simp only [hext, Option.some.injEq] at h
    exact ⟨ext, rfl, h.symm⟩

/-- The four things one token of an opcode line can do to the model: nothing; add an
argument or a mask to the opcode; set codec, format and type of the opcode; add an
extension to the opcode, and the opcode to the list of the extension when it is the
first. -/
theorem parse_opcode_token_cases (i : Nat) (m m2 : riscv_meta_model) (token : Str)
    (h : parse_opcode_token i m token = some m2) :
    (attaches_codec m (token.map tolower) = false ∧
      attaches_extension m (token.map tolower) = false ∧
      (m2 = m ∨ ∃ op args masks, m.opcodes[i]? = some op ∧
        m2 = { m with opcodes := m.opcodes.set i { op with args := args, masks := masks } })) ∨
    (attaches_codec m (token.map tolower) = true ∧
      attaches_extension m (token.map tolower) = false ∧
      ∃ op c codec format type, m.opcodes[i]? = some op ∧
        m.codecs_by_name.find (token.map tolower) = some c ∧ m.codecs[c]? = some codec ∧
        m.formats_by_name.find codec.format = some format ∧
        m.types_by_name.find (codec_type_name codec) = some type ∧
        m2 = { m with
          opcodes := m.opcodes.set i
            { op with codec := some c, format := some format, type := some type } }) ∨
    (attaches_codec m (token.map tolower) = false ∧
      attaches_extension m (token.map tolower) = true ∧
      ∃ op e, m.opcodes[i]? = some op ∧
        m.extensions_by_name.find (token.map tolower) = some e ∧
        ((op.extensions = [] ∧ ∃ ext, m.extensions[e]? = some ext ∧
          m2 = { m with
            opcodes := m.opcodes.set i { op with extensions := op.extensions ++ [e] }
            extensions := m.extensions.set e { ext with opcodes := ext.opcodes ++ [i] } }) ∨
        (op.extensions ≠ [] ∧
          m2 = { m with
            opcodes := m.opcodes.set i { op with extensions := op.extensions ++ [e] } }))) := by
  unfold parse_opcode_token at h
  simp only at h
  by_cases h1 : is_arg m (token.map tolower) = true
  · rw [if_pos h1] at h
    refine Or.inl ⟨by simp [attaches_codec, h1], by simp [attaches_extension, h1], Or.inr ?_⟩
    cases ha : m.args_by_name.find (token.map tolower) with
    | none => simp [ha] at h
    | some arg =>
      simp only [ha] at h
      obtain ⟨op, hop, hm2⟩ := update_opcode_eq _ _ _ _ h
      exact ⟨op, op.args ++ [arg], op.masks, hop, hm2⟩
  · rw [if_neg h1] at h
    by_cases h2 : is_ignore (token.map tolower) = true
    · rw [if_pos h2, Option.some.injEq] at h
      exact Or.inl ⟨by simp [attaches_codec, h2], by simp [attaches_extension, h2],
        Or.inl h.symm⟩
    · rw [if_neg h2] at h
      by_cases h3 : is_mask (token.map tolower) = true
      · rw [if_pos h3] at h
        refine Or.inl ⟨by simp [attaches_codec, h3], by simp [attaches_extension, h3],
          Or.inr ?_⟩
        cases hd : decode_mask (token.map tolower) with
        | none => simp [hd] at h
        | some mask =>
          simp only [hd] at h
          obtain ⟨op, hop, hm2⟩ := update_opcode_eq _ _ _ _ h
          exact ⟨op, op.args, op.masks ++ [mask], hop, hm2⟩
      · rw [if_neg h3] at h
        by_cases h4 : is_codec m (token.map tolower) = true
        · rw [if_pos h4] at h
          refine Or.inr (Or.inl ⟨by simp [attaches_codec, h1, h2, h3, h4],
            by simp [attaches_extension, h4], ?_⟩)
          cases hc : m.codecs_by_name.find (token.map tolower) with
          | none => simp [hc] at h
          | some c =>
            simp only [hc] at h
            cases hcodec : m.codecs[c]? with
            | none => simp [hcodec] at h
            | some codec =>
              simp only [hcodec] at h
              cases hf : m.formats_by_name.find codec.format with
              | none => simp [hf] at h
              | some format =>
                simp only [hf] at h
                cases ht : m.types_by_name.find (codec_type_name codec) with
                | none => simp [ht] at h
                | some type =>
                  simp only [ht] at h
                  obtain ⟨op, hop, hm2⟩ := update_opcode_eq _ _ _ _ h
                  exact ⟨op, c, codec, format, type, hop, rfl, hcodec, hf, ht, hm2⟩
        · rw [if_neg h4] at h
          by_cases h5 : is_extension m (token.map tolower) = true
          · rw [if_pos h5] at h
            refine Or.inr (Or.inr ⟨by simp [attaches_codec, h4],
              by simp [attaches_extension, h1, h2, h3, h4, h5], ?_⟩)
            cases he : m.extensions_by_name.find (token.map tolower) with
            | none => simp [he] at h
            | some e =>
              simp only [he] at h
              cases hop : m.opcodes[i]? with
              | none => simp [hop] at h
              | some op =>
                simp only [hop] at h
                cases hu : update_opcode m i
                    (fun o => { o with extensions := o.extensions ++ [e] }) with
                | none => simp [hu] at h
                | some m1 =>
                  simp only [hu] at h
                  obtain ⟨op1, hop1, hm1⟩ := update_opcode_eq _ _ _ _ hu
                  rw [hop, Option.some.injEq] at hop1
                  subst hop1
                  refine ⟨op, e, rfl, rfl, ?_⟩
                  by_cases hl : (op.extensions ++ [e]).length = 1
                  · rw [if_pos hl] at h
                    obtain ⟨ext, hext, hm2⟩ := update_extension_eq _ _ _ _ h
                    have hnil : op.extensions = [] := by
                      rw [List.length_append, List.length_singleton] at hl
                      exact List.length_eq_zero.mp (by omega)
                    refine Or.inl ⟨hnil, ext, ?_, ?_⟩
                    · rw [hm1] at hext
                      exact hext
                    · rw [hm2, hm1]
                  · rw [if_neg hl, Option.some.injEq] at h
                    have hne : op.extensions ≠ [] := by
                      intro hnil
                      rw [hnil] at hl
                      simp at hl
                    exact Or.inr ⟨hne, by rw [← h, hm1]⟩
          · rw [if_neg h5, Option.some.injEq] at h
            exact Or.inl ⟨by simp [attaches_codec, h4], by simp [attaches_extension, h5],
              Or.inl h.symm⟩

theorem list_set_self {α : Type} (l : List α) (i : Nat) (a : α) (h : l[i]? = some a) :
    l.set i a = l := by
  induction l generalizing i with
  | nil => rfl
  | cons x l ih =>
    cases i with
    | zero =>
      simp only [List.getElem?_cons_zero, Option.some.injEq] at h
      rw [List.set_cons_zero, h]
    | succ i =>
      simp only [List.getElem?_cons_succ] at h
      rw [List.set_cons_succ, ih i h]

theorem attached_extensions_cons (m : riscv_meta_model) (t : Str) (rest : List Str) :
    attached_extensions m (t :: rest) =
      (if attaches_extension m (t.map tolower) then
        match m.extensions_by_name.find (t.map tolower) with
        | some e => e :: attached_extensions m rest
        | none => attached_extensions m rest
      else attached_extensions m rest) := by
  unfold attached_extensions
  rw [List.map_cons, List.filterMap_cons]
  by_cases h : attaches_extension m (t.map tolower) = true
  · simp only [h, if_true]
    cases m.extensions_by_name.find (t.map tolower) <;> rfl
  · simp only [h, if_false, Bool.false_eq_true]

/-- What the second loop of `parse_opcode` does to the model: it replaces the record
of the opcode, keeping its identity, adds the attached extensions, links a codec when
it sets one, and puts the opcode in the list of the first extension it attaches. -/
theorem parse_opcode_tokens_spec (i : Nat) : ∀ (tokens : List Str) (m m2 : riscv_meta_model)
    (op : riscv_opcode), parse_opcode_tokens i tokens m = some m2 →
    m.opcodes[i]? = some op →
    ∃ op2, m2 = { m with
        opcodes := m.opcodes.set i op2
        extensions := first_attach m.extensions i op.extensions (attached_extensions m tokens) } ∧
      same_identity op op2 ∧
      op2.extensions = op.extensions ++ attached_extensions m tokens ∧
      (linked_codec m op2 ∨
        (op2.codec = op.codec ∧ op2.format = op.format ∧ op2.type = op.type)) ∧
      ((∀ t ∈ tokens, attaches_codec m (t.map tolower) = false) → op2.codec = op.codec) ∧
      (op.extensions = [] → ∀ e, (attached_extensions m tokens).head? = some e →
        ∃ ext, m.extensions[e]? = some ext) := by
  intro tokens
  induction tokens with
  | nil =>
    intro m m2 op h hop
    simp only [parse_opcode_tokens, Option.some.injEq] at h
    refine ⟨op, ?_, ⟨rfl, rfl, rfl, rfl, rfl, rfl, rfl, rfl⟩, ?_, Or.inr ⟨rfl, rfl, rfl⟩,
      fun _ => rfl, ?_⟩
    · rw [← h, list_set_self _ _ _ hop]
      simp [attached_extensions, first_attach]
    · simp [attached_extensions]
    · intro _ e he
      simp [attached_extensions] at he
  | cons t rest ih =>
    intro m m2 op h hop
    unfold parse_opcode_tokens at h
    cases h1 : parse_opcode_token i m t with
    | none => simp [h1] at h
    | some m1 =>
      simp only [h1] at h
      rcases parse_opcode_token_cases i m m1 t h1 with
        ⟨hc, he, hm1⟩ | ⟨hc, he, op0, c, codec, format, type, hop0, hfc, hcodec, hff, hft, hm1⟩ |
        ⟨hc, he, op0, e, hop0, hfe, hm1⟩
      · -- nothing, or an argument or a mask
        have hm1b : ∃ op1, m1 = { m with opcodes := m.opcodes.set i op1 } ∧
            same_identity op op1 ∧ op1.extensions = op.extensions ∧ op1.codec = op.codec ∧
            op1.format = op.format ∧ op1.type = op.type := by
          rcases hm1 with hm1 | ⟨op0, args, masks, hop0, hm1⟩
          · refine ⟨op, ?_, ⟨rfl, rfl, rfl, rfl, rfl, rfl, rfl, rfl⟩, rfl, rfl, rfl, rfl⟩
            rw [list_set_self _ _ _ hop, hm1]
          · rw [hop, Option.some.injEq] at hop0
            subst hop0
            exact ⟨_, hm1, ⟨rfl, rfl, rfl, rfl, rfl, rfl, rfl, rfl⟩, rfl, rfl, rfl, rfl⟩
        obtain ⟨op1, hm1e, hid1, hext1, hcod1, hfmt1, htyp1⟩ := hm1b
        have hlen : i < m.opcodes.length := by
          rcases Nat.lt_or_ge i m.opcodes.length with hl | hl
          · exact hl
          · rw [List.getElem?_eq_none hl] at hop
            exact absurd hop (by simp)
        have hop1 : m1.opcodes[i]? = some op1 := by
          rw [hm1e]
          simp [List.getElem?_set, hlen]
        obtain ⟨op2, hm2, hid2, hext2, hcod2, hnone2, hvalid2⟩ := ih m1 m2 op1 h hop1
        have hatt : attached_extensions m1 rest = attached_extensions m rest := by
          rw [hm1e]; rfl
        have hattc : attached_extensions m (t :: rest) = attached_extensions m rest := by
          rw [attached_extensions_cons, he]
          simp
        refine ⟨op2, ?_, ?_, ?_, ?_, ?_, ?_⟩
        · rw [hm2, hatt, hattc, hext1, hm1e]
          simp [List.set_set]
        · obtain ⟨a1, a2, a3, a4, a5, a6, a7, a8⟩ := hid1
          obtain ⟨b1, b2, b3, b4, b5, b6, b7, b8⟩ := hid2
          exact ⟨b1.trans a1, b2.trans a2, b3.trans a3, b4.trans a4, b5.trans a5,
            b6.trans a6, b7.trans a7, b8.trans a8⟩
        · rw [hext2, hatt, hattc, hext1]
        · rcases hcod2 with hl | ⟨x1, x2, x3⟩
          · left
            rw [hm1e] at hl
            exact hl
          · right
            exact ⟨x1.trans hcod1, x2.trans hfmt1, x3.trans htyp1⟩
        · intro hall
          have := hnone2 (by
            intro t2 ht2
            have := hall t2 (List.mem_cons_of_mem _ ht2)
            rw [hm1e]
            exact this)
          exact this.trans hcod1
        · intro hnil e2 he2
          rw [hattc] at he2
          have := hvalid2 (by rw [hext1]; exact hnil) e2 (by rw [hatt]; exact he2)
          rw [hm1e] at this
          exact this
      · -- a codec
        rw [hop, Option.some.injEq] at hop0
        subst hop0
        have hlen : i < m.opcodes.length := by
          rcases Nat.lt_or_ge i m.opcodes.length with hl | hl
          · exact hl
          · rw [List.getElem?_eq_none hl] at hop
            exact absurd hop (by simp)
        have hop1 : m1.opcodes[i]? =
            some { op with codec := some c, format := some format, type := some type } := by
          rw [hm1]
          simp [List.getElem?_set, hlen]
        obtain ⟨op2, hm2, hid2, hext2, hcod2, _, hvalid2⟩ := ih m1 m2 _ h hop1
        have hatt : attached_extensions m1 rest = attached_extensions m rest := by
          rw [hm1]; rfl
        have hattc : attached_extensions m (t :: rest) = attached_extensions m rest := by
          rw [attached_extensions_cons, he]
          simp
        refine ⟨op2, ?_, hid2, ?_, Or.inl ?_, ?_, ?_⟩
        · rw [hm2, hatt, hattc, hm1]
          simp [List.set_set]
        · rw [hext2, hatt, hattc]
        · rcases hcod2 with hl | ⟨x1, x2, x3⟩
          · rw [hm1] at hl
            exact hl
          · exact ⟨c, codec, x1, hcodec, ⟨_, hfc⟩, ⟨format, x2, hff⟩, ⟨type, x3, hft⟩⟩
        · intro hall
          have := hall t (List.mem_cons_self _ _)
          rw [hc] at this
          exact absurd this (by decide)
        · intro hnil e2 he2
          rw [hattc] at he2
          have := hvalid2 hnil e2 (by rw [hatt]; exact he2)
          rw [hm1] at this
          exact this
      · -- an extension
        rw [hop, Option.some.injEq] at hop0
        subst hop0
        have hlen : i < m.opcodes.length := by
          rcases Nat.lt_or_ge i m.opcodes.length with hl | hl
          · exact hl
          · rw [List.getElem?_eq_none hl] at hop
            exact absurd hop (by simp)
        have hattc : attached_extensions m (t :: rest) = e :: attached_extensions m rest := by
          rw [attached_extensions_cons, he, hfe]
          simp
        rcases hm1 with ⟨hnil, ext, hext, hm1⟩ | ⟨hne, hm1⟩
        · have hop1 : m1.opcodes[i]? =
              some { op with extensions := op.extensions ++ [e] } := by
            rw [hm1]
            simp [List.getElem?_set, hlen]
          obtain ⟨op2, hm2, hid2, hext2, hcod2, hnone2, _⟩ := ih m1 m2 _ h hop1
          have hatt : attached_extensions m1 rest = attached_extensions m rest := by
            rw [hm1]; rfl
          refine ⟨op2, ?_, hid2, ?_, ?_, ?_, ?_⟩
          · rw [hm2, hatt, hattc, hm1]
            simp [List.set_set, first_attach, hnil, attach_opcode, hext]
          · rw [hext2, hatt, hattc]
            simp
          · rcases hcod2 with hl | ⟨x1, x2, x3⟩
            · left
              rw [hm1] at hl
              exact hl
            · right
              exact ⟨x1, x2, x3⟩
          · intro hall
            have := hnone2 (by
              intro t2 ht2
              have := hall t2 (List.mem_cons_of_mem _ ht2)
              rw [hm1]
              exact this)
            exact this
          · intro _ e2 he2
            rw [hattc, List.head?_cons, Option.some.injEq] at he2
            rw [← he2]
            exact ⟨ext, hext⟩
        · have hop1 : m1.opcodes[i]? =
              some { op with extensions := op.extensions ++ [e] } := by
            rw [hm1]
            simp [List.getElem?_set, hlen]
          obtain ⟨op2, hm2, hid2, hext2, hcod2, hnone2, _⟩ := ih m1 m2 _ h hop1
          have hatt : attached_extensions m1 rest = attached_extensions m rest := by
            rw [hm1]; rfl
          refine ⟨op2, ?_, hid2, ?_, ?_, ?_, ?_⟩
          · rw [hm2, hatt, hattc, hm1]
            simp [List.set_set, first_attach, hne]
          · rw [hext2, hatt, hattc]
            simp
          · rcases hcod2 with hl | ⟨x1, x2, x3⟩
            · left
              rw [hm1] at hl
              exact hl
            · right
              exact ⟨x1, x2, x3⟩
          · intro hall
            have := hnone2 (by
              intro t2 ht2
              have := hall t2 (List.mem_cons_of_mem _ ht2)
              rw [hm1]
              exact this)
            exact this
          · intro hnil
            exact absurd hnil hne

theorem same_registries_refl (m : riscv_meta_model) : same_registries m m :=
  ⟨rfl, rfl, rfl, rfl, rfl, rfl, rfl, rfl, rfl, rfl, rfl⟩

theorem same_registries_trans {m m1 m2 : riscv_meta_model} (h1 : same_registries m m1)
    (h2 : same_registries m1 m2) : same_registries m m2 := by
  obtain ⟨a1, a2, a3, a4, a5, a6, a7, a8, a9, a10, a11⟩ := h1
  obtain ⟨b1, b2, b3, b4, b5, b6, b7, b8, b9, b10, b11⟩ := h2
  exact ⟨b1.trans a1, b2.trans a2, b3.trans a3, b4.trans a4, b5.trans a5, b6.trans a6,
    b7.trans a7, b8.trans a8, b9.trans a9, b10.trans a10, b11.trans a11⟩

theorem attaches_extension_congr {m m1 : riscv_meta_model} (h : same_registries m m1)
    (mnem : Str) : attaches_extension m1 mnem = attaches_extension m mnem := by
  obtain ⟨_, a2, _, _, _, _, _, a8, a9, _, _⟩ := h
  simp only [attaches_extension, is_arg, is_codec, is_extension, a2, a8, a9]

theorem attaches_codec_congr {m m1 : riscv_meta_model} (h : same_registries m m1)
    (mnem : Str) : attaches_codec m1 mnem = attaches_codec m mnem := by
  obtain ⟨_, a2, _, _, _, _, _, a8, _, _, _⟩ := h
  simp only [attaches_codec, is_arg, is_codec, a2, a8]

theorem attached_extensions_congr {m m1 : riscv_meta_model} (h : same_registries m m1)
    (tokens : List Str) : attached_extensions m1 tokens = attached_extensions m tokens := by
  have hx : ∀ mnem, attaches_extension m1 mnem = attaches_extension m mnem :=
    attaches_extension_congr h
  obtain ⟨_, _, _, _, _, _, _, _, a9, _, _⟩ := h
  simp only [attached_extensions, hx, a9]

theorem linked_codec_congr {m m1 : riscv_meta_model} (h : same_registries m m1)
    (op : riscv_opcode) : linked_codec m1 op ↔ linked_codec m op := by
  obtain ⟨_, _, _, a4, _, a6, a7, a8, _, _, _⟩ := h
  simp only [linked_codec, a4, a6, a7, a8]

theorem opcode_extension_tokens_congr {m m1 : riscv_meta_model} (h : same_registries m m1)
    (part : List Str) : opcode_extension_tokens m1 part = opcode_extension_tokens m part := by
  obtain ⟨_, _, _, _, _, _, _, _, a9, _, _⟩ := h
  simp only [opcode_extension_tokens, is_extension, a9]

/-- The record that `create_opcode` appends. -/
theorem push_opcode_eq (m : riscv_meta_model) (key name : Str) :
    (push_opcode m key name).2 = m.opcodes.length ∧
      (push_opcode m key name).1.opcodes = m.opcodes ++
        [{ riscv_opcode.of_key key name with num := m.opcodes.length + 1 }] ∧
      (push_opcode m key name).1.extensions = m.extensions ∧
      same_registries m (push_opcode m key name).1 ∧
      (push_opcode m key name).1.compressions = m.compressions ∧
      (push_opcode m key name).1.opcodes_by_name =
        add_opcode_by_name m.opcodes_by_name name m.opcodes.length ∧
      (push_opcode m key name).1.opcodes_by_key =
        m.opcodes_by_key.set key m.opcodes.length :=
  ⟨rfl, rfl, rfl, same_registries_refl m, rfl, rfl, rfl⟩

/-- What `create_opcode` does when it returns: the new opcode is appended as the last
record, numbered by its position, with the given mnemonic and nothing attached; the
records before it keep everything but, for at most one of them, the key. -/
theorem create_opcode_spec (m m1 : riscv_meta_model) (name extension : Str) (i : Nat)
    (h : create_opcode m name extension = some (m1, i)) :
    i = m.opcodes.length ∧
    ∃ (ops : List riscv_opcode) (key : Str), ops.length = m.opcodes.length ∧
      (∀ (j : Nat) (op2 : riscv_opcode), ops[j]? = some op2 →
        ∃ op, m.opcodes[j]? = some op ∧ rekeyed op op2) ∧
      m1.opcodes = ops ++ [{ riscv_opcode.of_key key name with num := i + 1 }] ∧
      m1.extensions = m.extensions ∧ same_registries m m1 ∧
      m1.compressions = m.compressions ∧
      m1.opcodes_by_name = add_opcode_by_name m.opcodes_by_name name i := by
  unfold create_opcode at h
  cases hk : lookup_opcode_by_key m name with
  | none =>
    simp only [hk, Option.some.injEq] at h
    obtain ⟨p1, p2, p3, p4, p5, p6, _⟩ := push_opcode_eq m name name
    rw [h] at p1 p2 p3 p4 p5 p6
    simp only at p1 p2 p3 p4 p5 p6
    refine ⟨p1, m.opcodes, name, rfl, ?_, ?_, p3, p4, p5, ?_⟩
    · intro j op2 hj
      exact ⟨op2, hj, rfl⟩
    · rw [p2, p1]
    · rw [p6, p1]
  | some o =>
    simp only [hk] at h
    cases hop : m.opcodes[o]? with
    | none => simp [hop] at h
    | some op =>
      simp only [hop] at h
      cases hf : op.extensions.head? with
      | none => simp [hf] at h
      | some front =>
        simp only [hf] at h
        cases hext : m.extensions[front]? with
        | none => simp [hext] at h
        | some ext =>
          simp only [hext] at h
          split at h
          · exact absurd h (by simp)
          · rw [Option.some.injEq] at h
            obtain ⟨p1, p2, p3, p4, p5, p6, _⟩ := push_opcode_eq
              { m with
                opcodes := m.opcodes.set o { op with key := name ++ ['.'] ++ ext.name }
                opcodes_by_key := (m.opcodes_by_key.erase name).set
                  (name ++ ['.'] ++ ext.name) o }
              (name ++ ['.'] ++ extension) name
            rw [h] at p1 p2 p3 p4 p5 p6
            simp only [List.length_set] at p1 p2 p3 p4 p5 p6
            refine ⟨p1, m.opcodes.set o { op with key := name ++ ['.'] ++ ext.name },
              name ++ ['.'] ++ extension, List.length_set _ _ _, ?_, ?_, p3, p4, p5, ?_⟩
            · intro j op2 hj
              rw [List.getElem?_set] at hj
              by_cases hoj : o = j
              · rw [if_pos hoj] at hj
                split at hj
                · rw [Option.some.injEq] at hj
                  rw [← hj, ← hoj]
                  exact ⟨op, hop, rfl⟩
                · exact absurd hj (by simp)
              · rw [if_neg hoj] at hj
                exact ⟨op2, hj, rfl⟩
            · rw [p2, p1]
            · rw [p6, p1]
theorem list_set_length_append {α : Type} (l : List α) (a b : α) :
    (l ++ [a]).set l.length b = l ++ [b] := by
  induction l with
  | nil => rfl
  | cons x l ih => simp only [List.cons_append, List.length_cons, List.set_cons_succ, ih]

/-- What a successful `parse_opcode` does to the model: one opcode is appended, with a
linked codec, numbered by its position, carrying the extensions of the line; it is put
in the opcode list of the first of them; the older records change at most in the key. -/
theorem parse_opcode_spec (m m2 : riscv_meta_model) (part : List Str)
    (h : parse_opcode m part = some m2) :
    ∃ (ops : List riscv_opcode) (op2 : riscv_opcode) (e : Nat) (ext : riscv_extension),
      ops.length = m.opcodes.length ∧
      (∀ (j : Nat) (op1 : riscv_opcode), ops[j]? = some op1 →
        ∃ op, m.opcodes[j]? = some op ∧ rekeyed op op1) ∧
      m2.opcodes = ops ++ [op2] ∧
      op2.num = m.opcodes.length + 1 ∧ op2.name = part.getD 0 [] ∧
      linked_codec m op2 ∧
      op2.extensions = attached_extensions m (part.drop 1) ∧
      op2.extensions.head? = some e ∧ m.extensions[e]? = some ext ∧
      m2.extensions =
        m.extensions.set e { ext with opcodes := ext.opcodes ++ [m.opcodes.length] } ∧
      same_registries m m2 ∧ m2.compressions = m.compressions ∧
      op2.compressed = none ∧ op2.compressions = [] ∧
      m2.opcodes_by_name =
        add_opcode_by_name m.opcodes_by_name (part.getD 0 []) m.opcodes.length ∧
      (∃ t ∈ part.drop 1, attaches_codec m (t.map tolower) = true) := by
  unfold parse_opcode at h
  cases htok : opcode_extension_tokens m part with
  | nil =>
    rw [htok] at h
    exact absurd h (by simp)
  | cons front tl =>
    simp only [htok] at h
    cases hc : create_opcode m (part.getD 0 []) front with
    | none =>
      rw [hc] at h
      exact absurd h (by simp)
    | some r =>
      obtain ⟨m1, i⟩ := r
      simp only [hc] at h
      obtain ⟨hi, ops, key, hlen, hold, hops1, hext1, hreg1, hcomp1, hname1⟩ :=
        create_opcode_spec m m1 _ _ i hc
      cases hl : parse_opcode_tokens i (part.drop 1) m1 with
      | none =>
        rw [hl] at h
        exact absurd h (by simp)
      | some m3 =>
        simp only [hl] at h
        have hfresh : m1.opcodes[i]? =
            some { riscv_opcode.of_key key (part.getD 0 []) with num := i + 1 } := by
          rw [hops1, hi, ← hlen]
          simp
        obtain ⟨op2, hm3, hid, hexts, hcod, hnone, hvalid⟩ :=
          parse_opcode_tokens_spec i _ m1 m3 _ hl hfresh
        have hop3 : m3.opcodes[i]? = some op2 := by
          rw [hm3, hops1, hi, ← hlen]
          simp
        simp only [hop3] at h
        by_cases hcn : op2.codec = none
        · simp [hcn] at h
        · rw [if_neg hcn] at h
          by_cases hen : op2.extensions.length = 0
          · simp [hen] at h
          · rw [if_neg hen, Option.some.injEq] at h
            subst h
            have hatt : attached_extensions m1 (part.drop 1) =
                attached_extensions m (part.drop 1) := attached_extensions_congr hreg1 _
            rw [hatt] at hexts hvalid hm3
            have hexts2 : op2.extensions = attached_extensions m (part.drop 1) := by
              rw [hexts]
              rfl
            cases hhead : (attached_extensions m (part.drop 1)).head? with
            | none =>
              rw [List.head?_eq_none_iff] at hhead
              rw [hexts2, hhead] at hen
              exact absurd rfl hen
            | some e =>
              obtain ⟨ext, hext⟩ := hvalid rfl e hhead
              rw [hext1] at hext
              obtain ⟨_, hn, hnum, _, _, _, hcd, hcs⟩ := hid
              refine ⟨ops, op2, e, ext, hlen, hold, ?_, ?_, hn, ?_, hexts2, ?_, hext, ?_, ?_,
                ?_, hcd, hcs, ?_, ?_⟩
              · rw [hm3, hops1, hi, ← hlen]
                exact list_set_length_append _ _ _
              · rw [hnum, hi]
              · rcases hcod with hlk | ⟨x, _, _⟩
                · exact (linked_codec_congr hreg1 op2).mp hlk
                · exact absurd x hcn
              · rw [hexts2, hhead]
              · rw [hm3]
                simp only [first_attach, riscv_opcode.of_key, if_true, hhead, attach_opcode,
                  hext1, hext, hi]
              · rw [hm3]
                exact hreg1
              · rw [hm3]
                exact hcomp1
              · rw [hm3]
                simp only [hname1, hi]
              · by_contra hno
                have hall : ∀ t ∈ part.drop 1, attaches_codec m1 (t.map tolower) = false := by
                  intro t ht
                  rw [attaches_codec_congr hreg1]
                  cases hb : attaches_codec m (t.map tolower) with
                  | false => rfl
                  | true => exact absurd ⟨t, ht, hb⟩ hno
                exact hcn (hnone hall)

theorem rekeyed_fields {op op2 : riscv_opcode} (h : rekeyed op op2) :
    op2.name = op.name ∧ op2.num = op.num ∧ op2.codec = op.codec ∧ op2.format = op.format ∧
      op2.type = op.type ∧ op2.extensions = op.extensions ∧
      op2.compressed = op.compressed ∧ op2.compressions = op.compressions := by
  unfold rekeyed at h
  rw [h]
  exact ⟨rfl, rfl, rfl, rfl, rfl, rfl, rfl, rfl⟩

theorem linked_codec_of_fields (m : riscv_meta_model) {op op2 : riscv_opcode}
    (h1 : op2.codec = op.codec) (h2 : op2.format = op.format) (h3 : op2.type = op.type) :
    linked_codec m op2 ↔ linked_codec m op := by
  simp only [linked_codec, h1, h2, h3]

/-- One successful `parse_opcode` keeps the invariant of C16. -/
theorem parse_opcode_well_linked (m m2 : riscv_meta_model) (part : List Str)
    (h : parse_opcode m part = some m2)
    (hinv : ∀ (i : Nat) (op : riscv_opcode), m.opcodes[i]? = some op → well_linked m i op) :
    ∀ (i : Nat) (op : riscv_opcode), m2.opcodes[i]? = some op → well_linked m2 i op := by
  obtain ⟨ops, op2, e, ext, hlen, hold, hops, hnum, _, hlink, _, hhead, _, _, hreg, _⟩ :=
    parse_opcode_spec m m2 part h
  intro i op hi
  rw [hops] at hi
  rcases Nat.lt_or_ge i ops.length with hlt | hge
  · rw [List.getElem?_append_left hlt] at hi
    obtain ⟨op0, hop0, hrk⟩ := hold i op hi
    obtain ⟨_, f2, f3, f4, f5, f6, _, _⟩ := rekeyed_fields hrk
    obtain ⟨g1, g2, g3⟩ := hinv i op0 hop0
    refine ⟨?_, ?_, ?_⟩
    · rw [linked_codec_congr hreg, linked_codec_of_fields m f3 f4 f5]
      exact g1
    · rw [f6]
      exact g2
    · rw [f2]
      exact g3
  · rw [List.getElem?_append_right hge] at hi
    have hz : i - ops.length = 0 := by
      rcases Nat.eq_zero_or_pos (i - ops.length) with hz | hp
      · exact hz
      · rw [List.getElem?_eq_none (by simp only [List.length_singleton]; omega)] at hi
        exact absurd hi (by simp)
    rw [hz] at hi
    simp only [List.getElem?_cons_zero, Option.some.injEq] at hi
    subst hi
    refine ⟨(linked_codec_congr hreg _).mpr hlink, ?_, ?_⟩
    · intro hnil
      rw [hnil] at hhead
      exact absurd hhead (by simp)
    · rw [hnum, ← hlen]
      omega

/-- One successful `parse_opcode` leaves every older record at its position and changes
at most its key. -/
theorem parse_opcode_keeps (m m2 : riscv_meta_model) (part : List Str)
    (h : parse_opcode m part = some m2) (j : Nat) (op : riscv_opcode)
    (hj : m.opcodes[j]? = some op) :
    ∃ op2, m2.opcodes[j]? = some op2 ∧ rekeyed op op2 := by
  obtain ⟨ops, op2, e, ext, hlen, hold, hops, _⟩ := parse_opcode_spec m m2 part h
  have hlt : j < ops.length := by
    rw [hlen]
    rcases Nat.lt_or_ge j m.opcodes.length with hl | hl
    · exact hl
    · rw [List.getElem?_eq_none hl] at hj
      exact absurd hj (by simp)
  have hsome : ops[j]? = some (ops.get ⟨j, hlt⟩) := List.getElem?_eq_getElem hlt
  obtain ⟨op0, hop0, hrk⟩ := hold j _ hsome
  rw [hj, Option.some.injEq] at hop0
  subst hop0
  refine ⟨_, ?_, hrk⟩
  rw [hops, List.getElem?_append_left hlt]
  exact hsome

theorem parse_opcodes_well_linked : ∀ (lines : List (List Str)) (m0 m : riscv_meta_model),
    parse_opcodes lines m0 = some m →
    (∀ (i : Nat) (op : riscv_opcode), m0.opcodes[i]? = some op → well_linked m0 i op) →
    ∀ (i : Nat) (op : riscv_opcode), m.opcodes[i]? = some op → well_linked m i op := by
  intro lines
  induction lines with
  | nil =>
    intro m0 m h hinv
    simp only [parse_opcodes, Option.some.injEq] at h
    rw [← h]
    exact hinv
  | cons part rest ih =>
    intro m0 m h hinv
    unfold parse_opcodes at h
    cases h1 : parse_opcode m0 part with
    | none =>
      rw [h1] at h
      exact absurd h (by simp)
    | some m1 =>
      simp only [h1] at h
      exact ih m1 m h (parse_opcode_well_linked m0 m1 part h1 hinv)

/-- C16: in every model reached from a model without opcodes by successful
`parse_opcode` calls, every opcode of the sequence has a registered codec, the format
registered under the format token of that codec, the type registered under
`codec_type_name` of that codec, a non-empty extension list and `num` equal to its
1-based position; and a further successful call leaves every record at its position,
changing at most its key. -/
theorem parse_opcodes_linked (lines : List (List Str)) (m0 m : riscv_meta_model)
    (h0 : m0.opcodes = []) (h : parse_opcodes lines m0 = some m) :
    (∀ (i : Nat) (op : riscv_opcode), m.opcodes[i]? = some op →
      linked_codec m op ∧ op.extensions ≠ [] ∧ op.num = i + 1) ∧
    (∀ (part : List Str) (m2 : riscv_meta_model), parse_opcode m part = some m2 →
      ∀ (j : Nat) (op : riscv_opcode), m.opcodes[j]? = some op →
        ∃ op2, m2.opcodes[j]? = some op2 ∧ rekeyed op op2) := by
  refine ⟨?_, fun part m2 h2 j op hj => parse_opcode_keeps m m2 part h2 j op hj⟩
  apply parse_opcodes_well_linked lines m0 m h
  intro i op hi
  rw [h0] at hi
  exact absurd hi (by simp)
/-- C16 at `addi_lines`: both lines are read, and the two opcodes are linked and
numbered 1 and 2. -/
theorem parse_opcodes_linked_witness :
    parse_opcodes addi_lines example_registry = some addi_model ∧
    addi_model.opcodes.map (fun op => (op.num, op.codec, op.format, op.type, op.extensions)) =
      [(1, some 0, some 0, some 0, [0]), (2, some 0, some 0, some 0, [1, 0, 1])] ∧
    ∀ (i : Nat) (op : riscv_opcode), addi_model.opcodes[i]? = some op →
      linked_codec addi_model op ∧ op.extensions ≠ [] ∧ op.num = i + 1 :=
  ⟨by decide, by decide,
    (parse_opcodes_linked addi_lines example_registry addi_model (by decide) (by decide)).1⟩

theorem name_map_find_set_self (m : name_map) (k : Str) (v : Nat) :
    (m.set k v).find k = some v := by
  simp [name_map.set, name_map.find]

theorem sum_map_set {α : Type} (f : α → Nat) : ∀ (l : List α) (e : Nat) (a b : α),
    l[e]? = some a → ((l.set e b).map f).sum + f a = (l.map f).sum + f b := by
  intro l
  induction l with
  | nil =>
    intro e a b h
    simp at h
  | cons x l ih =>
    intro e a b h
    cases e with
    | zero =>
      simp only [List.getElem?_cons_zero, Option.some.injEq] at h
      subst h
      simp only [List.set_cons_zero, List.map_cons, List.sum_cons]
      omega
    | succ e =>
      simp only [List.getElem?_cons_succ] at h
      have := ih e a b h
      simp only [List.set_cons_succ, List.map_cons, List.sum_cons]
      omega

theorem extension_occurrences_zero (m : riscv_meta_model) (j : Nat)
    (h : ∀ ext ∈ m.extensions, j ∉ ext.opcodes) : extension_occurrences m j = 0 := by
  unfold extension_occurrences
  generalize m.extensions = l at h
  induction l with
  | nil => rfl
  | cons x l ih =>
    simp only [List.map_cons, List.sum_cons]
    rw [ih (fun ext he => h ext (List.mem_cons_of_mem _ he)),
      List.count_eq_zero_of_not_mem (h x (List.mem_cons_self _ _))]

theorem count_append_singleton (l : List Nat) (j n : Nat) :
    (l ++ [n]).count j = l.count j + (if j = n then 1 else 0) := by
  rw [List.count_append, List.count_singleton]
  by_cases h : j = n
  · simp [h]
  · have h2 : ¬ n = j := fun e => h e.symm
    simp [h, h2]

/-- One successful `parse_opcode` keeps the invariant of C18. -/
theorem parse_opcode_owned (m m2 : riscv_meta_model) (part : List Str)
    (h : parse_opcode m part = some m2) (hb : lists_bounded m)
    (hinv : ∀ (j : Nat) (op : riscv_opcode), m.opcodes[j]? = some op → owned_once m j op) :
    lists_bounded m2 ∧
      ∀ (j : Nat) (op : riscv_opcode), m2.opcodes[j]? = some op → owned_once m2 j op := by
  obtain ⟨ops, op2, e, ext, hlen, hold, hops, _, _, _, _, hhead, hext, hexts, _⟩ :=
    parse_opcode_spec m m2 part h
  have hocc : ∀ j, extension_occurrences m2 j =
      extension_occurrences m j + (if j = m.opcodes.length then 1 else 0) := by
    intro j
    have := sum_map_set (fun x : riscv_extension => x.opcodes.count j) m.extensions e ext
      { ext with opcodes := ext.opcodes ++ [m.opcodes.length] } hext
    simp only [count_append_singleton] at this
    unfold extension_occurrences
    rw [hexts]
    omega
  have helt : e < m.extensions.length := by
    rcases Nat.lt_or_ge e m.extensions.length with hl | hl
    · exact hl
    · rw [List.getElem?_eq_none hl] at hext
      exact absurd hext (by simp)
  have hnew : m2.extensions[e]? =
      some { ext with opcodes := ext.opcodes ++ [m.opcodes.length] } := by
    rw [hexts]
    simp [List.getElem?_set, helt]
  have hmem : ext ∈ m.extensions := by
    rw [List.mem_iff_getElem?]
    exact ⟨e, hext⟩
  have hnot : ∀ x ∈ m.extensions, m.opcodes.length ∉ x.opcodes := by
    intro x hx hmem
    exact absurd (hb x hx _ hmem) (Nat.lt_irrefl _)
  refine ⟨?_, ?_⟩
  · intro x hx j hj
    rw [hops, List.length_append, List.length_singleton, hlen]
    rw [hexts] at hx
    rcases List.mem_or_eq_of_mem_set hx with hx | hx
    · exact Nat.lt_succ_of_lt (hb x hx j hj)
    · rw [hx] at hj
      simp only [List.mem_append, List.mem_singleton] at hj
      rcases hj with hj | hj
      · exact Nat.lt_succ_of_lt (hb ext hmem j hj)
      · omega
  · intro j op hj
    rw [hops] at hj
    rcases Nat.lt_or_ge j ops.length with hlt | hge
    · rw [List.getElem?_append_left hlt] at hj
      obtain ⟨op0, hop0, hrk⟩ := hold j op hj
      obtain ⟨_, _, _, _, _, f6, _, _⟩ := rekeyed_fields hrk
      obtain ⟨g1, e0, ext0, g2, g3, g4⟩ := hinv j op0 hop0
      have hne : j ≠ m.opcodes.length := by omega
      refine ⟨?_, ?_⟩
      · rw [hocc, g1, if_neg hne]
      · by_cases hee : e = e0
        · subst hee
          rw [hext, Option.some.injEq] at g3
          subst g3
          refine ⟨e, _, by rw [f6]; exact g2, hnew, ?_⟩
          simp only [count_append_singleton, g4, if_neg hne]
        · refine ⟨e0, ext0, by rw [f6]; exact g2, ?_, g4⟩
          rw [hexts, List.getElem?_set_ne hee]
          exact g3
    · rw [List.getElem?_append_right hge] at hj
      have hz : j - ops.length = 0 := by
        rcases Nat.eq_zero_or_pos (j - ops.length) with hz | hp
        · exact hz
        · rw [List.getElem?_eq_none (by simp only [List.length_singleton]; omega)] at hj
          exact absurd hj (by simp)
      rw [hz] at hj
      simp only [List.getElem?_cons_zero, Option.some.injEq] at hj
      subst hj
      have hjn : j = m.opcodes.length := by omega
      subst hjn
      refine ⟨?_, e, _, hhead, hnew, ?_⟩
      · rw [hocc, extension_occurrences_zero m _ hnot, if_pos rfl]
      · simp only [count_append_singleton, if_true,
          List.count_eq_zero_of_not_mem (hnot ext hmem)]

theorem parse_opcodes_owned : ∀ (lines : List (List Str)) (m0 m : riscv_meta_model),
    parse_opcodes lines m0 = some m → lists_bounded m0 →
    (∀ (j : Nat) (op : riscv_opcode), m0.opcodes[j]? = some op → owned_once m0 j op) →
    ∀ (j : Nat) (op : riscv_opcode), m.opcodes[j]? = some op → owned_once m j op := by
  intro lines
  induction lines with
  | nil =>
    intro m0 m h _ hinv
    simp only [parse_opcodes, Option.some.injEq] at h
    rw [← h]
    exact hinv
  | cons part rest ih =>
    intro m0 m h hb hinv
    unfold parse_opcodes at h
    cases h1 : parse_opcode m0 part with
    | none =>
      rw [h1] at h
      exact absurd h (by simp)
    | some m1 =>
      simp only [h1] at h
      obtain ⟨hb1, hinv1⟩ := parse_opcode_owned m0 m1 part h1 hb hinv
      exact ih m1 m h hb1 hinv1

/-- C18: in every model reached by successful `parse_opcode` calls from a model that has
no opcode and whose extensions have empty opcode lists, each opcode occurs exactly once
in total in the opcode lists of all extensions, in the list of the first extension of
its own extension list. -/
theorem parse_opcodes_owned_once (lines : List (List Str)) (m0 m : riscv_meta_model)
    (h0 : m0.opcodes = []) (he : ∀ ext ∈ m0.extensions, ext.opcodes = [])
    (h : parse_opcodes lines m0 = some m) :
    ∀ (j : Nat) (op : riscv_opcode), m.opcodes[j]? = some op →
      extension_occurrences m j = 1 ∧
      ∃ e ext, op.extensions.head? = some e ∧ m.extensions[e]? = some ext ∧
        ext.opcodes.count j = 1 := by
  apply parse_opcodes_owned lines m0 m h
  · intro ext hx j hj
    rw [he ext hx] at hj
    exact absurd hj (List.not_mem_nil _)
  · intro j op hj
    rw [h0] at hj
    exact absurd hj (by simp)

/-- C18 at `addi_lines`, whose second line names `rv64i`, `rv32i` and `rv64i` again:
the first opcode is in the list of `rv32i` only, the second in the list of `rv64i`
only, once. -/
theorem parse_opcodes_owned_once_witness :
    addi_model.opcodes.map (fun op => op.extensions) = [[0], [1, 0, 1]] ∧
    addi_model.extensions.map (fun ext => ext.opcodes) = [[0], [1], [], [], []] ∧
    ∀ (j : Nat) (op : riscv_opcode), addi_model.opcodes[j]? = some op →
      extension_occurrences addi_model j = 1 ∧
      ∃ e ext, op.extensions.head? = some e ∧ addi_model.extensions[e]? = some ext ∧
        ext.opcodes.count j = 1 :=
  ⟨by decide, by decide,
    parse_opcodes_owned_once addi_lines example_registry addi_model (by decide) (by decide)
      (by decide)⟩

/-- C14, the code at the failing input: four lines for `addi` with the extensions
`rv32i`, `rv64i`, `rv32i`, `rv128i` are all read; the first and the third record both
end with the key `addi.rv32i`, and `lookup_opcode_by_key` returns the third for it.
With the first two lines only, the two keys differ and each is found. -/
theorem parse_opcodes_duplicate_key :
    keys_after [opcode_line "addi" ["rv32i"], opcode_line "addi" ["rv64i"]] =
      some ["addi.rv32i", "addi.rv64i"] ∧
    keys_after [opcode_line "addi" ["rv32i"], opcode_line "addi" ["rv64i"],
        opcode_line "addi" ["rv32i"], opcode_line "addi" ["rv128i"]] =
      some ["addi.rv32i", "addi.rv64i", "addi.rv32i", "addi.rv128i"] ∧
    lookup_after [opcode_line "addi" ["rv32i"], opcode_line "addi" ["rv64i"],
        opcode_line "addi" ["rv32i"], opcode_line "addi" ["rv128i"]] "addi.rv32i" =
      some (some 2) := by
  refine ⟨by decide, by decide, by decide⟩

/-- C15, the code at the failing input: three lines for `addi` with the extensions
`rv32i`, `rv64i`, `rv128i` are all read; the first two records are keyed `addi.rv32i`
and `addi.rv64i`, the third is keyed by the bare mnemonic `addi`, because the lookup of
the bare key finds nothing once the first record has been renamed. -/
theorem parse_opcodes_bare_key :
    keys_after [opcode_line "addi" ["rv32i"], opcode_line "addi" ["rv64i"],
        opcode_line "addi" ["rv128i"]] = some ["addi.rv32i", "addi.rv64i", "addi"] ∧
    lookup_after [opcode_line "addi" ["rv32i"], opcode_line "addi" ["rv64i"]] "addi" =
      some none ∧
    (parse_opcodes [opcode_line "addi" ["rv32i"], opcode_line "addi" ["rv64i"],
        opcode_line "addi" ["rv128i"]] example_registry).map
      (fun m => lookup_opcode_by_name m "addi".toList) = some [0, 1, 2] := by
  refine ⟨by decide, by decide, by decide⟩

/-- A successful `parse_opcode` in terms of its call of `create_opcode`: the second
loop replaces the record that `create_opcode` appended, keeping its key and mnemonic,
and leaves the two opcode indexes as `create_opcode` built them. -/
theorem parse_opcode_create (m m2 : riscv_meta_model) (part : List Str)
    (h : parse_opcode m part = some m2) :
    ∃ (front : Str) (tl : List Str) (m1 : riscv_meta_model) (op op2 : riscv_opcode)
      (e : Nat) (ext : riscv_extension),
      opcode_extension_tokens m part = front :: tl ∧
      create_opcode m (part.getD 0 []) front = some (m1, m.opcodes.length) ∧
      m1.opcodes[m.opcodes.length]? = some op ∧ same_identity op op2 ∧
      m2.opcodes = m1.opcodes.set m.opcodes.length op2 ∧
      m2.opcodes_by_key = m1.opcodes_by_key ∧ m2.opcodes_by_name = m1.opcodes_by_name ∧
      op2.extensions = attached_extensions m (part.drop 1) ∧
      op2.extensions.head? = some e ∧ m.extensions[e]? = some ext ∧
      m2.extensions =
        m.extensions.set e { ext with opcodes := ext.opcodes ++ [m.opcodes.length] } ∧
      same_registries m m2 := by
  unfold parse_opcode at h
  cases htok : opcode_extension_tokens m part with
  | nil =>
    rw [htok] at h
    exact absurd h (by simp)
  | cons front tl =>
    simp only [htok] at h
    cases hc : create_opcode m (part.getD 0 []) front with
    | none =>
      rw [hc] at h
      exact absurd h (by simp)
    | some r =>
      obtain ⟨m1, i⟩ := r
      simp only [hc] at h
      obtain ⟨hi, ops, key, hlen, _, hops1, hext1, hreg1, _, _⟩ :=
        create_opcode_spec m m1 _ _ i hc
      subst hi
      cases hl : parse_opcode_tokens m.opcodes.length (part.drop 1) m1 with
      | none =>
        rw [hl] at h
        exact absurd h (by simp)
      | some m3 =>
        simp only [hl] at h
        have hfresh : m1.opcodes[m.opcodes.length]? =
            some { riscv_opcode.of_key key (part.getD 0 []) with
              num := m.opcodes.length + 1 } := by
          rw [hops1, ← hlen]
          simp
        obtain ⟨op2, hm3, hid, hexts, _, _, hvalid⟩ :=
          parse_opcode_tokens_spec m.opcodes.length _ m1 m3 _ hl hfresh
        have hop3 : m3.opcodes[m.opcodes.length]? = some op2 := by
          rw [hm3, hops1, ← hlen]
          simp
        simp only [hop3] at h
        by_cases hcn : op2.codec = none
        · simp [hcn] at h
        · rw [if_neg hcn] at h
          by_cases hen : op2.extensions.length = 0
          · simp [hen] at h
          · rw [if_neg hen, Option.some.injEq] at h
            subst h
            have hatt : attached_extensions m1 (part.drop 1) =
                attached_extensions m (part.drop 1) := attached_extensions_congr hreg1 _
            rw [hatt] at hexts hvalid hm3
            have hexts2 : op2.extensions = attached_extensions m (part.drop 1) := by
              rw [hexts]
              rfl
            cases hhead : (attached_extensions m (part.drop 1)).head? with
            | none =>
              rw [List.head?_eq_none_iff] at hhead
              rw [hexts2, hhead] at hen
              exact absurd rfl hen
            | some e =>
              obtain ⟨ext, hext⟩ := hvalid rfl e hhead
              rw [hext1] at hext
              refine ⟨front, tl, m1, _, op2, e, ext, rfl, hc, hfresh, hid, ?_, ?_, ?_,
                hexts2, ?_, hext, ?_, ?_⟩
              · rw [hm3]
              · rw [hm3]
              · rw [hm3]
              · rw [hexts2, hhead]
              · rw [hm3]
                simp only [first_attach, riscv_opcode.of_key, if_true, hhead, attach_opcode,
                  hext1, hext]
              · rw [hm3]
                exact hreg1

theorem name_map_find_erase_self (m : name_map) (k : Str) : (m.erase k).find k = none := by
  induction m with
  | nil => rfl
  | cons x m ih =>
    unfold name_map.erase at ih ⊢
    rw [List.filter_cons]
    by_cases hx : x.1 = k
    · simp only [hx, ne_eq, not_true_eq_false, decide_False, Bool.false_eq_true, if_false]
      exact ih
    · simp only [hx, ne_eq, not_false_eq_true, decide_True, if_true]
      obtain ⟨a, b⟩ := x
      simp only [name_map.find]
      rw [if_neg hx]
      exact ih

theorem name_map_find_set_ne (m : name_map) (k k2 : Str) (v : Nat) (h : k ≠ k2) :
    (m.set k v).find k2 = m.find k2 := by
  simp only [name_map.set, name_map.find]
  rw [if_neg h]

theorem lookup_add_opcode_by_name (m : riscv_meta_model) (by_name : opcode_list_map)
    (name : Str) (i : Nat) :
    lookup_opcode_by_name { m with opcodes_by_name := add_opcode_by_name by_name name i } name =
      lookup_opcode_by_name { m with opcodes_by_name := by_name } name ++ [i] := by
  unfold lookup_opcode_by_name add_opcode_by_name
  cases hf : by_name.find name with
  | none => simp [opcode_list_map.set, opcode_list_map.find]
  | some l => simp [opcode_list_map.set, opcode_list_map.find]

theorem qualified_key_ne (mn e : Str) : mn ++ ['.'] ++ e ≠ mn := by
  intro h
  have := congrArg List.length h
  simp only [List.length_append, List.length_singleton] at this
  omega

theorem attached_extensions_head (m : riscv_meta_model) (e1 : Str)
    (ha : attaches_extension m e1 = true) : ∀ (tokens : List Str),
    ((tokens.map (fun t => t.map tolower)).filter (fun mnem => is_extension m mnem)).head? =
      some e1 →
    (attached_extensions m tokens).head? = m.extensions_by_name.find e1 := by
  intro tokens
  induction tokens with
  | nil =>
    intro h
    simp at h
  | cons t rest ih =>
    intro h
    rw [List.map_cons, List.filter_cons] at h
    rw [attached_extensions_cons]
    by_cases hx : is_extension m (t.map tolower) = true
    · rw [if_pos hx, List.head?_cons, Option.some.injEq] at h
      rw [h, ha, if_pos rfl]
      rw [h] at hx
      unfold is_extension at hx
      cases hf : m.extensions_by_name.find e1 with
      | none =>
        rw [hf] at hx
        exact absurd hx (by simp)
      | some e => rfl
    · rw [if_neg hx] at h
      have hno : attaches_extension m (t.map tolower) = false := by
        unfold attaches_extension
        simp only [Bool.not_eq_true] at hx
        rw [hx, Bool.and_false]
      rw [hno]
      exact ih h
theorem create_opcode_new (m : riscv_meta_model) (mn e : Str)
    (hk : lookup_opcode_by_key m mn = none) :
    create_opcode m mn e = some (push_opcode m mn mn) := by
  unfold create_opcode
  rw [hk]

theorem create_opcode_rename (m m1 : riscv_meta_model) (mn e2 : Str) (o front i : Nat)
    (op : riscv_opcode) (ext : riscv_extension)
    (hk : lookup_opcode_by_key m mn = some o) (hop : m.opcodes[o]? = some op)
    (hf : op.extensions.head? = some front) (hext : m.extensions[front]? = some ext)
    (h : create_opcode m mn e2 = some (m1, i)) :
    (m1, i) = push_opcode
      { m with
        opcodes := m.opcodes.set o { op with key := mn ++ ['.'] ++ ext.name }
        opcodes_by_key := (m.opcodes_by_key.erase mn).set (mn ++ ['.'] ++ ext.name) o }
      (mn ++ ['.'] ++ e2) mn := by
  unfold create_opcode at h
  simp only [hk, hop, hf, hext] at h
  split at h
  · exact absurd h (by simp)
  · rw [Option.some.injEq] at h
    exact h.symm
/-- C13 as amended: for a mnemonic that is no key and has no opcode yet, two successful
lines whose first extension tokens `e1` and `e2` differ, where `e1` is attached to the
first opcode as its first extension (it is not also an argument name, a mask or a
codec name) and is the name of the extension registered under it: the model gets two
opcodes keyed `m.e1` and `m.e2`, found under these keys; the bare mnemonic is no key;
the mnemonic's list holds exactly the two, in that order. -/
theorem parse_opcode_two_extensions (m0 m1 m2 : riscv_meta_model) (part1 part2 : List Str)
    (mn e1 e2 : Str)
    (hk : lookup_opcode_by_key m0 mn = none) (hn : lookup_opcode_by_name m0 mn = [])
    (hp1 : part1.getD 0 [] = mn) (hp2 : part2.getD 0 [] = mn)
    (hf1 : (opcode_extension_tokens m0 part1).head? = some e1)
    (hf2 : (opcode_extension_tokens m0 part2).head? = some e2)
    (hne : e1 ≠ e2) (ha : attaches_extension m0 e1 = true)
    (hname : ∃ e ext, m0.extensions_by_name.find e1 = some e ∧
      m0.extensions[e]? = some ext ∧ ext.name = e1)
    (h1 : parse_opcode m0 part1 = some m1) (h2 : parse_opcode m1 part2 = some m2) :
    ∃ o1 o2, m2.opcodes = m0.opcodes ++ [o1, o2] ∧
      o1.key = mn ++ ['.'] ++ e1 ∧ o2.key = mn ++ ['.'] ++ e2 ∧
      o1.name = mn ∧ o2.name = mn ∧
      lookup_opcode_by_key m2 mn = none ∧
      lookup_opcode_by_key m2 (mn ++ ['.'] ++ e1) = some m0.opcodes.length ∧
      lookup_opcode_by_key m2 (mn ++ ['.'] ++ e2) = some (m0.opcodes.length + 1) ∧
      lookup_opcode_by_name m2 mn = [m0.opcodes.length, m0.opcodes.length + 1] := by
  -- the first line
  obtain ⟨front1, tl1, ma, opa, op1, e, ext, htok1, hc1, hfa, hida, hops1, hbk1, hbn1,
    hexts1, hhead1, hext1, hmext1, hreg1⟩ := parse_opcode_create m0 m1 part1 h1
  rw [htok1, List.head?_cons, Option.some.injEq] at hf1
  subst hf1
  rw [hp1, create_opcode_new m0 mn front1 hk, Option.some.injEq] at hc1
  have hma : ma = (push_opcode m0 mn mn).1 := (congrArg Prod.fst hc1).symm
  obtain ⟨_, q2, _, _, _, q6, q7⟩ := push_opcode_eq m0 mn mn
  rw [← hma] at q2 q6 q7
  have hops1b : m1.opcodes = m0.opcodes ++ [op1] := by
    rw [hops1, q2]
    exact list_set_length_append _ _ _
  -- the first extension of the first opcode is the one registered under the token
  have hhd : (attached_extensions m0 (part1.drop 1)).head? =
      m0.extensions_by_name.find front1 := by
    apply attached_extensions_head m0 front1 ha
    unfold opcode_extension_tokens at htok1
    rw [htok1]
    rfl
  obtain ⟨e0, ext0, hfind, hext0, hnm⟩ := hname
  rw [hexts1, hhd, hfind, Option.some.injEq] at hhead1
  subst hhead1
  rw [hext0, Option.some.injEq] at hext1
  subst hext1
  have helt : e0 < m0.extensions.length := by
    rcases Nat.lt_or_ge e0 m0.extensions.length with hl | hl
    · exact hl
    · rw [List.getElem?_eq_none hl] at hext0
      exact absurd hext0 (by simp)
  have hext1 : m1.extensions[e0]? =
      some { ext0 with opcodes := ext0.opcodes ++ [m0.opcodes.length] } := by
    rw [hmext1]
    simp [List.getElem?_set, helt]
  have hop1 : m1.opcodes[m0.opcodes.length]? = some op1 := by
    rw [hops1b]
    simp
  have hhead1 : op1.extensions.head? = some e0 := by
    rw [hexts1, hhd, hfind]
  have hk1 : lookup_opcode_by_key m1 mn = some m0.opcodes.length := by
    unfold lookup_opcode_by_key
    rw [hbk1, q7]
    exact name_map_find_set_self _ _ _
  have hlen1 : m1.opcodes.length = m0.opcodes.length + 1 := by
    rw [hops1b, List.length_append, List.length_singleton]
  -- the second line
  obtain ⟨front2, tl2, mb, opb, op2, _, _, htok2, hc2, hfb, hidb, hops2, hbk2, hbn2, _⟩ :=
    parse_opcode_create m1 m2 part2 h2
  rw [opcode_extension_tokens_congr hreg1] at htok2
  rw [htok2, List.head?_cons, Option.some.injEq] at hf2
  subst hf2
  rw [hp2] at hc2
  have hmb := create_opcode_rename m1 mb mn front2 _ _ _ _ _ hk1 hop1 hhead1 hext1 hc2
  have hmb1 : mb = _ := congrArg Prod.fst hmb
  obtain ⟨_, r2, _, _, _, r6, r7⟩ := push_opcode_eq
    { m1 with
      opcodes := m1.opcodes.set m0.opcodes.length
        { op1 with key := mn ++ ['.'] ++
          ({ ext0 with opcodes := ext0.opcodes ++ [m0.opcodes.length] } : riscv_extension).name }
      opcodes_by_key := (m1.opcodes_by_key.erase mn).set (mn ++ ['.'] ++
        ({ ext0 with opcodes := ext0.opcodes ++ [m0.opcodes.length] } : riscv_extension).name)
        m0.opcodes.length }
    (mn ++ ['.'] ++ front2) mn
  rw [← hmb1] at r2 r6 r7
  simp only [List.length_set, hlen1, hnm] at r2 r6 r7
  rw [hops1b, list_set_length_append] at r2
  have hlenb : (m0.opcodes ++ [{ op1 with key := mn ++ ['.'] ++ front1 }]).length =
      m0.opcodes.length + 1 := by
    rw [List.length_append, List.length_singleton]
  rw [hlen1, r2] at hops2 hfb
  rw [← hlenb, list_set_length_append] at hops2
  rw [← hlenb] at hfb
  simp only [List.getElem?_concat_length, Option.some.injEq] at hfb
  rw [r7] at hbk2
  rw [r6] at hbn2
  obtain ⟨k2, n2, _⟩ := hidb
  rw [← hfb] at k2 n2
  refine ⟨{ op1 with key := mn ++ ['.'] ++ front1 }, op2, ?_, rfl, k2, ?_, n2, ?_, ?_, ?_, ?_⟩
  · rw [hops2, List.append_assoc]
    rfl
  · obtain ⟨_, n1, _⟩ := hida
    rw [hma] at hfa
    simp only [push_opcode, List.getElem?_concat_length, Option.some.injEq] at hfa
    rw [← hfa] at n1
    exact n1
  · unfold lookup_opcode_by_key
    rw [hbk2, name_map_find_set_ne _ _ _ _ (qualified_key_ne mn front2),
      name_map_find_set_ne _ _ _ _ (qualified_key_ne mn front1)]
    exact name_map_find_erase_self _ _
  · unfold lookup_opcode_by_key
    have hkk : mn ++ ['.'] ++ front2 ≠ mn ++ ['.'] ++ front1 := by
      intro heq
      exact hne (List.append_cancel_left heq).symm
    rw [hbk2, name_map_find_set_ne _ _ _ _ hkk]
    exact name_map_find_set_self _ _ _
  · unfold lookup_opcode_by_key
    rw [hbk2]
    exact name_map_find_set_self _ _ _
  · have hb1 : lookup_opcode_by_name m1 mn = [m0.opcodes.length] := by
      have := lookup_add_opcode_by_name m1 m0.opcodes_by_name mn m0.opcodes.length
      rw [← q6, ← hbn1] at this
      change lookup_opcode_by_name m1 mn = _ at this
      rw [this]
      change lookup_opcode_by_name m0 mn ++ _ = _
      rw [hn]
      rfl
    have := lookup_add_opcode_by_name m2 m1.opcodes_by_name mn (m0.opcodes.length + 1)
    rw [← hbn2] at this
    change lookup_opcode_by_name m2 mn = lookup_opcode_by_name m1 mn ++ _ at this
    rw [this, hb1]
    rfl
/-- C13 fails as stated: with arguments named `rv32c` and `rv64c` registered next to the
extensions of these names, `addi` has no opcode, the lines
`addi rd 6..2=0x1b i_sh5 rv32c rv32i` and `addi rd 6..2=0x1b i_sh5 rv64c rv64i` are both
read, their first extension tokens are `rv32c` and `rv64c`, the extensions attached to
the two opcodes are `rv32i` (0) and `rv64i` (1); the keys are `addi.rv32i` and
`addi.rv64c`, which is neither `addi.rv32c`, `addi.rv64c` nor `addi.rv32i`,
`addi.rv64i`. -/
theorem parse_opcode_two_extensions_counterexample :
    lookup_opcode_by_key overlap_registry "addi".toList = none ∧
    lookup_opcode_by_name overlap_registry "addi".toList = [] ∧
    (opcode_extension_tokens overlap_registry
      (opcode_line "addi" ["rv32c", "rv32i"])).head? = some "rv32c".toList ∧
    (opcode_extension_tokens overlap_registry
      (opcode_line "addi" ["rv64c", "rv64i"])).head? = some "rv64c".toList ∧
    ((parse_opcode overlap_registry (opcode_line "addi" ["rv32c", "rv32i"])).bind
      (fun m => parse_opcode m (opcode_line "addi" ["rv64c", "rv64i"]))).map
      (fun m => m.opcodes.map (fun op => (String.mk op.key, op.extensions))) =
      some [("addi.rv32i", [0]), ("addi.rv64c", [1])] := by
  refine ⟨by decide, by decide, by decide, by decide, by decide⟩

/-- C13 as amended at scenario S5: `addi` with `rv32i`, then `addi` with `rv64i`. -/
theorem parse_opcode_two_extensions_witness :
    parse_opcode example_registry (opcode_line "addi" ["rv32i"]) = some one_addi_model ∧
    parse_opcode one_addi_model (opcode_line "addi" ["rv64i"]) = some two_addi_model ∧
    two_addi_model.opcodes.map (fun op => String.mk op.key) = ["addi.rv32i", "addi.rv64i"] ∧
    ∃ o1 o2, two_addi_model.opcodes = example_registry.opcodes ++ [o1, o2] ∧
      o1.key = "addi".toList ++ ['.'] ++ "rv32i".toList ∧
      o2.key = "addi".toList ++ ['.'] ++ "rv64i".toList ∧
      o1.name = "addi".toList ∧ o2.name = "addi".toList ∧
      lookup_opcode_by_key two_addi_model "addi".toList = none ∧
      lookup_opcode_by_key two_addi_model ("addi".toList ++ ['.'] ++ "rv32i".toList) =
        some example_registry.opcodes.length ∧
      lookup_opcode_by_key two_addi_model ("addi".toList ++ ['.'] ++ "rv64i".toList) =
        some (example_registry.opcodes.length + 1) ∧
      lookup_opcode_by_name two_addi_model "addi".toList =
        [example_registry.opcodes.length, example_registry.opcodes.length + 1] :=
  ⟨by decide, by decide, by decide,
    parse_opcode_two_extensions example_registry one_addi_model two_addi_model
      (opcode_line "addi" ["rv32i"]) (opcode_line "addi" ["rv64i"]) "addi".toList
      "rv32i".toList "rv64i".toList (by decide) (by decide) (by decide) (by decide)
      (by decide) (by decide) (by decide) (by decide) ⟨0, _, by decide, rfl, by decide⟩
      (by decide) (by decide)⟩

theorem getElem?_lt_length {α : Type} {l : List α} {i : Nat} {a : α} (h : l[i]? = some a) :
    i < l.length := by
  rcases Nat.lt_or_ge i l.length with hl | hl
  · exact hl
  · rw [List.getElem?_eq_none hl] at h
    exact absurd h (by simp)

theorem update_opcode_getElem (m m2 : riscv_meta_model) (i : Nat)
    (f : riscv_opcode → riscv_opcode) (h : update_opcode m i f = some m2) :
    i < m.opcodes.length ∧ m2.opcodes.length = m.opcodes.length ∧
    m2.compressions = m.compressions ∧ m2.opcodes_by_name = m.opcodes_by_name ∧
    m2.constraints_by_name = m.constraints_by_name ∧
    ∀ (j : Nat) (op : riscv_opcode), m.opcodes[j]? = some op →
      m2.opcodes[j]? = some (if j = i then f op else op) := by
  obtain ⟨op0, hop0, hm2⟩ := update_opcode_eq m m2 i f h
  have hl := getElem?_lt_length hop0
  subst hm2
  refine ⟨hl, List.length_set _ _ _, rfl, rfl, rfl, ?_⟩
  intro j op hj
  simp only [List.getElem?_set]
  by_cases hij : i = j
  · subst hij
    rw [hop0, Option.some.injEq] at hj
    subst hj
    simp [hl]
  · have hji : ¬ j = i := fun e => hij e.symm
    rw [if_neg hij, if_neg hji]
    exact hj

/-- What `add_compression` does when it returns: one record is appended to the
compressions; the compressed opcode gets it as its `compressed` field, the expanded
opcode gets it at the end of its `compressions`; nothing else changes. -/
theorem add_compression_spec (m m2 : riscv_meta_model) (part : List Str) (comp opcode : Nat)
    (h : add_compression m part comp opcode = some m2) :
    (∃ cl, compression_constraints m (part.drop 2) = some cl ∧
      m2.compressions = m.compressions ++ [riscv_compressed.mk comp opcode cl]) ∧
    comp < m.opcodes.length ∧ opcode < m.opcodes.length ∧
    (∀ (j : Nat) (op : riscv_opcode), m.opcodes[j]? = some op →
      ∃ op2, m2.opcodes[j]? = some op2 ∧
        op2.compressed = (if j = comp then some m.compressions.length else op.compressed) ∧
        op2.compressions =
          (if j = opcode then op.compressions ++ [m.compressions.length]
            else op.compressions)) ∧
    m2.opcodes_by_name = m.opcodes_by_name ∧
    m2.constraints_by_name = m.constraints_by_name := by
  unfold add_compression at h
  cases hcl : compression_constraints m (part.drop 2) with
  | none =>
    rw [hcl] at h
    exact absurd h (by simp)
  | some cl =>
    simp only [hcl] at h
    cases hu1 : update_opcode m comp
        (fun op => { op with compressed := some m.compressions.length }) with
    | none =>
      rw [hu1] at h
      exact absurd h (by simp)
    | some m1 =>
      simp only [hu1] at h
      obtain ⟨a1, a2, a3, a4, a5, a6⟩ := update_opcode_getElem _ _ _ _ hu1
      cases hu2 : update_opcode m1 opcode
          (fun op => { op with compressions := op.compressions ++ [m.compressions.length] }) with
      | none =>
        rw [hu2] at h
        exact absurd h (by simp)
      | some m3 =>
        simp only [hu2, Option.some.injEq] at h
        obtain ⟨b1, b2, b3, b4, b5, b6⟩ := update_opcode_getElem _ _ _ _ hu2
        subst h
        refine ⟨⟨cl, rfl, ?_⟩, a1, by rw [← a2]; exact b1, ?_, b4.trans a4, b5.trans a5⟩
        · simp only [b3, a3]
        · intro j op hj
          refine ⟨_, b6 j _ (a6 j op hj), ?_, ?_⟩
          · split_ifs <;> rfl
          · split_ifs <;> rfl
/-- One successful `add_compression` keeps the invariant of C19 as amended. -/
theorem add_compression_linked (m m2 : riscv_meta_model) (part : List Str)
    (comp opcode : Nat) (h : add_compression m part comp opcode = some m2)
    (hinv : ∀ (k : Nat) (c : riscv_compressed), m.compressions[k]? = some c →
      compression_linked m k c) :
    ∀ (k : Nat) (c : riscv_compressed), m2.compressions[k]? = some c →
      compression_linked m2 k c := by
  obtain ⟨⟨cl, _, hcs⟩, hlc, hlo, hops, _, _⟩ := add_compression_spec m m2 part comp opcode h
  have hnew : m2.compressions[m.compressions.length]? =
      some (riscv_compressed.mk comp opcode cl) := by
    rw [hcs]
    simp
  have hbound : ∀ (k3 : Nat) (c3 : riscv_compressed), m2.compressions[k3]? = some c3 →
      k3 ≤ m.compressions.length := by
    intro k3 c3 h3
    have := getElem?_lt_length h3
    rw [hcs, List.length_append, List.length_singleton] at this
    omega
  intro k c hk
  rcases Nat.lt_or_ge k m.compressions.length with hlt | hge
  · -- an older record
    have hkold : m.compressions[k]? = some c := by
      rw [hcs, List.getElem?_append_left hlt] at hk
      exact hk
    obtain ⟨⟨op, hop, hmem⟩, cop, k2, c2, hcop, hcomp, hk2, hc2, hmax⟩ := hinv k c hkold
    refine ⟨?_, ?_⟩
    · obtain ⟨op2, hop2, _, hcs2⟩ := hops _ op hop
      refine ⟨op2, hop2, ?_⟩
      rw [hcs2]
      split_ifs
      · exact List.mem_append_left _ hmem
      · exact hmem
    · obtain ⟨cop2, hcop2, hcd2, _⟩ := hops _ cop hcop
      by_cases hsame : c.comp_opcode = comp
      · refine ⟨cop2, m.compressions.length, _, hcop2, ?_, hnew, hsame.symm, ?_⟩
        · rw [hcd2, if_pos hsame]
        · intro k3 c3 h3 _
          exact hbound k3 c3 h3
      · refine ⟨cop2, k2, c2, hcop2, ?_, ?_, hc2, ?_⟩
        · rw [hcd2, if_neg hsame]
          exact hcomp
        · rw [hcs, List.getElem?_append_left (getElem?_lt_length hk2)]
          exact hk2
        · intro k3 c3 h3 h3c
          rcases Nat.lt_or_ge k3 m.compressions.length with h3l | h3g
          · rw [hcs, List.getElem?_append_left h3l] at h3
            exact hmax k3 c3 h3 h3c
          · have h3e : k3 = m.compressions.length := Nat.le_antisymm (hbound k3 c3 h3) h3g
            rw [h3e, hnew, Option.some.injEq] at h3
            rw [← h3] at h3c
            exact absurd h3c.symm hsame
  · -- the new record
    have hke : k = m.compressions.length := Nat.le_antisymm (hbound k c hk) hge
    subst hke
    rw [hnew, Option.some.injEq] at hk
    subst hk
    have heo : ∃ op, m.opcodes[opcode]? = some op :=
      ⟨_, List.getElem?_eq_getElem hlo⟩
    have hco : ∃ op, m.opcodes[comp]? = some op :=
      ⟨_, List.getElem?_eq_getElem hlc⟩
    obtain ⟨eop, heop⟩ := heo
    obtain ⟨cop, hcop⟩ := hco
    obtain ⟨eop2, heop2, _, hcs2⟩ := hops _ eop heop
    obtain ⟨cop2, hcop2, hcd2, _⟩ := hops _ cop hcop
    refine ⟨⟨eop2, heop2, ?_⟩, cop2, m.compressions.length, _, hcop2, ?_, hnew, rfl, ?_⟩
    · rw [hcs2, if_pos rfl]
      exact List.mem_append_right _ (List.mem_singleton_self _)
    · rw [hcd2, if_pos rfl]
    · intro k3 c3 h3 _
      exact hbound k3 c3 h3

theorem parse_compression_inner_linked (part : List Str) (comp : Nat) :
    ∀ (list : List Nat) (m m2 : riscv_meta_model),
    parse_compression_inner part comp list m = some m2 →
    (∀ (k : Nat) (c : riscv_compressed), m.compressions[k]? = some c →
      compression_linked m k c) →
    ∀ (k : Nat) (c : riscv_compressed), m2.compressions[k]? = some c →
      compression_linked m2 k c := by
  intro list
  induction list with
  | nil =>
    intro m m2 h hinv
    simp only [parse_compression_inner, Option.some.injEq] at h
    rw [← h]
    exact hinv
  | cons o rest ih =>
    intro m m2 h hinv
    unfold parse_compression_inner at h
    cases h1 : add_compression m part comp o with
    | none =>
      rw [h1] at h
      exact absurd h (by simp)
    | some m1 =>
      simp only [h1] at h
      exact ih m1 m2 h (add_compression_linked m m1 part comp o h1 hinv)

theorem parse_compression_outer_linked (part : List Str) :
    ∀ (list : List Nat) (m m2 : riscv_meta_model),
    parse_compression_outer part list m = some m2 →
    (∀ (k : Nat) (c : riscv_compressed), m.compressions[k]? = some c →
      compression_linked m k c) →
    ∀ (k : Nat) (c : riscv_compressed), m2.compressions[k]? = some c →
      compression_linked m2 k c := by
  intro list
  induction list with
  | nil =>
    intro m m2 h hinv
    simp only [parse_compression_outer, Option.some.injEq] at h
    rw [← h]
    exact hinv
  | cons o rest ih =>
    intro m m2 h hinv
    unfold parse_compression_outer at h
    cases h1 : parse_compression_inner part o
        (lookup_opcode_by_name m (part.getD 1 [])) m with
    | none =>
      rw [h1] at h
      exact absurd h (by simp)
    | some m1 =>
      simp only [h1] at h
      exact ih m1 m2 h (parse_compression_inner_linked part o _ m m1 h1 hinv)

theorem parse_compressions_linked : ∀ (lines : List (List Str)) (m m2 : riscv_meta_model),
    parse_compressions lines m = some m2 →
    (∀ (k : Nat) (c : riscv_compressed), m.compressions[k]? = some c →
      compression_linked m k c) →
    ∀ (k : Nat) (c : riscv_compressed), m2.compressions[k]? = some c →
      compression_linked m2 k c := by
  intro lines
  induction lines with
  | nil =>
    intro m m2 h hinv
    simp only [parse_compressions, Option.some.injEq] at h
    rw [← h]
    exact hinv
  | cons part rest ih =>
    intro m m2 h hinv
    unfold parse_compressions at h
    cases h1 : parse_compression m part with
    | none =>
      rw [h1] at h
      exact absurd h (by simp)
    | some m1 =>
      simp only [h1] at h
      apply ih m1 m2 h
      unfold parse_compression at h1
      split at h1
      · exact absurd h1 (by simp)
      · exact parse_compression_outer_linked part _ m m1 h1 hinv

/-- C19 as amended: in every model reached by successful `parse_compression` calls from
a model without compression records, for every compression record `c`, at position
`k`: the `compressions` list of the expanded opcode of `c` contains `c`; the
`compressed` field of the compressed opcode of `c` is the newest record with this
compressed opcode, so it is `c` itself when no later record has the same compressed
opcode. -/
theorem parse_compressions_back_links (lines : List (List Str)) (m0 m : riscv_meta_model)
    (h0 : m0.compressions = []) (h : parse_compressions lines m0 = some m) :
    ∀ (k : Nat) (c : riscv_compressed), m.compressions[k]? = some c →
      (∃ op, m.opcodes[c.opcode]? = some op ∧ k ∈ op.compressions) ∧
      (∃ cop k2 c2, m.opcodes[c.comp_opcode]? = some cop ∧ cop.compressed = some k2 ∧
        m.compressions[k2]? = some c2 ∧ c2.comp_opcode = c.comp_opcode ∧ k ≤ k2 ∧
        (∀ (k3 : Nat) (c3 : riscv_compressed), m.compressions[k3]? = some c3 →
          c3.comp_opcode = c.comp_opcode → k3 ≤ k2) ∧
        ((∀ (k3 : Nat) (c3 : riscv_compressed), m.compressions[k3]? = some c3 →
          k < k3 → c3.comp_opcode ≠ c.comp_opcode) → cop.compressed = some k)) := by
  intro k c hk
  have hinv := parse_compressions_linked lines m0 m h (by
    intro k c hk
    rw [h0] at hk
    exact absurd hk (by simp)) k c hk
  obtain ⟨hexp, cop, k2, c2, hcop, hcomp, hk2, hc2, hmax⟩ := hinv
  refine ⟨hexp, cop, k2, c2, hcop, hcomp, hk2, hc2, hmax k c hk rfl, hmax, ?_⟩
  intro hlast
  have hle := hmax k c hk rfl
  rcases Nat.lt_or_ge k k2 with hlt | hge
  · exact absurd hc2 (hlast k2 c2 hk2 hlt)
  · have : k2 = k := Nat.le_antisymm hge hle
    rw [hcomp, this]
/-- C19 fails as stated: in `slli_model` the mnemonic `slli` has two opcodes (1 and 2)
and `c.slli` one (0); the line `c.slli slli rd_ne_zero` is read and gives the records
0 = (0, 1) and 1 = (0, 2); the `compressed` field of opcode 0, the compressed opcode of
record 0, is record 1, not record 0. -/
theorem parse_compressions_back_links_counterexample :
    slli_model.compressions = [] ∧
    parse_compressions [line_of ["c.slli", "slli", "rd_ne_zero"]] slli_model =
      some slli_compressed_model ∧
    slli_compressed_model.compressions =
      [riscv_compressed.mk 0 1 [0], riscv_compressed.mk 0 2 [0]] ∧
    slli_compressed_model.opcodes.map (fun op => (String.mk op.key, op.compressed)) =
      [("c.slli", some 1), ("slli.rv32i", none), ("slli.rv64i", none)] := by
  refine ⟨by decide, by decide, by decide, by decide⟩

/-- C19 as amended at `slli_model` and the line `c.slli slli rd_ne_zero`. -/
theorem parse_compressions_back_links_witness :
    slli_compressed_model.opcodes.map (fun op => op.compressions) = [[], [0], [1]] ∧
    ∀ (k : Nat) (c : riscv_compressed), slli_compressed_model.compressions[k]? = some c →
      (∃ op, slli_compressed_model.opcodes[c.opcode]? = some op ∧ k ∈ op.compressions) ∧
      (∃ cop k2 c2, slli_compressed_model.opcodes[c.comp_opcode]? = some cop ∧
        cop.compressed = some k2 ∧
        slli_compressed_model.compressions[k2]? = some c2 ∧
        c2.comp_opcode = c.comp_opcode ∧ k ≤ k2 ∧
        (∀ (k3 : Nat) (c3 : riscv_compressed),
          slli_compressed_model.compressions[k3]? = some c3 →
          c3.comp_opcode = c.comp_opcode → k3 ≤ k2) ∧
        ((∀ (k3 : Nat) (c3 : riscv_compressed),
          slli_compressed_model.compressions[k3]? = some c3 →
          k < k3 → c3.comp_opcode ≠ c.comp_opcode) → cop.compressed = some k)) :=
  ⟨by decide,
    parse_compressions_back_links [line_of ["c.slli", "slli", "rd_ne_zero"]] slli_model
      slli_compressed_model (by decide) (by decide)⟩

theorem compression_constraints_none (m : riscv_meta_model) (name : Str)
    (hundef : m.constraints_by_name.find name = none) : ∀ (names : List Str),
    name ∈ names → compression_constraints m names = none := by
  intro names
  induction names with
  | nil =>
    intro h
    exact absurd h (List.not_mem_nil _)
  | cons x rest ih =>
    intro h
    unfold compression_constraints
    rcases List.mem_cons.mp h with hx | hx
    · rw [← hx, hundef]
    · rw [ih hx]
      cases m.constraints_by_name.find x <;> rfl

theorem parse_compression_outer_no_expanded (m : riscv_meta_model) (part : List Str)
    (h : lookup_opcode_by_name m (part.getD 1 []) = []) : ∀ (list : List Nat),
    parse_compression_outer part list m = some m := by
  intro list
  induction list with
  | nil => rfl
  | cons c rest ih =>
    unfold parse_compression_outer
    rw [h]
    simp only [parse_compression_inner]
    exact ih

/-- C20 as amended: for a compression line that lists a constraint name that is not in
the constraint index, `parse_compression` fails when the compressed mnemonic and the
expanded mnemonic both have an opcode; when one of them has none, the constraints are
not looked up and the call returns the model unchanged. -/
theorem parse_compression_unknown_constraint (m : riscv_meta_model) (part : List Str)
    (name : Str) (hmem : name ∈ part.drop 2)
    (hundef : m.constraints_by_name.find name = none) :
    (lookup_opcode_by_name m (part.getD 0 []) ≠ [] →
      lookup_opcode_by_name m (part.getD 1 []) ≠ [] → parse_compression m part = none) ∧
    (lookup_opcode_by_name m (part.getD 0 []) = [] ∨
      lookup_opcode_by_name m (part.getD 1 []) = [] → parse_compression m part = some m) := by
  have hlen : ¬ part.length < 2 := by
    intro hl
    rw [List.drop_eq_nil_of_le (by omega)] at hmem
    exact absurd hmem (List.not_mem_nil _)
  have hcl := compression_constraints_none m name hundef _ hmem
  unfold parse_compression
  rw [if_neg hlen]
  refine ⟨?_, ?_⟩
  · intro hc he
    cases hcs : lookup_opcode_by_name m (part.getD 0 []) with
    | nil => exact absurd hcs hc
    | cons c cs =>
      cases hes : lookup_opcode_by_name m (part.getD 1 []) with
      | nil => exact absurd hes he
      | cons o os =>
        unfold parse_compression_outer
        rw [hes]
        unfold parse_compression_inner add_compression
        rw [hcl]
  · intro hor
    rcases hor with hc | he
    · rw [hc]
      rfl
    · exact parse_compression_outer_no_expanded m part he _

/-- C20 fails as stated: in `slli_model` neither `c.addi` nor `addi` has an opcode and
`imm_ne_zero` is not a constraint; the line `c.addi addi rd_ne_zero imm_ne_zero`
returns normally, with the model unchanged. -/
theorem parse_compression_unknown_constraint_counterexample :
    slli_model.constraints_by_name.find "imm_ne_zero".toList = none ∧
    parse_compression slli_model
      (line_of ["c.addi", "addi", "rd_ne_zero", "imm_ne_zero"]) = some slli_model := by
  refine ⟨by decide, by decide⟩

/-- C20 as amended at `slli_model`: the line `c.slli slli rd_ne_zero imm_ne_zero` fails
(both mnemonics have opcodes), the line `c.addi slli rd_ne_zero imm_ne_zero` returns
the model unchanged (`c.addi` has no opcode). -/
theorem parse_compression_unknown_constraint_witness :
    parse_compression slli_model
      (line_of ["c.slli", "slli", "rd_ne_zero", "imm_ne_zero"]) = none ∧
    parse_compression slli_model
      (line_of ["c.addi", "slli", "rd_ne_zero", "imm_ne_zero"]) = some slli_model :=
  ⟨(parse_compression_unknown_constraint slli_model
      (line_of ["c.slli", "slli", "rd_ne_zero", "imm_ne_zero"]) "imm_ne_zero".toList
      (by decide) (by decide)).1 (by decide) (by decide),
    (parse_compression_unknown_constraint slli_model
      (line_of ["c.addi", "slli", "rd_ne_zero", "imm_ne_zero"]) "imm_ne_zero".toList
      (by decide) (by decide)).2 (Or.inl (by decide))⟩

theorem getD_take {α : Type} (l : List α) (n i : Nat) (d : α) (h : i < n) :
    (l.take n).getD i d = l.getD i d := by
  simp only [List.getD_eq_getElem?_getD, List.getElem?_take, if_pos h]

theorem length_take_of_le {α : Type} (l : List α) (n : Nat) (h : n ≤ l.length) :
    (l.take n).length = n := by
  rw [List.length_take]
  exact Nat.min_eq_left h

/-- C21: each record-building line parser fails exactly when the line has fewer tokens
than its arity (6 for `parse_arg`, 4 for `parse_enum`, 2 for `parse_codec`, 5 for
`parse_extension`, 5 for `parse_register`, 4 for `parse_csr`, 2 for
`parse_constraint`); otherwise it succeeds, appends the record built from the first
tokens, and gives the same model as on the line cut after these tokens. -/
theorem line_parsers_arity (m : riscv_meta_model) (part : List Str) :
    ((parse_arg m part = none ↔ part.length < 6) ∧
      (6 ≤ part.length → parse_arg m part = parse_arg m (part.take 6) ∧
        ∃ m2, parse_arg m part = some m2 ∧
          m2.args = m.args ++ [riscv_arg.mk (part.getD 0 []) (part.getD 1 [])
            (part.getD 2 []) (part.getD 3 []) (part.getD 4 []) (part.getD 5 [])])) ∧
    ((parse_enum m part = none ↔ part.length < 4) ∧
      (4 ≤ part.length → parse_enum m part = parse_enum m (part.take 4) ∧
        ∃ m2, parse_enum m part = some m2 ∧
          m2.enums = m.enums ++ [riscv_enum.mk (part.getD 0 []) (part.getD 1 [])
            (part.getD 2 []) (part.getD 3 [])])) ∧
    ((parse_codec m part = none ↔ part.length < 2) ∧
      (2 ≤ part.length → parse_codec m part = parse_codec m (part.take 2) ∧
        ∃ m2, parse_codec m part = some m2 ∧
          m2.codecs = m.codecs ++ [riscv_codec.mk (part.getD 0 []) (part.getD 1 [])])) ∧
    ((parse_extension m part = none ↔ part.length < 5) ∧
      (5 ≤ part.length → parse_extension m part = parse_extension m (part.take 5) ∧
        ∃ m2, parse_extension m part = some m2 ∧
          m2.extensions = m.extensions ++ [riscv_extension.of_tokens (part.getD 0 [])
            (part.getD 1 []) (part.getD 2 []) (part.getD 3 []) (part.getD 4 [])])) ∧
    ((parse_register m part = none ↔ part.length < 5) ∧
      (5 ≤ part.length → parse_register m part = parse_register m (part.take 5) ∧
        ∃ m2, parse_register m part = some m2 ∧
          m2.registers = m.registers ++ [riscv_register.mk (part.getD 0 [])
            (part.getD 1 []) (part.getD 2 []) (part.getD 3 []) (part.getD 4 [])])) ∧
    ((parse_csr m part = none ↔ part.length < 4) ∧
      (4 ≤ part.length → parse_csr m part = parse_csr m (part.take 4) ∧
        ∃ m2, parse_csr m part = some m2 ∧
          m2.csrs = m.csrs ++ [riscv_csr.mk (part.getD 0 []) (part.getD 1 [])
            (part.getD 2 []) (part.getD 3 [])])) ∧
    ((parse_constraint m part = none ↔ part.length < 2) ∧
      (2 ≤ part.length → parse_constraint m part = parse_constraint m (part.take 2) ∧
        ∃ m2, parse_constraint m part = some m2 ∧
          m2.constraints = m.constraints ++
            [riscv_constraint.mk (part.getD 0 []) (part.getD 1 [])])) := by
  refine ⟨⟨?_, ?_⟩, ⟨?_, ?_⟩, ⟨?_, ?_⟩, ⟨?_, ?_⟩, ⟨?_, ?_⟩, ⟨?_, ?_⟩, ⟨?_, ?_⟩⟩
  · unfold parse_arg
    split <;> simp [*]
  · intro h
    have hl : ¬ part.length < 6 := by omega
    have hl2 : ¬ (part.take 6).length < 6 := by rw [length_take_of_le _ _ h]; omega
    unfold parse_arg
    rw [if_neg hl, if_neg hl2]
    refine ⟨?_, _, rfl, rfl⟩
    simp only [getD_take, Nat.lt_add_one, Nat.reduceLT]
  · unfold parse_enum
    split <;> simp [*]
  · intro h
    have hl : ¬ part.length < 4 := by omega
    have hl2 : ¬ (part.take 4).length < 4 := by rw [length_take_of_le _ _ h]; omega
    unfold parse_enum
    rw [if_neg hl, if_neg hl2]
    refine ⟨?_, _, rfl, rfl⟩
    simp only [getD_take, Nat.lt_add_one, Nat.reduceLT]
  · unfold parse_codec
    split <;> simp [*]
  · intro h
    have hl : ¬ part.length < 2 := by omega
    have hl2 : ¬ (part.take 2).length < 2 := by rw [length_take_of_le _ _ h]; omega
    unfold parse_codec
    rw [if_neg hl, if_neg hl2]
    refine ⟨?_, _, rfl, rfl⟩
    simp only [getD_take, Nat.lt_add_one, Nat.reduceLT]
  · unfold parse_extension
    split <;> simp [*]
  · intro h
    have hl : ¬ part.length < 5 := by omega
    have hl2 : ¬ (part.take 5).length < 5 := by rw [length_take_of_le _ _ h]; omega
    unfold parse_extension
    rw [if_neg hl, if_neg hl2]
    refine ⟨?_, _, rfl, rfl⟩
    simp only [getD_take, Nat.lt_add_one, Nat.reduceLT]
  · unfold parse_register
    split <;> simp [*]
  · intro h
    have hl : ¬ part.length < 5 := by omega
    have hl2 : ¬ (part.take 5).length < 5 := by rw [length_take_of_le _ _ h]; omega
    unfold parse_register
    rw [if_neg hl, if_neg hl2]
    refine ⟨?_, _, rfl, rfl⟩
    simp only [getD_take, Nat.lt_add_one, Nat.reduceLT]
  · unfold parse_csr
    split <;> simp [*]
  · intro h
    have hl : ¬ part.length < 4 := by omega
    have hl2 : ¬ (part.take 4).length < 4 := by rw [length_take_of_le _ _ h]; omega
    unfold parse_csr
    rw [if_neg hl, if_neg hl2]
    refine ⟨?_, _, rfl, rfl⟩
    simp only [getD_take, Nat.lt_add_one, Nat.reduceLT]
  · unfold parse_constraint
    split <;> simp [*]
  · intro h
    have hl : ¬ part.length < 2 := by omega
    have hl2 : ¬ (part.take 2).length < 2 := by rw [length_take_of_le _ _ h]; omega
    unfold parse_constraint
    rw [if_neg hl, if_neg hl2]
    refine ⟨?_, _, rfl, rfl⟩
    simp only [getD_take, Nat.lt_add_one, Nat.reduceLT]
/-- C21 at an args line: five tokens fail, six tokens succeed, and a seventh token is
ignored. -/
theorem line_parsers_arity_witness :
    parse_arg riscv_meta_model.empty (line_of ["rd", "rd", "arg", "11:7", "ireg"]) = none ∧
    parse_arg riscv_meta_model.empty (line_of ["rd", "rd", "arg", "11:7", "ireg", "x", "y"]) =
      parse_arg riscv_meta_model.empty
        ((line_of ["rd", "rd", "arg", "11:7", "ireg", "x", "y"]).take 6) ∧
    ∃ m2, parse_arg riscv_meta_model.empty
        (line_of ["rd", "rd", "arg", "11:7", "ireg", "x", "y"]) = some m2 ∧
      m2.args = riscv_meta_model.empty.args ++
        [riscv_arg.mk ((line_of ["rd", "rd", "arg", "11:7", "ireg", "x", "y"]).getD 0 [])
          ((line_of ["rd", "rd", "arg", "11:7", "ireg", "x", "y"]).getD 1 [])
          ((line_of ["rd", "rd", "arg", "11:7", "ireg", "x", "y"]).getD 2 [])
          ((line_of ["rd", "rd", "arg", "11:7", "ireg", "x", "y"]).getD 3 [])
          ((line_of ["rd", "rd", "arg", "11:7", "ireg", "x", "y"]).getD 4 [])
          ((line_of ["rd", "rd", "arg", "11:7", "ireg", "x", "y"]).getD 5 [])] :=
  ⟨(line_parsers_arity riscv_meta_model.empty _).1.1.mpr (by decide),
    ((line_parsers_arity riscv_meta_model.empty _).1.2 (by decide)).1,
    ((line_parsers_arity riscv_meta_model.empty _).1.2 (by decide)).2⟩

theorem appended_one_set {α : Type} (seq : List α) (r : α) (index : name_map) (key : Str) :
    appended_one seq (seq ++ [r]) index (index.set key seq.length) key :=
  ⟨r, rfl, name_map_find_set_self _ _ _, List.getElem?_concat_length _ _, fun _ hk =>
    name_map_find_set_ne _ _ _ _ (fun e => hk e.symm)⟩

/-- C23: each of `parse_arg`, `parse_enum`, `parse_format`, `parse_codec`,
`parse_extension`, `parse_register`, `parse_csr` and `parse_constraint` succeeds on
every line that has its number of tokens (6, 4, 1, 2, 5, 5, 4, 2), and a successful call
appends exactly one record to the sequence of its entity, makes the index return that
record for its key (the first token; prefix, width and alpha joined for extensions; the
third token for CSRs) and leaves what the index returns for every other key unchanged;
this is so also when the key was present before: the older records stay in the
sequence. -/
theorem line_parsers_frame (m : riscv_meta_model) (part : List Str) :
    ((6 ≤ part.length → ∃ m2, parse_arg m part = some m2) ∧
      ∀ m2, parse_arg m part = some m2 →
        appended_one m.args m2.args m.args_by_name m2.args_by_name (part.getD 0 [])) ∧
    ((4 ≤ part.length → ∃ m2, parse_enum m part = some m2) ∧
      ∀ m2, parse_enum m part = some m2 →
        appended_one m.enums m2.enums m.enums_by_name m2.enums_by_name (part.getD 0 [])) ∧
    ((1 ≤ part.length → ∃ m2, parse_format m part = some m2) ∧
      ∀ m2, parse_format m part = some m2 →
        appended_one m.formats m2.formats m.formats_by_name m2.formats_by_name
          (part.getD 0 [])) ∧
    ((2 ≤ part.length → ∃ m2, parse_codec m part = some m2) ∧
      ∀ m2, parse_codec m part = some m2 →
        appended_one m.codecs m2.codecs m.codecs_by_name m2.codecs_by_name
          (part.getD 0 [])) ∧
    ((5 ≤ part.length → ∃ m2, parse_extension m part = some m2) ∧
      ∀ m2, parse_extension m part = some m2 →
        appended_one m.extensions m2.extensions m.extensions_by_name m2.extensions_by_name
          (part.getD 0 [] ++ part.getD 1 [] ++ part.getD 2 [])) ∧
    ((5 ≤ part.length → ∃ m2, parse_register m part = some m2) ∧
      ∀ m2, parse_register m part = some m2 →
        appended_one m.registers m2.registers m.registers_by_name m2.registers_by_name
          (part.getD 0 [])) ∧
    ((4 ≤ part.length → ∃ m2, parse_csr m part = some m2) ∧
      ∀ m2, parse_csr m part = some m2 →
        appended_one m.csrs m2.csrs m.csrs_by_name m2.csrs_by_name (part.getD 2 [])) ∧
    ((2 ≤ part.length → ∃ m2, parse_constraint m part = some m2) ∧
      ∀ m2, parse_constraint m part = some m2 →
        appended_one m.constraints m2.constraints m.constraints_by_name
          m2.constraints_by_name (part.getD 0 [])) := by
  refine ⟨⟨?_, ?_⟩, ⟨?_, ?_⟩, ⟨?_, ?_⟩, ⟨?_, ?_⟩, ⟨?_, ?_⟩, ⟨?_, ?_⟩, ⟨?_, ?_⟩, ⟨?_, ?_⟩⟩
  · intro hl
    unfold parse_arg
    rw [if_neg (by omega)]
    exact ⟨_, rfl⟩
  · intro m2 h
    unfold parse_arg at h
    split at h
    · exact absurd h (by simp)
    · rw [Option.some.injEq] at h
      rw [← h]
      exact appended_one_set _ _ _ _
  · intro hl
    unfold parse_enum
    rw [if_neg (by omega)]
    exact ⟨_, rfl⟩
  · intro m2 h
    unfold parse_enum at h
    split at h
    · exact absurd h (by simp)
    · rw [Option.some.injEq] at h
      rw [← h]
      exact appended_one_set _ _ _ _
  · intro hl
    unfold parse_format
    rw [if_neg (by omega)]
    exact ⟨_, rfl⟩
  · intro m2 h
    unfold parse_format at h
    split at h
    · exact absurd h (by simp)
    · rw [Option.some.injEq] at h
      rw [← h]
      exact appended_one_set _ _ _ _
  · intro hl
    unfold parse_codec
    rw [if_neg (by omega)]
    exact ⟨_, rfl⟩
  · intro m2 h
    unfold parse_codec at h
    split at h
    · exact absurd h (by simp)
    · rw [Option.some.injEq] at h
      rw [← h]
      exact appended_one_set _ _ _ _
  · intro hl
    unfold parse_extension
    rw [if_neg (by omega)]
    exact ⟨_, rfl⟩
  · intro m2 h
    unfold parse_extension at h
    split at h
    · exact absurd h (by simp)
    · rw [Option.some.injEq] at h
      rw [← h]
      exact appended_one_set _ _ _ _
  · intro hl
    unfold parse_register
    rw [if_neg (by omega)]
    exact ⟨_, rfl⟩
  · intro m2 h
    unfold parse_register at h
    split at h
    · exact absurd h (by simp)
    · rw [Option.some.injEq] at h
      rw [← h]
      exact appended_one_set _ _ _ _
  · intro hl
    unfold parse_csr
    rw [if_neg (by omega)]
    exact ⟨_, rfl⟩
  · intro m2 h
    unfold parse_csr at h
    split at h
    · exact absurd h (by simp)
    · rw [Option.some.injEq] at h
      rw [← h]
      exact appended_one_set _ _ _ _
  · intro hl
    unfold parse_constraint
    rw [if_neg (by omega)]
    exact ⟨_, rfl⟩
  · intro m2 h
    unfold parse_constraint at h
    split at h
    · exact absurd h (by simp)
    · rw [Option.some.injEq] at h
      rw [← h]
      exact appended_one_set _ _ _ _

/-- C23 at two args lines for the same name `rd` and two format lines for the same
name `fmt` (the second with the name only): each call succeeds, the sequence keeps both
records and the index returns the second. -/
theorem line_parsers_frame_witness :
    parse_arg one_arg_model (line_of ["rd", "dest", "arg", "11:7", "ireg", "y"]) =
      some two_arg_model ∧
    one_arg_model.args_by_name.find "rd".toList = some 0 ∧
    two_arg_model.args.map (fun a => String.mk a.label) = ["rd", "dest"] ∧
    two_arg_model.args_by_name.find "rd".toList = some 1 ∧
    appended_one one_arg_model.args two_arg_model.args one_arg_model.args_by_name
      two_arg_model.args_by_name
      ((line_of ["rd", "dest", "arg", "11:7", "ireg", "y"]).getD 0 []) ∧
    (∃ m2, parse_format one_format_model (line_of ["fmt"]) = some m2) ∧
    parse_format one_format_model (line_of ["fmt"]) = some two_format_model ∧
    two_format_model.formats.map (fun f => String.mk f.operands) = ["rd,rs1", ""] ∧
    two_format_model.formats_by_name.find "fmt".toList = some 1 ∧
    appended_one one_format_model.formats two_format_model.formats
      one_format_model.formats_by_name two_format_model.formats_by_name
      ((line_of ["fmt"]).getD 0 []) :=
  ⟨by decide, by decide, by decide, by decide,
    (line_parsers_frame one_arg_model
      (line_of ["rd", "dest", "arg", "11:7", "ireg", "y"])).1.2 two_arg_model (by decide),
    (line_parsers_frame one_format_model (line_of ["fmt"])).2.2.1.1 (by decide),
    by decide, by decide, by decide,
    (line_parsers_frame one_format_model (line_of ["fmt"])).2.2.1.2 two_format_model
      (by decide)⟩

/-- C22 fails as stated: `parse_instruction` applied to the one-token line `slli`
returns normally, with the model unchanged. -/
theorem parse_instruction_one_token_counterexample :
    (line_of ["slli"]).length = 1 ∧
    parse_instruction slli_model (line_of ["slli"]) = some slli_model := by
  refine ⟨by decide, by decide⟩

/-- C22 as amended: `parse_instruction` applied to a line with fewer than two tokens
returns normally and leaves the model unchanged. -/
theorem parse_instruction_short_line (m : riscv_meta_model) (part : List Str)
    (h : part.length < 2) : parse_instruction m part = some m := by
  unfold parse_instruction
  rw [if_pos h]

/-- C22 as amended at the one-token line `addi` and the model `addi_model`, which has
two opcodes for this mnemonic. -/
theorem parse_instruction_short_line_witness :
    lookup_opcode_by_name addi_model "addi".toList = [0, 1] ∧
    parse_instruction addi_model (line_of ["addi"]) = some addi_model :=
  ⟨by decide, parse_instruction_short_line addi_model (line_of ["addi"]) (by decide)⟩

theorem find_single_takeWhile (c : Char) : ∀ (s : Str) (o : Nat), find s [c] = some o →
    substr s 0 o = s.takeWhile (fun x => x ≠ c) := by
  intro s
  induction s with
  | nil =>
    intro o h
    simp [find] at h
  | cons x s ih =>
    intro o h
    unfold find at h
    by_cases hx : c = x
    · subst hx
      simp only [List.isPrefixOf, beq_self_eq_true, Bool.true_and, if_true,
        Option.some.injEq] at h
      subst h
      simp [substr]
    · have hp : List.isPrefixOf [c] (x :: s) = false := by
        simp [List.isPrefixOf, hx]
      rw [hp] at h
      simp only [Bool.false_eq_true, if_false, Option.map_eq_some'] at h
      obtain ⟨o2, ho2, rfl⟩ := h
      have := ih o2 ho2
      have hx2 : x ≠ c := fun e => hx e.symm
      simp only [substr, List.drop_zero] at this ⊢
      rw [List.take_succ_cons, List.takeWhile_cons, this]
      simp [hx2]

theorem find_single_isSome (c : Char) : ∀ (s : Str), c ∈ s → ∃ o, find s [c] = some o := by
  intro s
  induction s with
  | nil =>
    intro h
    exact absurd h (List.not_mem_nil _)
  | cons x s ih =>
    intro h
    unfold find
    by_cases hx : c = x
    · subst hx
      exact ⟨0, by simp [List.isPrefixOf]⟩
    · have hp : List.isPrefixOf [c] (x :: s) = false := by
        simp [List.isPrefixOf, hx]
      rcases List.mem_cons.mp h with h1 | h1
      · exact absurd h1 hx
      · obtain ⟨o, ho⟩ := ih h1
        exact ⟨o + 1, by simp [hp, ho]⟩

theorem takeWhile_of_not_mem (c : Char) : ∀ (s : Str), c ∉ s →
    s.takeWhile (fun x => x ≠ c) = s := by
  intro s
  induction s with
  | nil => intro _; rfl
  | cons x s ih =>
    intro h
    rw [List.mem_cons, not_or] at h
    have hx : x ≠ c := fun e => h.1 e.symm
    rw [List.takeWhile_cons, ih h.2]
    simp [hx]

theorem takeWhile_both (s : Str) (h : '+' ∉ s.takeWhile (fun x => x ≠ '_')) :
    s.takeWhile (fun x => x ≠ '_' ∧ x ≠ '+') = s.takeWhile (fun x => x ≠ '_') := by
  induction s with
  | nil => rfl
  | cons x s ih =>
    rw [List.takeWhile_cons] at h ⊢
    rw [List.takeWhile_cons]
    by_cases hx : x = '_'
    · simp [hx]
    · simp only [ne_eq, hx, not_false_eq_true, decide_True, if_true, List.mem_cons,
        not_or] at h
      have hp : ¬ x = '+' := fun e => h.1 e.symm
      simp only [ne_eq, hx, hp, not_false_eq_true, and_self, decide_True, if_true]
      rw [← ih h.2]

/-- C27 fails as stated: for the codec name `i+sh_5`, `codec_type_name` returns
`i+sh`, the part before the first `_`, while the part before the first `_` or `+` is
`i`. -/
theorem codec_type_name_counterexample :
    codec_type_name (riscv_codec.mk "i+sh_5".toList "fmt".toList) = "i+sh".toList ∧
    "i+sh_5".toList.takeWhile (fun c => c ≠ '_' ∧ c ≠ '+') = "i".toList := by
  refine ⟨by decide, by decide⟩

/-- C27 as amended: `codec_type_name` returns the part of the name before its first
`_` when the name has a `_`; otherwise the part before its first `+` when it has a
`+`; otherwise the full name.  This is the part before the first `_` or `+` unless a
`+` stands before the first `_`. -/
theorem codec_type_name_spec (codec : riscv_codec) :
    ('_' ∈ codec.name →
      codec_type_name codec = codec.name.takeWhile (fun c => c ≠ '_')) ∧
    ('_' ∉ codec.name → '+' ∈ codec.name →
      codec_type_name codec = codec.name.takeWhile (fun c => c ≠ '+')) ∧
    ('_' ∉ codec.name → '+' ∉ codec.name → codec_type_name codec = codec.name) ∧
    (('_' ∈ codec.name → '+' ∉ codec.name.takeWhile (fun c => c ≠ '_')) →
      codec_type_name codec = codec.name.takeWhile (fun c => c ≠ '_' ∧ c ≠ '+')) := by
  have h1 : '_' ∈ codec.name →
      codec_type_name codec = codec.name.takeWhile (fun c => c ≠ '_') := by
    intro h
    obtain ⟨o, ho⟩ := find_single_isSome '_' codec.name h
    unfold codec_type_name
    rw [ho]
    exact find_single_takeWhile '_' _ o ho
  have h2 : '_' ∉ codec.name → '+' ∈ codec.name →
      codec_type_name codec = codec.name.takeWhile (fun c => c ≠ '+') := by
    intro hu hp
    obtain ⟨o, ho⟩ := find_single_isSome '+' codec.name hp
    unfold codec_type_name
    rw [find_single_none '_' _ hu, ho]
    exact find_single_takeWhile '+' _ o ho
  have h3 : '_' ∉ codec.name → '+' ∉ codec.name → codec_type_name codec = codec.name := by
    intro hu hp
    unfold codec_type_name
    rw [find_single_none '_' _ hu, find_single_none '+' _ hp]
  refine ⟨h1, h2, h3, ?_⟩
  intro h
  by_cases hu : '_' ∈ codec.name
  · rw [h1 hu, takeWhile_both _ (h hu)]
  · have hall : ∀ s : Str, '_' ∉ s →
        s.takeWhile (fun c => c ≠ '_' ∧ c ≠ '+') = s.takeWhile (fun c => c ≠ '+') := by
      intro s
      induction s with
      | nil => intro _; rfl
      | cons x s ih =>
        intro hs
        rw [List.mem_cons, not_or] at hs
        have hx : ¬ x = '_' := fun e => hs.1 e.symm
        rw [List.takeWhile_cons, List.takeWhile_cons]
        by_cases hp : x = '+'
        · simp [hp]
        · simp only [ne_eq, hx, hp, not_false_eq_true, and_self, decide_True, if_true]
          rw [ih hs.2]
    rw [hall _ hu]
    by_cases hp : '+' ∈ codec.name
    · exact h2 hu hp
    · rw [h3 hu hp, takeWhile_of_not_mem '+' _ hp]

/-- C27 as amended at the codec names `i_sh5`, `r+3` and `none`. -/
theorem codec_type_name_spec_witness :
    codec_type_name (riscv_codec.mk "i_sh5".toList "fmt".toList) =
      "i_sh5".toList.takeWhile (fun c => c ≠ '_') ∧
    codec_type_name (riscv_codec.mk "r+3".toList "fmt".toList) =
      "r+3".toList.takeWhile (fun c => c ≠ '+') ∧
    codec_type_name (riscv_codec.mk "none".toList "fmt".toList) = "none".toList :=
  ⟨(codec_type_name_spec _).1 (by decide), (codec_type_name_spec _).2.1 (by decide) (by decide),
    (codec_type_name_spec _).2.2.1 (by decide) (by decide)⟩

theorem template_msb_scatter_eq : ∀ (l : List riscv_bitrange) (msb : Int),
    riscv_bitspec.template_msb_scatter l msb = (l.map (fun ti => ti.msb)).foldl max msb := by
  intro l
  induction l with
  | nil => intro msb; rfl
  | cons ti rest ih =>
    intro msb
    rw [riscv_bitspec.template_msb_scatter, ih, List.map_cons, List.foldl_cons]
    congr 1
    rcases le_or_lt ti.msb msb with h | h
    · rw [if_neg (not_lt.mpr h), max_eq_left h]
    · rw [if_pos h, max_eq_right (le_of_lt h)]

theorem template_msb_segments_eq : ∀ (l : List riscv_bitseg) (msb : Int),
    riscv_bitspec.template_msb_segments l msb =
      (l.flatMap (fun si => si.2.map (fun ti => ti.msb))).foldl max msb := by
  intro l
  induction l with
  | nil => intro msb; rfl
  | cons si rest ih =>
    intro msb
    rw [riscv_bitspec.template_msb_segments, ih, template_msb_scatter_eq, List.flatMap_cons,
      List.foldl_append]

theorem foldl_max_ge : ∀ (l : List Int) (a : Int),
    a ≤ l.foldl max a ∧ ∀ x ∈ l, x ≤ l.foldl max a := by
  intro l
  induction l with
  | nil =>
    intro a
    exact ⟨le_refl a, fun x hx => absurd hx (List.not_mem_nil _)⟩
  | cons y l ih =>
    intro a
    rw [List.foldl_cons]
    obtain ⟨h1, h2⟩ := ih (max a y)
    refine ⟨le_trans (le_max_left a y) h1, ?_⟩
    intro x hx
    rcases List.mem_cons.mp hx with hx | hx
    · rw [hx]
      exact le_trans (le_max_right a y) h1
    · exact h2 x hx

theorem foldl_max_mem : ∀ (l : List Int) (a : Int),
    l.foldl max a = a ∨ l.foldl max a ∈ l := by
  intro l
  induction l with
  | nil => intro a; exact Or.inl rfl
  | cons y l ih =>
    intro a
    rw [List.foldl_cons]
    rcases ih (max a y) with h | h
    · rcases max_choice a y with hc | hc
      · left
        rw [h, hc]
      · right
        rw [h, hc]
        exact List.mem_cons_self _ _
    · right
      exact List.mem_cons_of_mem _ h

theorem intercalate_cons {α : Type} (sep : List α) : ∀ (l : List (List α)) (a : List α),
    List.intercalate sep (a :: l) = a ++ (l.map (fun x => sep ++ x)).flatten := by
  intro l
  induction l with
  | nil =>
    intro a
    simp [List.intercalate]
  | cons b l ih =>
    intro a
    have h := ih b
    simp only [List.intercalate, List.intersperse_cons_cons, List.flatten_cons,
      List.map_cons] at h ⊢
    rw [h, List.append_assoc]

theorem to_template_scatter_false : ∀ (l : List riscv_bitrange),
    riscv_bitspec.to_template_scatter false l =
      (l.map (fun ti => [','] ++ template_entry ti)).flatten := by
  intro l
  induction l with
  | nil => rfl
  | cons ti rest ih =>
    rw [riscv_bitspec.to_template_scatter, ih]
    simp [template_entry, collapse_single_bit_range_default]

theorem to_template_scatter_true (l : List riscv_bitrange) :
    riscv_bitspec.to_template_scatter true l =
      List.intercalate [','] (l.map template_entry) := by
  cases l with
  | nil => rfl
  | cons ti rest =>
    rw [riscv_bitspec.to_template_scatter, to_template_scatter_false, List.map_cons,
      intercalate_cons, List.map_map]
    simp [template_entry, collapse_single_bit_range_default, Function.comp_def]

theorem to_template_segment (first : Bool) (si : riscv_bitseg) (rest : List riscv_bitseg) :
    riscv_bitspec.to_template_segments first (si :: rest) =
      (if first then [] else ", ".toList) ++ template_group si ++
        riscv_bitspec.to_template_segments false rest := by
  rw [riscv_bitspec.to_template_segments, to_template_scatter_true]
  simp [template_group, riscv_bitrange.to_string]

theorem to_template_segments_false : ∀ (l : List riscv_bitseg),
    riscv_bitspec.to_template_segments false l =
      (l.map (fun si => ", ".toList ++ template_group si)).flatten := by
  intro l
  induction l with
  | nil => rfl
  | cons si rest ih =>
    rw [to_template_segment, ih]
    simp

theorem to_template_segments_true (l : List riscv_bitseg) :
    riscv_bitspec.to_template_segments true l =
      List.intercalate ", ".toList (l.map template_group) := by
  cases l with
  | nil => rfl
  | cons si rest =>
    rw [to_template_segment, to_template_segments_false, List.map_cons, intercalate_cons,
      List.map_map]
    simp [Function.comp_def]

theorem ssize_add_of_range (a b : Int) (h1 : -(2 : Int) ^ 63 ≤ a + b)
    (h2 : a + b < (2 : Int) ^ 63) : ssize_add a b = a + b := by
  unfold ssize_add to_signed64
  have hp : (2 : Int) ^ 63 = 9223372036854775808 := by norm_num
  have hq : (2 : Int) ^ 64 = 18446744073709551616 := by norm_num
  have hn63 : (2 : Nat) ^ 63 = 9223372036854775808 := by norm_num
  have hn64 : (2 : Nat) ^ 64 = 18446744073709551616 := by norm_num
  rw [hp] at h1 h2
  simp only [hq, hn63, hn64]
  split <;> omega

/-- C26 fails as stated: the bit-spec `5:0[-1]` has one scatter range, whose `msb` is
`-1`, so one plus the maximum scatter `msb` is 0, but its template form starts with
`imm_t<1, `; and the bit-spec `5:0[9223372036854775807]` has the scatter `msb`
`2^63 - 1`, so one plus the maximum is `2^63`, which the `ssize_t` sum of line 151
cannot be. -/
theorem to_template_width_counterexample :
    (bitspec_of "5:0[-1]").scatter_msbs = [-1] ∧
    (bitspec_of "5:0[-1]").to_template = "imm_t<1, S<5,0, B<-1>>>".toList ∧
    (bitspec_of "5:0[9223372036854775807]").scatter_msbs = [9223372036854775807] ∧
    (bitspec_of "5:0[9223372036854775807]").template_width ≠ 9223372036854775807 + 1 := by
  refine ⟨by decide, by decide, by decide, by decide⟩

/-- C26 as amended: the template form of a bit-spec is `imm_t<W, ` followed by one
group `S<msb,lsb, ...>` per segment, each holding one entry `B<...>` per scatter
range, and `>`; `W` is the `ssize_t` sum of 1 and the largest of 0 and the `msb` of
every scatter range: 1 when there is no scatter range, and one plus the maximum
scatter `msb` when that maximum is not negative and below `2^63 - 1`. -/
theorem to_template_spec (s : riscv_bitspec) :
    s.to_template = "imm_t<".toList ++ print_signed s.template_width ++ ", ".toList ++
      List.intercalate ", ".toList (s.segments.map template_group) ++ ['>'] ∧
    s.template_width = ssize_add (s.scatter_msbs.foldl max 0) 1 ∧
    (s.scatter_msbs = [] → s.template_width = 1) ∧
    (∀ mx, mx ∈ s.scatter_msbs → (∀ x ∈ s.scatter_msbs, x ≤ mx) → 0 ≤ mx →
      mx < 2 ^ 63 - 1 → s.template_width = mx + 1) ∧
    (∀ mx, mx ∈ s.scatter_msbs → (∀ x ∈ s.scatter_msbs, x ≤ mx) → mx < 0 →
      s.template_width = 1) ∧
    (-(2 : Int) ^ 63 ≤ s.template_width ∧ s.template_width < 2 ^ 63) := by
  have hw : s.template_width = ssize_add (s.scatter_msbs.foldl max 0) 1 := by
    unfold riscv_bitspec.template_width riscv_bitspec.scatter_msbs
    rw [template_msb_segments_eq]
  have hone : ssize_add 0 1 = 1 := by decide
  refine ⟨?_, hw, ?_, ?_, ?_, to_signed64_range _⟩
  · unfold riscv_bitspec.to_template
    rw [to_template_segments_true]
  · intro hnil
    rw [hw, hnil]
    exact hone
  · intro mx hmem hmax h0 hlt
    rw [hw]
    obtain ⟨h1, h2⟩ := foldl_max_ge s.scatter_msbs 0
    have hf : s.scatter_msbs.foldl max 0 = mx := by
      apply le_antisymm
      · rcases foldl_max_mem s.scatter_msbs 0 with h | h
        · rw [h]
          exact h0
        · exact hmax _ h
      · exact h2 mx hmem
    rw [hf]
    apply ssize_add_of_range
    · have : (0 : Int) < 2 ^ 63 := by norm_num
      omega
    · omega
  · intro mx hmem hmax hneg
    rw [hw]
    have hf : s.scatter_msbs.foldl max 0 = 0 := by
      rcases foldl_max_mem s.scatter_msbs 0 with h | h
      · exact h
      · have := hmax _ h
        have := (foldl_max_ge s.scatter_msbs 0).1
        omega
    rw [hf]
    exact hone

/-- C26 as amended at scenario S2: the template form of `31:25[12|10:5],11:7[4:1|11]`
begins with `imm_t<13, `; the maximum scatter `msb` is 12. -/
theorem to_template_spec_witness :
    "imm_t<13, ".toList <+: (bitspec_of "31:25[12|10:5],11:7[4:1|11]").to_template ∧
    (bitspec_of "31:25[12|10:5],11:7[4:1|11]").to_template =
      "imm_t<13, S<31,25, B<12>,B<10,5>>, S<11,7, B<4,1>,B<11>>>".toList ∧
    (bitspec_of "31:25[12|10:5],11:7[4:1|11]").template_width = 12 + 1 :=
  ⟨by decide, by decide,
    (to_template_spec (bitspec_of "31:25[12|10:5],11:7[4:1|11]")).2.2.2.1 12 (by decide)
      (by decide) (by decide) (by decide)⟩

theorem bitmask_to_bitrange_loop_append : ∀ (rest : List Int) (front : List riscv_bitrange)
    (back : riscv_bitrange),
    bitmask_to_bitrange_loop rest (front ++ [back]) =
      front ++ bitmask_to_bitrange_loop rest [back] := by
  intro rest
  induction rest with
  | nil => intro front back; rfl
  | cons b rest ih =>
    intro front back
    have h1 : (front ++ [back]).getLast? = some back := by simp
    have h2 : ([back] : List riscv_bitrange).getLast? = some back := rfl
    have h3 : (front ++ [back]).dropLast = front := by simp
    have h4 : ([back] : List riscv_bitrange).dropLast = [] := rfl
    rw [bitmask_to_bitrange_loop, bitmask_to_bitrange_loop]
    simp only [h1, h2, h3, h4]
    by_cases hb : b + 1 = back.lsb
    · rw [if_pos hb, if_pos hb, ih front, List.nil_append]
    · rw [if_neg hb, if_neg hb, ih (front ++ [back]), ih [back], List.append_assoc]

theorem range_bits_single (b : Int) : range_bits (riscv_bitrange.mk b b) = [b] := by
  simp [range_bits, List.range_succ]

theorem range_bits_extend (m l : Int) (h : m ≥ l) :
    range_bits (riscv_bitrange.mk m (l - 1)) = range_bits (riscv_bitrange.mk m l) ++ [l - 1] := by
  unfold range_bits
  have e1 : (m - (l - 1) + 1).toNat = (m - l + 1).toNat + 1 := by omega
  have e2 : m - (((m - l + 1).toNat : Nat) : Int) = l - 1 := by omega
  rw [e1, List.range_succ, List.map_append, List.map_singleton, e2]

/-- The shape of the loop of `bitmask_to_bitrange` on a descending list: the ranges
list the bits, each has `msb ≥ lsb`, and neighbours are two or more apart. -/
theorem bitmask_to_bitrange_loop_spec : ∀ (rest : List Int) (back : riscv_bitrange),
    List.Chain' (fun a b => a > b) (back.lsb :: rest) → back.msb ≥ back.lsb →
    ∃ tl, bitmask_to_bitrange_loop rest [back] = tl ∧
      (∃ r0 tl2, tl = r0 :: tl2 ∧ r0.msb = back.msb) ∧
      tl.flatMap range_bits = range_bits back ++ rest ∧
      (∀ r ∈ tl, r.msb ≥ r.lsb) ∧
      List.Chain' (fun a b => a.lsb ≥ b.msb + 2 ∧ a.msb > b.msb) tl := by
  intro rest
  induction rest with
  | nil =>
    intro back _ hb
    refine ⟨[back], rfl, ⟨back, [], rfl, rfl⟩, by simp, ?_, List.chain'_singleton _⟩
    intro r hr
    rw [List.mem_singleton] at hr
    rw [hr]
    exact hb
  | cons b rest ih =>
    intro back hch hb
    rw [List.chain'_cons] at hch
    obtain ⟨hlt, hch2⟩ := hch
    have h2 : ([back] : List riscv_bitrange).getLast? = some back := rfl
    have h4 : ([back] : List riscv_bitrange).dropLast = [] := rfl
    rw [bitmask_to_bitrange_loop]
    simp only [h2, h4, List.nil_append]
    by_cases he : b + 1 = back.lsb
    · rw [if_pos he]
      obtain ⟨tl, htl, ⟨r0, tl2, hr0, hm0⟩, hbits, hge, hgap⟩ :=
        ih { back with lsb := b } hch2 (by show back.msb ≥ b; omega)
      refine ⟨tl, htl, ⟨r0, tl2, hr0, hm0⟩, ?_, hge, hgap⟩
      rw [hbits]
      have hb1 : b = back.lsb - 1 := by omega
      have := range_bits_extend back.msb back.lsb hb
      rw [← hb1] at this
      rw [this, List.append_assoc]
      rfl
    · rw [if_neg he]
      have := bitmask_to_bitrange_loop_append rest [back] (riscv_bitrange.mk b b)
      rw [this]
      obtain ⟨tl, htl, ⟨r0, tl2, hr0, hm0⟩, hbits, hge, hgap⟩ :=
        ih (riscv_bitrange.mk b b) hch2 (le_refl b)
      rw [htl]
      refine ⟨[back] ++ tl, rfl, ⟨back, tl, rfl, rfl⟩, ?_, ?_, ?_⟩
      · rw [List.flatMap_append, hbits, range_bits_single]
        simp
      · intro r hr
        rcases List.mem_append.mp hr with hr | hr
        · rw [List.mem_singleton] at hr
          rw [hr]
          exact hb
        · exact hge r hr
      · rw [hr0] at hgap ⊢
        rw [List.singleton_append, List.chain'_cons]
        refine ⟨⟨?_, ?_⟩, hgap⟩
        · rw [hm0]
          show back.lsb ≥ b + 2
          omega
        · rw [hm0]
          show back.msb > b
          omega

/-- C24: for a strictly descending list of bit positions, `bitmask_to_bitrange` returns
ranges that list the bits of the input exactly (each range from its `msb` down to its
`lsb`), each with `msb ≥ lsb`, in descending order, the `lsb` of a range exceeding the
`msb` of the next by at least 2; the empty list gives the empty result. -/
theorem bitmask_to_bitrange_runs (bits : List Int)
    (h : List.Chain' (fun a b => a > b) bits) :
    (bitmask_to_bitrange bits).flatMap range_bits = bits ∧
    (∀ r ∈ bitmask_to_bitrange bits, r.msb ≥ r.lsb) ∧
    List.Chain' (fun a b => a.lsb ≥ b.msb + 2) (bitmask_to_bitrange bits) ∧
    List.Chain' (fun a b => a.msb > b.msb) (bitmask_to_bitrange bits) ∧
    bitmask_to_bitrange [] = [] := by
  cases bits with
  | nil =>
    exact ⟨rfl, fun r hr => absurd hr (List.not_mem_nil _), List.chain'_nil, List.chain'_nil,
      rfl⟩
  | cons b rest =>
    obtain ⟨tl, htl, _, hbits, hge, hgap⟩ :=
      bitmask_to_bitrange_loop_spec rest (riscv_bitrange.mk b b) h (le_refl b)
    have hdef : bitmask_to_bitrange (b :: rest) = tl := htl
    rw [hdef]
    refine ⟨?_, hge, hgap.imp (fun _ _ h => h.1), hgap.imp (fun _ _ h => h.2), rfl⟩
    rw [hbits, range_bits_single]
    rfl

/-- C24 at the bits 12, 10, 9, 8, 7, 6, 5: the ranges are `12` and `10:5`. -/
theorem bitmask_to_bitrange_runs_witness :
    bitmask_to_bitrange [12, 10, 9, 8, 7, 6, 5] =
      [riscv_bitrange.mk 12 12, riscv_bitrange.mk 10 5] ∧
    (bitmask_to_bitrange [12, 10, 9, 8, 7, 6, 5]).flatMap range_bits =
      [12, 10, 9, 8, 7, 6, 5] ∧
    List.Chain' (fun a b => a.lsb ≥ b.msb + 2) (bitmask_to_bitrange [12, 10, 9, 8, 7, 6, 5]) :=
  ⟨by decide, (bitmask_to_bitrange_runs [12, 10, 9, 8, 7, 6, 5] (by simp)).1,
    (bitmask_to_bitrange_runs [12, 10, 9, 8, 7, 6, 5] (by simp)).2.2.1⟩
theorem format_bitmask_loop_text (var : Str) (n : Nat) : ∀ (v : List riscv_bitrange)
    (first : Bool) (s : Int),
    format_bitmask_loop var n first v s =
      format_bitmask_text var first (format_bitmask_terms n v s) := by
  intro v
  induction v with
  | nil => intro first s; rfl
  | cons r rest ih =>
    intro first s
    rw [format_bitmask_loop, format_bitmask_terms, format_bitmask_text, ih]

theorem format_bitmask_digits_length (s e : Int) : ∀ (n : Nat),
    (format_bitmask_digits s e n).length = n := by
  intro n
  induction n with
  | zero => rfl
  | succ n ih => rw [format_bitmask_digits, List.length_cons, ih]

theorem mask_bit_digits (s e : Int) : ∀ (n d : Nat), d < n →
    (mask_bit (format_bitmask_digits s e n) d = true ↔
      ((d : Int) + 1 ≤ s ∧ (d : Int) + 1 ≥ e)) := by
  intro n
  induction n with
  | zero =>
    intro d hd
    exact absurd hd (Nat.not_lt_zero d)
  | succ n ih =>
    intro d hd
    unfold mask_bit
    rw [format_bitmask_digits, List.reverse_cons]
    have hlen : (format_bitmask_digits s e n).reverse.length = n := by
      rw [List.length_reverse, format_bitmask_digits_length]
    rcases Nat.lt_or_ge d n with hlt | hge
    · have := ih d hlt
      unfold mask_bit at this
      rw [List.getD_append _ _ _ _ (by rw [hlen]; exact hlt)]
      exact this
    · have hdn : d = n := by omega
      subst hdn
      rw [List.getD_append_right _ _ _ _ (by rw [hlen])]
      simp only [hlen, Nat.sub_self, List.getD_cons_zero, Nat.cast_add, Nat.cast_one]
      by_cases hc : (d : Int) + 1 ≤ s ∧ (d : Int) + 1 ≥ e
      · simp only [hc, and_self, if_true, decide_True]
      · simp only [hc, if_false]
        decide
theorem runs_length_cons (r : riscv_bitrange) (v : List riscv_bitrange) :
    runs_length (r :: v) = (r.msb - r.lsb + 1) + runs_length v := by
  simp [runs_length]

theorem runs_length_nonneg : ∀ (v : List riscv_bitrange), (∀ r ∈ v, r.msb ≥ r.lsb) →
    0 ≤ runs_length v := by
  intro v
  induction v with
  | nil => intro _; exact le_refl 0
  | cons r v ih =>
    intro h
    rw [runs_length_cons]
    have h1 := h r (List.mem_cons_self _ _)
    have h2 := ih (fun x hx => h x (List.mem_cons_of_mem _ hx))
    omega

theorem range_bits_length (r : riscv_bitrange) (h : r.msb ≥ r.lsb) :
    ((range_bits r).length : Int) = r.msb - r.lsb + 1 := by
  unfold range_bits
  rw [List.length_map, List.length_range]
  omega

theorem range_bits_getElem? (r : riscv_bitrange) (o : Nat) (b : Int)
    (h : (range_bits r)[o]? = some b) : b = r.msb - (o : Int) := by
  unfold range_bits at h
  rw [List.getElem?_map] at h
  cases hr : (List.range (r.msb - r.lsb + 1).toNat)[o]? with
  | none =>
    rw [hr] at h
    exact absurd h (by simp)
  | some i =>
    rw [hr, Option.map_some', Option.some.injEq] at h
    rw [List.getElem?_range (getElem?_lt_length hr |> fun x => by simpa using x),
      Option.some.injEq] at hr
    rw [← h, hr]

theorem flatMap_length (v : List riscv_bitrange) (h : ∀ r ∈ v, r.msb ≥ r.lsb) :
    ((v.flatMap range_bits).length : Int) = runs_length v := by
  induction v with
  | nil => rfl
  | cons r v ih =>
    rw [List.flatMap_cons, List.length_append, Nat.cast_add, runs_length_cons,
      range_bits_length r (h r (List.mem_cons_self _ _)),
      ih (fun x hx => h x (List.mem_cons_of_mem _ hx))]

/-- The term that `format_bitmask` writes for the range at position `t`: with `S` the
value of `range_start` when the loop reaches it. -/
theorem format_bitmask_terms_getElem? (n : Nat) : ∀ (v : List riscv_bitrange) (s : Int)
    (t : Nat) (r : riscv_bitrange), v[t]? = some r →
    (format_bitmask_terms n v s)[t]? =
      some (r.msb - (s - runs_length (v.take t)) + 1,
        format_bitmask_digits (s - runs_length (v.take t))
          (s - runs_length (v.take t) - (r.msb - r.lsb)) n) := by
  intro v
  induction v with
  | nil =>
    intro s t r h
    simp at h
  | cons r0 rest ih =>
    intro s t r h
    cases t with
    | zero =>
      simp only [List.getElem?_cons_zero, Option.some.injEq] at h
      subst h
      simp [format_bitmask_terms, runs_length]
    | succ t =>
      simp only [List.getElem?_cons_succ] at h
      have := ih (s - ((r0.msb - r0.lsb) + 1)) t r h
      rw [format_bitmask_terms, List.getElem?_cons_succ, this, List.take_succ_cons,
        runs_length_cons]
      have e : s - (r0.msb - r0.lsb + 1) - runs_length (List.take t rest) =
          s - (r0.msb - r0.lsb + 1 + runs_length (List.take t rest)) := by omega
      rw [e]

theorem format_bitmask_terms_length (n : Nat) : ∀ (v : List riscv_bitrange) (s : Int),
    (format_bitmask_terms n v s).length = v.length := by
  intro v
  induction v with
  | nil => intro s; rfl
  | cons r rest ih =>
    intro s
    rw [format_bitmask_terms, List.length_cons, List.length_cons, ih]

/-- Every bit of the listing of a list of ranges belongs to one range: the bit at
position `j` is the bit `msb - o` of the range at some position `t`, where `o` counts
from the start of the range. -/
theorem flatMap_range_bits_getElem? : ∀ (v : List riscv_bitrange),
    (∀ r ∈ v, r.msb ≥ r.lsb) → ∀ (j : Nat) (b : Int),
    (v.flatMap range_bits)[j]? = some b →
    ∃ (t o : Nat) (r : riscv_bitrange), v[t]? = some r ∧ (o : Int) ≤ r.msb - r.lsb ∧
      (j : Int) = runs_length (v.take t) + o ∧ b = r.msb - o := by
  intro v
  induction v with
  | nil =>
    intro _ j b h
    simp at h
  | cons r0 rest ih =>
    intro hge j b h
    have h0 := hge r0 (List.mem_cons_self _ _)
    have hl := range_bits_length r0 h0
    rw [List.flatMap_cons] at h
    rcases Nat.lt_or_ge j (range_bits r0).length with hlt | hge2
    · rw [List.getElem?_append_left hlt] at h
      refine ⟨0, j, r0, List.getElem?_cons_zero, ?_, ?_, range_bits_getElem? r0 j b h⟩
      · omega
      · simp [runs_length]
    · rw [List.getElem?_append_right hge2] at h
      obtain ⟨t, o, r, hr, ho, hj, hb⟩ :=
        ih (fun x hx => hge x (List.mem_cons_of_mem _ hx)) _ b h
      refine ⟨t + 1, o, r, by rw [List.getElem?_cons_succ]; exact hr, ho, ?_, hb⟩
      rw [List.take_succ_cons, runs_length_cons]
      omega

/-- The bits before a later range include the bits of every earlier range. -/
theorem runs_length_take_lt : ∀ (v : List riscv_bitrange), (∀ r ∈ v, r.msb ≥ r.lsb) →
    ∀ (t t2 : Nat) (r : riscv_bitrange), v[t]? = some r → t < t2 →
    runs_length (v.take t) + (r.msb - r.lsb + 1) ≤ runs_length (v.take t2) := by
  intro v
  induction v with
  | nil =>
    intro _ t t2 r h
    simp at h
  | cons r0 rest ih =>
    intro hge t t2 r h hlt
    cases t2 with
    | zero => exact absurd hlt (Nat.not_lt_zero t)
    | succ t2 =>
      rw [List.take_succ_cons, runs_length_cons]
      cases t with
      | zero =>
        simp only [List.getElem?_cons_zero, Option.some.injEq] at h
        subst h
        have := runs_length_nonneg (rest.take t2)
          (fun x hx => hge x (List.mem_cons_of_mem _ (List.mem_of_mem_take hx)))
        simp only [List.take_zero, runs_length, List.map_nil, List.sum_nil] at this ⊢
        omega
      | succ t =>
        simp only [List.getElem?_cons_succ] at h
        have := ih (fun x hx => hge x (List.mem_cons_of_mem _ hx)) t t2 r h (by omega)
        rw [List.take_succ_cons, runs_length_cons]
        omega

/-- In a strictly descending list of non-negative numbers, the number at position `k`
is at least the count of the numbers after it. -/
theorem descending_lower_bound : ∀ (bits : List Int), List.Chain' (fun a b => a > b) bits →
    (∀ b ∈ bits, 0 ≤ b) → ∀ (k : Nat) (b : Int), bits[k]? = some b →
    (bits.length : Int) - 1 - k ≤ b := by
  intro bits
  induction bits with
  | nil =>
    intro _ _ k b h
    simp at h
  | cons x rest ih =>
    intro hch hnn k b h
    have hch2 : List.Chain' (fun a b => a > b) rest := List.Chain'.tail hch
    have hnn2 : ∀ b ∈ rest, 0 ≤ b := fun y hy => hnn y (List.mem_cons_of_mem _ hy)
    cases k with
    | zero =>
      simp only [List.getElem?_cons_zero, Option.some.injEq] at h
      subst h
      cases rest with
      | nil =>
        have := hnn x (List.mem_cons_self _ _)
        simp only [List.length_singleton, Nat.cast_one, CharP.cast_eq_zero]
        omega
      | cons y rest2 =>
        have hxy : x > y := (List.chain'_cons.mp hch).1
        have := ih hch2 hnn2 0 y List.getElem?_cons_zero
        simp only [List.length_cons, Nat.cast_add, Nat.cast_one, CharP.cast_eq_zero] at this ⊢
        omega
    | succ k =>
      simp only [List.getElem?_cons_succ] at h
      have := ih hch2 hnn2 k b h
      simp only [List.length_cons, Nat.cast_add, Nat.cast_one]
      omega
theorem range_bits_head (r : riscv_bitrange) (h : r.msb ≥ r.lsb) :
    (range_bits r)[0]? = some r.msb := by
  unfold range_bits
  have e : (r.msb - r.lsb + 1).toNat = (r.msb - r.lsb).toNat + 1 := by omega
  rw [e, List.getElem?_map, List.getElem?_range (Nat.succ_pos _)]
  simp

theorem getElem?_flatMap_take (v : List riscv_bitrange) (t : Nat) (r : riscv_bitrange)
    (hr : v[t]? = some r) (h : r.msb ≥ r.lsb) :
    (v.flatMap range_bits)[((v.take t).flatMap range_bits).length]? = some r.msb := by
  have hlt := getElem?_lt_length hr
  have hsplit : v = v.take t ++ r :: v.drop (t + 1) := by
    have hd : v.drop t = r :: v.drop (t + 1) := by
      rw [List.drop_eq_getElem_cons hlt]
      congr 1
      rw [List.getElem?_eq_getElem hlt, Option.some.injEq] at hr
      exact hr
    rw [← hd, List.take_append_drop]
  have e : v.flatMap range_bits =
      (v.take t).flatMap range_bits ++ (range_bits r ++ (v.drop (t + 1)).flatMap range_bits) := by
    conv_lhs => rw [hsplit]
    rw [List.flatMap_append, List.flatMap_cons]
  rw [e, List.getElem?_append_right (le_refl _), Nat.sub_self]
  have h0 := range_bits_head r h
  have hpos : 0 < (range_bits r).length := getElem?_lt_length h0
  rw [List.getElem?_append_left hpos]
  exact h0

/-- C25: for a strictly descending list of `n` non-negative bit positions, the text of
`format_bitmask` is made of one shift and one mask of `n` digits per range; for the
range whose `msb` is the bit at position `k` the shift is `msb - (n - 1 - k)`, which is
not negative, and the mask has ones exactly at the destination bits from
`n - 1 - k - (msb - lsb)` to `n - 1 - k`; the bit at position `j` is moved by the shift
of its range to destination bit `n - 1 - j`, where the mask of that range has a one
and the mask of every other range a zero. -/
theorem format_bitmask_places (bits : List Int) (var : Str) (comment : Bool)
    (hdesc : List.Chain' (fun a b => a > b) bits) (hnn : ∀ b ∈ bits, 0 ≤ b) :
    format_bitmask bits var comment =
      format_bitmask_text var true (format_bitmask_bits_terms bits) ++
        (if comment then
          " /* ".toList ++ var ++ ['['] ++
            format_bitmask_ranges true (bitmask_to_bitrange bits) ++ "] */".toList
        else []) ∧
    (format_bitmask_bits_terms bits).length = (bitmask_to_bitrange bits).length ∧
    (∀ (t : Nat) (r : riscv_bitrange), (bitmask_to_bitrange bits)[t]? = some r →
      ∃ (k : Nat) (shift : Int) (mask : Str),
        (format_bitmask_bits_terms bits)[t]? = some (shift, mask) ∧
        bits[k]? = some r.msb ∧
        shift = r.msb - ((bits.length : Int) - 1 - k) ∧ 0 ≤ shift ∧
        mask.length = bits.length ∧
        ∀ (d : Nat), d < bits.length →
          (mask_bit mask d = true ↔
            ((bits.length : Int) - 1 - k - (r.msb - r.lsb) ≤ d ∧
              (d : Int) ≤ (bits.length : Int) - 1 - k))) ∧
    (∀ (j : Nat) (b : Int), bits[j]? = some b →
      ∃ (t : Nat) (shift : Int) (mask : Str),
        (format_bitmask_bits_terms bits)[t]? = some (shift, mask) ∧
        b - shift = (bits.length : Int) - 1 - j ∧
        mask_bit mask (bits.length - 1 - j) = true ∧
        ∀ (t2 : Nat) (shift2 : Int) (mask2 : Str),
          (format_bitmask_bits_terms bits)[t2]? = some (shift2, mask2) → t2 ≠ t →
          mask_bit mask2 (bits.length - 1 - j) = false) := by
  obtain ⟨hbits, hge, _, _, _⟩ := bitmask_to_bitrange_runs bits hdesc
  have hterm := format_bitmask_terms_getElem? bits.length (bitmask_to_bitrange bits)
    bits.length
  have hlen := format_bitmask_terms_length bits.length (bitmask_to_bitrange bits) bits.length
  refine ⟨?_, hlen, ?_, ?_⟩
  · unfold format_bitmask format_bitmask_bits_terms
    rw [format_bitmask_loop_text]
  · intro t r hr
    have hr_ge := hge r (List.mem_iff_getElem?.mpr ⟨t, hr⟩)
    have hk := flatMap_length ((bitmask_to_bitrange bits).take t)
      (fun x hx => hge x (List.mem_of_mem_take hx))
    have hbk := getElem?_flatMap_take (bitmask_to_bitrange bits) t r hr hr_ge
    rw [hbits] at hbk
    have hlow := descending_lower_bound bits hdesc hnn _ _ hbk
    refine ⟨_, _, _, hterm t r hr, hbk, ?_, ?_, format_bitmask_digits_length _ _ _, ?_⟩
    · omega
    · omega
    · intro d hd
      rw [mask_bit_digits _ _ _ d hd]
      constructor
      · intro h
        omega
      · intro h
        omega
  · intro j b hj
    have hjlt := getElem?_lt_length hj
    rw [← hbits] at hj
    obtain ⟨t, o, r, hr, ho, hjo, hb⟩ :=
      flatMap_range_bits_getElem? (bitmask_to_bitrange bits) hge j b hj
    have hd : bits.length - 1 - j < bits.length := by omega
    refine ⟨t, _, _, hterm t r hr, ?_, ?_, ?_⟩
    · omega
    · rw [mask_bit_digits _ _ _ _ hd]
      omega
    · intro t2 shift2 mask2 h2 hne
      have ht2 : t2 < (bitmask_to_bitrange bits).length := by
        rw [← hlen]
        exact getElem?_lt_length h2
      have hr2 : (bitmask_to_bitrange bits)[t2]? = some ((bitmask_to_bitrange bits).get ⟨t2, ht2⟩) :=
        List.getElem?_eq_getElem ht2
      have h2b := hterm t2 _ hr2
      unfold format_bitmask_bits_terms at h2
      rw [h2b, Option.some.injEq, Prod.mk.injEq] at h2
      obtain ⟨_, hm2⟩ := h2
      have hiff := mask_bit_digits
        ((bits.length : Int) - runs_length ((bitmask_to_bitrange bits).take t2))
        ((bits.length : Int) - runs_length ((bitmask_to_bitrange bits).take t2) -
          (((bitmask_to_bitrange bits).get ⟨t2, ht2⟩).msb -
            ((bitmask_to_bitrange bits).get ⟨t2, ht2⟩).lsb))
        bits.length _ hd
      rw [hm2] at hiff
      have hr2_ge := hge _ (List.mem_iff_getElem?.mpr ⟨t2, hr2⟩)
      cases hmb : mask_bit mask2 (bits.length - 1 - j) with
      | false => rfl
      | true =>
        have hcond := hiff.mp hmb
        rcases Nat.lt_or_gt_of_ne hne with hlt | hgt
        · have := runs_length_take_lt (bitmask_to_bitrange bits) hge t2 t _ hr2 hlt
          omega
        · have := runs_length_take_lt (bitmask_to_bitrange bits) hge t t2 r hr hgt
          omega
/-- C25 at the bits 12, 10, 9, 8, 7, 6, 5 of `inst`: bit 12 is shifted by 6 to
destination bit 6, the bits 10 to 5 are shifted by 5 to the destination bits 5 to 0. -/
theorem format_bitmask_places_witness :
    format_bitmask [12, 10, 9, 8, 7, 6, 5] "inst".toList true =
      "((inst >> 6) & 0b1000000) | ((inst >> 5) & 0b0111111) /* inst[12|10:5] */".toList ∧
    format_bitmask_bits_terms [12, 10, 9, 8, 7, 6, 5] =
      [(6, "1000000".toList), (5, "0111111".toList)] ∧
    ∀ (j : Nat) (b : Int), ([12, 10, 9, 8, 7, 6, 5] : List Int)[j]? = some b →
      ∃ (t : Nat) (shift : Int) (mask : Str),
        (format_bitmask_bits_terms [12, 10, 9, 8, 7, 6, 5])[t]? = some (shift, mask) ∧
        b - shift = (([12, 10, 9, 8, 7, 6, 5] : List Int).length : Int) - 1 - j ∧
        mask_bit mask (([12, 10, 9, 8, 7, 6, 5] : List Int).length - 1 - j) = true ∧
        ∀ (t2 : Nat) (shift2 : Int) (mask2 : Str),
          (format_bitmask_bits_terms [12, 10, 9, 8, 7, 6, 5])[t2]? = some (shift2, mask2) →
          t2 ≠ t →
          mask_bit mask2 (([12, 10, 9, 8, 7, 6, 5] : List Int).length - 1 - j) = false :=
  ⟨by decide, by decide,
    (format_bitmask_places [12, 10, 9, 8, 7, 6, 5] "inst".toList true (by simp)
      (by decide)).2.2.2⟩

end RiscvModel
